import Mathlib

/-!
ImpactX: reference-particle kinematics and beam-optics element maps.

A shallow embedding of `src/particles/ReferenceParticle.H` and of the element
functors under `src/particles/elements/`, over exact real arithmetic:
`amrex::ParticleReal` is read as `ℝ`, `sqrt` as `Real.sqrt`, `pow(a, 2)` as `a ^ 2`,
and the trigonometric and hyperbolic functions as their real counterparts.
Member functions that mutate `*this` return the updated record.
Debug-only assertions (`AMREX_ASSERT_WITH_MESSAGE`) are not part of the release
semantics; their conditions appear as hypotheses of the theorems.
Division is the total division of `ℝ` (`a / 0 = 0`) and `Real.sqrt` is zero on negative
arguments; the theorems carry the hypotheses under which the divisions and square roots
of the source are defined.
-/

noncomputable section

namespace impactx

/-! ## Physical constants -/

/-- The constants of `ablastr::constant::SI` that the reference particle reads.
The header `ablastr/constant.H` is not among the sources, so the three values are
parameters of every definition that uses them. -/
structure SI where
  /-- speed of light in vacuum, in m/s -/
  c : ℝ
  /-- elementary charge, in C -/
  q_e : ℝ
  /-- mass of one MeV/c^2, in kg -/
  MeV_invc2 : ℝ

/-- Modelled from the spec: the header `ablastr/constant.H` is missing; the spec fixes the
units (mass in kg against MeV/c^2, charge in C against multiples of the elementary charge),
and these are the exact SI values of the speed of light and the elementary charge, with
one MeV/c^2 equal to `10^6 * q_e / c^2` kilograms. -/
def SI.codata : SI where
  c := 299792458
  q_e := 1.602176634e-19
  MeV_invc2 := 1.602176634e-19 * 1e6 / (299792458 * 299792458)

/-! ## Reference particle (`struct RefPart`) -/

/-- The reference particle attributes, `struct RefPart`. -/
structure RefPart where
  /-- integrated orbit path length, in meters -/
  s : ℝ
  /-- horizontal position x, in meters -/
  x : ℝ
  /-- vertical position y, in meters -/
  y : ℝ
  /-- longitudinal position z, in meters -/
  z : ℝ
  /-- clock time * c in meters -/
  t : ℝ
  /-- momentum in x, normalized to proper velocity -/
  px : ℝ
  /-- momentum in y, normalized to proper velocity -/
  py : ℝ
  /-- momentum in z, normalized to proper velocity -/
  pz : ℝ
  /-- energy deviation, normalized by rest energy -/
  pt : ℝ
  /-- reference rest mass, in kg -/
  mass : ℝ
  /-- reference charge, in C -/
  charge : ℝ
  /-- value of s at entrance of the current beamline element -/
  sedge : ℝ
  /-- linearized map, `amrex::Array2D<amrex::ParticleReal, 1, 6, 1, 6>` -/
  map : Fin 6 → Fin 6 → ℝ

namespace RefPart

/-- Relativistic gamma, `RefPart::gamma`. -/
def gamma (r : RefPart) : ℝ :=
  let ref_gamma := -r.pt
  ref_gamma

/-- Relativistic beta, `RefPart::beta`. -/
def beta (r : RefPart) : ℝ :=
  let ref_gamma := -r.pt
  let ref_beta := Real.sqrt (1 - 1 / ref_gamma ^ 2)
  ref_beta

/-- Relativistic beta*gamma, `RefPart::beta_gamma`. -/
def beta_gamma (r : RefPart) : ℝ :=
  let ref_gamma := -r.pt
  let ref_betagamma := Real.sqrt (ref_gamma ^ 2 - 1)
  ref_betagamma

/-- Rest mass in MeV/c^2, `RefPart::mass_MeV`. -/
def mass_MeV (K : SI) (r : RefPart) : ℝ :=
  let inv_MeV_invc2 := 1 / K.MeV_invc2
  r.mass * inv_MeV_invc2

/-- Kinetic energy in MeV, `RefPart::energy_MeV`. -/
def energy_MeV (K : SI) (r : RefPart) : ℝ :=
  let ref_gamma := -r.pt
  let ref_energy := r.mass_MeV K * (ref_gamma - 1)
  ref_energy

/-- Set the rest mass from a value in MeV/c^2, `RefPart::set_mass_MeV`.
The statements run in the order of the source: `mass` is assigned first, then `pt`
is recomputed from `energy_MeV()` of the already updated record, then `pz`. -/
def set_mass_MeV (K : SI) (r : RefPart) (massE : ℝ) : RefPart :=
  let r1 : RefPart := { r with mass := massE * K.MeV_invc2 }
  if r1.pt ≠ 0 then
    let r2 : RefPart := { r1 with pt := -r1.energy_MeV K / massE - 1 }
    let r3 : RefPart := { r2 with pz := Real.sqrt (r2.pt ^ 2 - 1) }
    r3
  else
    r1

/-- Set the kinetic energy from a value in MeV, `RefPart::set_energy_MeV`. -/
def set_energy_MeV (K : SI) (r : RefPart) (energy : ℝ) : RefPart :=
  let r1 : RefPart := { r with px := 0 }
  let r2 : RefPart := { r1 with py := 0 }
  let r3 : RefPart := { r2 with pt := -energy / r2.mass_MeV K - 1 }
  let r4 : RefPart := { r3 with pz := Real.sqrt (r3.pt ^ 2 - 1) }
  r4

/-- Magnetic rigidity in T*m, `RefPart::rigidity_Tm`. -/
def rigidity_Tm (K : SI) (r : RefPart) : ℝ :=
  let ref_gamma := -r.pt
  let ref_betagamma := Real.sqrt (ref_gamma ^ 2 - 1)
  let ref_rigidity := r.mass * ref_betagamma * K.c / K.q_e
  ref_rigidity

/-- Charge in multiples of the elementary charge, `RefPart::charge_qe`. -/
def charge_qe (K : SI) (r : RefPart) : ℝ :=
  let inv_qe := 1 / K.q_e
  r.charge * inv_qe

/-- Set the charge from a multiple of the elementary charge, `RefPart::set_charge_qe`. -/
def set_charge_qe (K : SI) (r : RefPart) (charge_qe : ℝ) : RefPart :=
  { r with charge := charge_qe * K.q_e }

/-- Charge to mass ratio, `RefPart::qm_qeeV`: the body is `return charge / mass;`. -/
def qm_qeeV (r : RefPart) : ℝ :=
  r.charge / r.mass

end RefPart

/-- A reference particle at rest at the origin with every field zero except the
given `pt`, `mass` and `charge`; used to write concrete states. -/
def RefPart.ofPtMassCharge (pt mass charge : ℝ) : RefPart where
  s := 0
  x := 0
  y := 0
  z := 0
  t := 0
  px := 0
  py := 0
  pz := 0
  pt := pt
  mass := mass
  charge := charge
  sedge := 0
  map := fun _ _ => 0

/-! ## Particle record -/

/-- The per-particle phase-space record seen by an element functor: the three
positions `p.pos(RealAoS::x)`, `p.pos(RealAoS::y)`, `p.pos(RealAoS::t)` of the
particle and the three momenta `px`, `py`, `pt` passed by reference. -/
structure Particle where
  /-- horizontal offset -/
  x : ℝ
  /-- vertical offset -/
  y : ℝ
  /-- time-of-flight offset -/
  t : ℝ
  /-- horizontal momentum -/
  px : ℝ
  /-- vertical momentum -/
  py : ℝ
  /-- energy deviation -/
  pt : ℝ

/-- The particle with the two transverse planes exchanged: `(x, px)` and `(y, py)` trade
places, `t` and `pt` stay. Used to state the mirror symmetry of the quadrupole. -/
def Particle.swap_xy (p : Particle) : Particle :=
  { x := p.y, y := p.x, t := p.t, px := p.py, py := p.px, pt := p.pt }

/-! ## The `None` element -/

/-- The element `None`; it has no data members. -/
structure None where

/-- The per-particle functor of `None`, `None::operator()`: the body is empty, so
the positions and the momenta passed by reference keep their values. -/
def None.op_particle (_e : None) (p : Particle) (_refpart : RefPart) : Particle :=
  p

/-! ## The chromatic quadrupole `ChrQuad` -/

/-- The element `ChrQuad`: the segment length and slice count of the `Thick` mixin and
the strength and unit fields of the element itself. -/
structure ChrQuad where
  /-- segment length in m -/
  m_ds : ℝ
  /-- number of slices -/
  m_nslice : ℤ
  /-- quadrupole strength in 1/m^2 (or T/m) -/
  m_k : ℝ
  /-- unit specification for quad strength -/
  m_unit : ℤ

/-- Constructor `ChrQuad(ds, k, unit, nslice)`. -/
def ChrQuad.new (ds k : ℝ) (unit nslice : ℤ) : ChrQuad where
  m_ds := ds
  m_nslice := nslice
  m_k := k
  m_unit := unit

/-- The accessor `nslice()` of the `Thick` mixin. -/
def ChrQuad.nslice (e : ChrQuad) : ℤ := e.m_nslice

/-- The per-particle functor of `ChrQuad`, `ChrQuad::operator()(p, px, py, pt, refpart)`.
The branch on the sign of `g` yields the new transverse coordinates together with the
placeholder variables `q1, q2, p1, p2`; the update of `t` follows the branch. -/
def ChrQuad.op_particle (K : SI) (e : ChrQuad) (p : Particle) (refpart : RefPart) : Particle :=
  let x := p.x
  let y := p.y
  let t := p.t
  let px := p.px
  let py := p.py
  let pt := p.pt
  -- length of the current slice
  let slice_ds := e.m_ds / (e.nslice : ℝ)
  -- access reference particle values to find beta
  let bet := refpart.beta
  -- normalize quad units to MAD-X convention if needed
  let g := if e.m_unit = 1 then e.m_k / refpart.rigidity_Tm K else e.m_k
  -- compute particle momentum deviation delta + 1
  let delta1 := Real.sqrt (1 - 2 * pt / bet + pt ^ 2)
  let delta := delta1 - 1
  -- compute phase advance per unit length in s
  let omega := Real.sqrt (|g| / delta1)
  let ptout := pt
  -- (xout, pxout, yout, pyout, q1, q2, p1, p2)
  let br : ℝ × ℝ × ℝ × ℝ × ℝ × ℝ × ℝ × ℝ :=
    if g > 0 then
      (Real.cos (omega * slice_ds) * x + Real.sin (omega * slice_ds) / (omega * delta1) * px,
       -omega * delta1 * Real.sin (omega * slice_ds) * x + Real.cos (omega * slice_ds) * px,
       Real.cosh (omega * slice_ds) * y + Real.sinh (omega * slice_ds) / (omega * delta1) * py,
       omega * delta1 * Real.sinh (omega * slice_ds) * y + Real.cosh (omega * slice_ds) * py,
       x, y, px, py)
    else
      (Real.cosh (omega * slice_ds) * x + Real.sinh (omega * slice_ds) / (omega * delta1) * px,
       omega * delta1 * Real.sinh (omega * slice_ds) * x + Real.cosh (omega * slice_ds) * px,
       Real.cos (omega * slice_ds) * y + Real.sin (omega * slice_ds) / (omega * delta1) * py,
       -omega * delta1 * Real.sin (omega * slice_ds) * y + Real.cos (omega * slice_ds) * py,
       y, x, py, px)
  let xout := br.1
  let pxout := br.2.1
  let yout := br.2.2.1
  let pyout := br.2.2.2.1
  let q1 := br.2.2.2.2.1
  let q2 := br.2.2.2.2.2.1
  let p1 := br.2.2.2.2.2.2.1
  let p2 := br.2.2.2.2.2.2.2
  -- the corresponding symplectic update to t
  let term := pt + delta / bet
  let t0 := t - term * slice_ds / delta1
  let w := omega * delta1
  let term1 := -(p2 ^ 2 + q2 ^ 2 * w ^ 2) * Real.sinh (2 * slice_ds * omega)
  let term2 := -(p1 ^ 2 - q1 ^ 2 * w ^ 2) * Real.sin (2 * slice_ds * omega)
  let term3 := -2 * q2 * p2 * w * Real.cosh (2 * slice_ds * omega)
  let term4 := -2 * q1 * p1 * w * Real.cos (2 * slice_ds * omega)
  let term5 := 2 * omega * (q1 * p1 * delta1 + q2 * p2 * delta1
                 - (p1 ^ 2 + p2 ^ 2) * slice_ds - (q1 ^ 2 - q2 ^ 2) * w ^ 2 * slice_ds)
  let tout := t0 + (-1 + bet * pt) / (8 * bet * delta1 ^ 3 * omega)
                 * (term1 + term2 + term3 + term4 + term5)
  { x := xout, y := yout, t := tout, px := pxout, py := pyout, pt := ptout }

/-- The reference-particle functor of `ChrQuad`, `ChrQuad::operator()(refpart)`: the push
of a straight element over one slice. -/
def ChrQuad.op_refpart (e : ChrQuad) (refpart : RefPart) : RefPart :=
  -- assign input reference particle values
  let x := refpart.x
  let px := refpart.px
  let y := refpart.y
  let py := refpart.py
  let z := refpart.z
  let pz := refpart.pz
  let t := refpart.t
  let pt := refpart.pt
  let s := refpart.s
  -- length of the current slice
  let slice_ds := e.m_ds / (e.nslice : ℝ)
  -- assign intermediate parameter
  let step := slice_ds / Real.sqrt (pt ^ 2 - 1)
  -- advance position and momentum (straight element)
  let r1 : RefPart := { refpart with x := x + step * px }
  let r2 : RefPart := { r1 with y := y + step * py }
  let r3 : RefPart := { r2 with z := z + step * pz }
  let r4 : RefPart := { r3 with t := t - step * pt }
  -- advance integrated path length
  let r5 : RefPart := { r4 with s := s + slice_ds }
  r5

/-- The denominators of the divisions evaluated by the per-particle functor of `ChrQuad`, in
the order of the source: `m_ds / nslice()`, `m_k / refpart.rigidity_Tm()` (only for
`m_unit == 1`), `2*pt/bet`, `abs(g)/delta1`, the two divisions by `omega*delta1` of the
branch taken, `delta/bet`, `term*slice_ds/delta1` and the division by
`8*bet*pow(delta1,3)*omega`. -/
def ChrQuad.denominators (K : SI) (e : ChrQuad) (p : Particle) (refpart : RefPart) : List ℝ :=
  let pt := p.pt
  let bet := refpart.beta
  let g := if e.m_unit = 1 then e.m_k / refpart.rigidity_Tm K else e.m_k
  let delta1 := Real.sqrt (1 - 2 * pt / bet + pt ^ 2)
  let omega := Real.sqrt (|g| / delta1)
  [(e.nslice : ℝ)] ++ (if e.m_unit = 1 then [refpart.rigidity_Tm K] else [])
    ++ [bet, delta1, omega * delta1, omega * delta1, bet, delta1,
        8 * bet * delta1 ^ 3 * omega]

/-! ## Machine integers -/

/-- The value of an integer as a 32-bit two's complement `int`: the representative of
`n` modulo `2^32` in the range `-2^31 ≤ · < 2^31`. -/
def wrap_int32 (n : ℤ) : ℤ :=
  (n + 2 ^ 31) % 2 ^ 32 - 2 ^ 31

/-! ## The thin multipole `Multipole` -/

/-- The element `Multipole`: index, stored factorial and the two integrated
coefficients. The two `int` members hold 32-bit values. -/
structure Multipole where
  /-- multipole index -/
  m_multipole : ℤ
  /-- factorial of multipole index -/
  m_mfactorial : ℤ
  /-- integrated normal multipole coefficient -/
  m_Kn : ℝ
  /-- integrated skew multipole coefficient -/
  m_Ks : ℝ

/-- Constructor `Multipole(multipole, K_normal, K_skew)`. The loop
`for (int n = 1; n < m + 1; n = n + 1) m_mfactorial *= n;` runs over `n = 1, ..., m`
and every `int` operation is reduced to 32 bits. -/
def Multipole.new (multipole : ℤ) (K_normal K_skew : ℝ) : Multipole :=
  -- compute factorial of multipole index
  let m := wrap_int32 (multipole - 1)
  let m_mfactorial : ℤ :=
    (List.range' 1 (wrap_int32 (m + 1) - 1).toNat).foldl
      (fun acc n => wrap_int32 (acc * (n : ℤ))) 1
  { m_multipole := multipole, m_mfactorial := m_mfactorial, m_Kn := K_normal, m_Ks := K_skew }

/-- The per-particle functor of `Multipole`, `Multipole::operator()`.
`amrex::GpuComplex` is read as `ℂ` and `amrex::pow(zeta, m)` with an `int` exponent as
the integer power. -/
def Multipole.op_particle (e : Multipole) (p : Particle) (_refpart : RefPart) : Particle :=
  let x := p.x
  let y := p.y
  let t := p.t
  let px := p.px
  let py := p.py
  let pt := p.pt
  -- assign complex position and complex multipole strength
  let zeta : ℂ := ⟨x, y⟩
  let alpha : ℂ := ⟨e.m_Kn, e.m_Ks⟩
  -- compute complex momentum kick
  let m := wrap_int32 (e.m_multipole - 1)
  let kick : ℂ := zeta ^ m
  let kick : ℂ := kick * alpha
  let dpx := -1 * kick.re / (e.m_mfactorial : ℝ)
  let dpy := kick.im / (e.m_mfactorial : ℝ)
  -- advance position and momentum
  let pxout := px + dpx
  let pyout := py + dpy
  let ptout := pt
  { x := x, y := y, t := t, px := pxout, py := pyout, pt := ptout }

/-! ## The nonlinear lens `NonlinearLens` -/

/-- The complex square root `amrex::sqrt` of the AMReX library: the principal branch. -/
def csqrt (z : ℂ) : ℂ :=
  z ^ (2⁻¹ : ℂ)

/-- The element `NonlinearLens`. -/
structure NonlinearLens where
  /-- integrated strength of the nonlinear lens (m) -/
  m_knll : ℝ
  /-- distance of singularities from the origin (m) -/
  m_cnll : ℝ

/-- Constructor `NonlinearLens(knll, cnll)`. -/
def NonlinearLens.new (knll cnll : ℝ) : NonlinearLens where
  m_knll := knll
  m_cnll := cnll

/-- The per-particle functor of `NonlinearLens`, `NonlinearLens::operator()`.
`amrex::log` is the principal complex logarithm. -/
def NonlinearLens.op_particle (e : NonlinearLens) (p : Particle) (_refpart : RefPart) :
    Particle :=
  let x := p.x
  let y := p.y
  let t := p.t
  let px := p.px
  let py := p.py
  let pt := p.pt
  -- assign complex position zeta = (x + iy)/cnll
  let zeta : ℂ := ⟨x, y⟩
  let zeta : ℂ := zeta / (e.m_cnll : ℂ)
  let re1 : ℂ := ⟨1, 0⟩
  let im1 : ℂ := ⟨0, 1⟩
  -- compute croot = sqrt(1-zeta**2)
  let croot : ℂ := zeta ^ 2
  let croot : ℂ := re1 - croot
  let croot : ℂ := csqrt croot
  -- compute carcsin = arcsin(zeta)
  let carcsin : ℂ := im1 * zeta + croot
  let carcsin : ℂ := -im1 * Complex.log carcsin
  -- compute complex function F'(zeta)
  let dF : ℂ := zeta / croot ^ 2
  let dF : ℂ := dF + carcsin / croot ^ 3
  -- compute momentum kick
  let kick := -e.m_knll / e.m_cnll
  let dpx := kick * dF.re
  let dpy := -kick * dF.im
  -- advance position and momentum
  let pxout := px + dpx
  let pyout := py + dpy
  let ptout := pt
  { x := x, y := y, t := t, px := pxout, py := pyout, pt := ptout }

/-! ## The pole-face rotation `PRot` -/

/-- The constant `PRot::degree2rad = pi / 180`. -/
def PRot.degree2rad : ℝ :=
  Real.pi / 180

/-- The element `PRot`; the two angles are stored in radians. -/
structure PRot where
  /-- initial angle of the reference trajectory with the z-axis, in rad -/
  m_phi_in : ℝ
  /-- final angle of the reference trajectory with the z-axis, in rad -/
  m_phi_out : ℝ

/-- Constructor `PRot(phi_in, phi_out)` with both angles given in degrees. -/
def PRot.new (phi_in phi_out : ℝ) : PRot where
  m_phi_in := phi_in * PRot.degree2rad
  m_phi_out := phi_out * PRot.degree2rad

/-- The per-particle functor of `PRot`, `PRot::operator()`. -/
def PRot.op_particle (e : PRot) (p : Particle) (refpart : RefPart) : Particle :=
  let x := p.x
  let y := p.y
  let t := p.t
  let px := p.px
  let py := p.py
  let pt := p.pt
  -- access reference particle values to find beta
  let beta := refpart.beta
  -- store rotation angle and initial, final values of pz
  let theta := e.m_phi_out - e.m_phi_in
  let pz := Real.sqrt (1 - 2 * pt / beta + pt ^ 2 - py ^ 2 - (px + Real.sin e.m_phi_in) ^ 2)
  let pzf := pz * Real.cos theta - (px + Real.sin e.m_phi_in) * Real.sin theta
  -- advance position and momentum
  let xout := x * pz / pzf
  let pxout := px * Real.cos theta + (pz - Real.cos e.m_phi_in) * Real.sin theta
  let yout := y + py * x * Real.sin theta / pzf
  let pyout := py
  let tout := t - (pt - 1 / beta) * x * Real.sin theta / pzf
  let ptout := pt
  { x := xout, y := yout, t := tout, px := pxout, py := pyout, pt := ptout }

/-! ## Integrators (`namespace impactx::integrators`) -/

/-- An element as the integrators see it (the template parameter `T_Element`): its
sub-step maps `map1(tau, refpart, zeval)`, `map2`, `map3`, each updating the reference
particle and the independent variable `zeval`, both passed by reference. `map3` is read by
`symp2_integrate_split3` only. -/
structure integrators.T_Element where
  /-- first sub-step map -/
  map1 : ℝ → RefPart × ℝ → RefPart × ℝ
  /-- second sub-step map -/
  map2 : ℝ → RefPart × ℝ → RefPart × ℝ
  /-- third sub-step map -/
  map3 : ℝ → RefPart × ℝ → RefPart × ℝ

/-- The body of `symp2_integrate` with the final value of the local `zeval` kept next to
the reference particle: the loop `for (int j = 0; j < nsteps; ++j)` is a fold over
`j = 0, ..., nsteps - 1`. -/
def integrators.symp2_integrate_state (refpart : RefPart) (zin zout : ℝ) (nsteps : ℤ)
    (element : integrators.T_Element) : RefPart × ℝ :=
  -- initialize numerical integration parameters
  let dz := (zout - zin) / (nsteps : ℝ)
  let tau1 := dz / 2
  let tau2 := dz
  -- initialize the value of the independent variable
  let zeval := zin
  -- loop over integration steps
  (List.range nsteps.toNat).foldl
    (fun st _j =>
      let st := element.map1 tau1 st
      let st := element.map2 tau2 st
      let st := element.map1 tau1 st
      st)
    (refpart, zeval)

/-- The integrator `symp2_integrate`: the reference particle after the call. -/
def integrators.symp2_integrate (refpart : RefPart) (zin zout : ℝ) (nsteps : ℤ)
    (element : integrators.T_Element) : RefPart :=
  (integrators.symp2_integrate_state refpart zin zout nsteps element).1

/-- An element whose first map advances `s` and `zeval` by the step and whose second map
advances `t` by the step; used to trace the integrators on a concrete input. -/
def integrators.probe : integrators.T_Element where
  map1 := fun tau st => ({ st.1 with s := st.1.s + tau }, st.2 + tau)
  map2 := fun tau st => ({ st.1 with t := st.1.t + tau }, st.2)
  map3 := fun _tau st => st

/-- The body of `symp2_integrate_split3` with the final value of the local `zeval` kept
next to the reference particle. -/
def integrators.symp2_integrate_split3_state (refpart : RefPart) (zin zout : ℝ) (nsteps : ℤ)
    (element : integrators.T_Element) : RefPart × ℝ :=
  -- initialize numerical integration parameters
  let dz := (zout - zin) / (nsteps : ℝ)
  let tau1 := dz / 2
  let tau2 := dz / 2
  let tau3 := dz
  -- initialize the value of the independent variable
  let zeval := zin
  -- loop over integration steps
  (List.range nsteps.toNat).foldl
    (fun st _j =>
      let st := element.map1 tau1 st
      let st := element.map2 tau2 st
      let st := element.map3 tau3 st
      let st := element.map2 tau2 st
      let st := element.map1 tau1 st
      st)
    (refpart, zeval)

/-- The integrator `symp2_integrate_split3`: the reference particle after the call. -/
def integrators.symp2_integrate_split3 (refpart : RefPart) (zin zout : ℝ) (nsteps : ℤ)
    (element : integrators.T_Element) : RefPart :=
  (integrators.symp2_integrate_split3_state refpart zin zout nsteps element).1

/-- The body of `symp4_integrate` with the final value of the local `zeval` kept next to
the reference particle; `pow(2.0, 1.0/3.0)` is the real power. -/
def integrators.symp4_integrate_state (refpart : RefPart) (zin zout : ℝ) (nsteps : ℤ)
    (element : integrators.T_Element) : RefPart × ℝ :=
  -- initialize numerical integration parameters
  let dz := (zout - zin) / (nsteps : ℝ)
  let alpha := 1 - (2 : ℝ) ^ ((1 : ℝ) / 3)
  let tau2 := dz / (1 + alpha)
  let tau1 := tau2 / 2
  let tau3 := alpha * tau1
  let tau4 := (alpha - 1) * tau2
  -- initialize the value of the independent variable
  let zeval := zin
  -- loop over integration steps
  (List.range nsteps.toNat).foldl
    (fun st _j =>
      let st := element.map1 tau1 st
      let st := element.map2 tau2 st
      let st := element.map1 tau3 st
      let st := element.map2 tau4 st
      let st := element.map1 tau3 st
      let st := element.map2 tau2 st
      let st := element.map1 tau1 st
      st)
    (refpart, zeval)

/-- The integrator `symp4_integrate`: the reference particle after the call. -/
def integrators.symp4_integrate (refpart : RefPart) (zin zout : ℝ) (nsteps : ℤ)
    (element : integrators.T_Element) : RefPart :=
  (integrators.symp4_integrate_state refpart zin zout nsteps element).1

/-- An element that records the step lengths it is handed: `map1` adds its step to `s`,
`map2` to `t` and `map3` to `z` of the reference particle; `zeval` is left alone. -/
def integrators.counter : integrators.T_Element where
  map1 := fun tau st => ({ st.1 with s := st.1.s + tau }, st.2)
  map2 := fun tau st => ({ st.1 with t := st.1.t + tau }, st.2)
  map3 := fun tau st => ({ st.1 with z := st.1.z + tau }, st.2)

/-- An element whose first map reads `zeval` without advancing it: `map1` adds the step times
`zeval` to `s`, `map2` adds its step to `t` and `map3` its step to `z`. Each map is undone by
the same map with the negated step. -/
def integrators.frozen : integrators.T_Element where
  map1 := fun tau st => ({ st.1 with s := st.1.s + tau * st.2 }, st.2)
  map2 := fun tau st => ({ st.1 with t := st.1.t + tau }, st.2)
  map3 := fun tau st => ({ st.1 with z := st.1.z + tau }, st.2)

/-! ## Random engine -/

/-- The random engine `amrex::RandomEngine` of the AMReX library, as a deterministic stream
of draws in `[0, 1)` together with the number of draws already consumed. -/
structure RandomEngine where
  /-- the sequence of uniform draws the engine produces -/
  stream : ℕ → ℝ
  /-- number of draws consumed so far -/
  pos : ℕ

/-- The call `amrex::Random(engine)`: the next uniform draw and the advanced engine. -/
def Random (engine : RandomEngine) : ℝ × RandomEngine :=
  (engine.stream engine.pos, { engine with pos := engine.pos + 1 })

/-- The engine that produces `u` first and then the draws of `engine`. -/
def RandomEngine.cons (u : ℝ) (engine : RandomEngine) : RandomEngine where
  stream := fun i => if i = 0 then u else engine.stream (engine.pos + (i - 1))
  pos := 0

/-- The engine with every draw equal to `u`; used to write concrete inputs. -/
def RandomEngine.const (u : ℝ) : RandomEngine where
  stream := fun _ => u
  pos := 0

/-! ## Distribution samplers (`namespace impactx::distribution`) -/

/-- The sampler `distribution::None`; it has no data members. -/
structure distribution.None where

/-- The functor `distribution::None::operator()`: the body is empty, the six coordinates
passed by reference and the engine keep their values. -/
def distribution.None.op (_d : distribution.None) (p : Particle) (engine : RandomEngine) :
    Particle × RandomEngine :=
  (p, engine)

/-- The sampler `distribution::Kurth4D`. -/
structure distribution.Kurth4D where
  /-- related RMS size in x -/
  m_sigmaX : ℝ
  /-- related RMS size in y -/
  m_sigmaY : ℝ
  /-- related RMS size in t -/
  m_sigmaT : ℝ
  /-- RMS momentum in x -/
  m_sigmaPx : ℝ
  /-- RMS momentum in y -/
  m_sigmaPy : ℝ
  /-- RMS momentum in t -/
  m_sigmaPt : ℝ
  /-- correlation length-momentum in x -/
  m_muxpx : ℝ
  /-- correlation length-momentum in y -/
  m_muypy : ℝ
  /-- correlation length-momentum in t -/
  m_mutpt : ℝ

/-- Constructor `Kurth4D(sigx, sigy, sigt, sigpx, sigpy, sigpt, muxpx, muypy, mutpt)`. -/
def distribution.Kurth4D.new (sigx sigy sigt sigpx sigpy sigpt muxpx muypy mutpt : ℝ) :
    distribution.Kurth4D where
  m_sigmaX := sigx
  m_sigmaY := sigy
  m_sigmaT := sigt
  m_sigmaPx := sigpx
  m_sigmaPy := sigpy
  m_sigmaPt := sigpt
  m_muxpx := muxpx
  m_muypy := muypy
  m_mutpt := mutpt

/-- The functor `distribution::Kurth4D::operator()`: one 6D sample and the advanced engine.
The six coordinates passed by reference are overwritten before they are read; `pi` is the
local constant `3.14159265358979` of the source. -/
def distribution.Kurth4D.op (d : distribution.Kurth4D) (_p : Particle)
    (engine : RandomEngine) : Particle × RandomEngine :=
  let pi : ℝ := 3.14159265358979
  -- Sample and transform to define (x,y):
  let d0 := Random engine
  let v := d0.1
  let d1 := Random d0.2
  let phi := d1.1
  let phi := 2 * pi * phi
  let r := Real.sqrt v
  let x := r * Real.cos phi
  let y := r * Real.sin phi
  -- Random samples used to define Lz:
  let d2 := Random d1.2
  let u := d2.1
  let Lz := r * (2 * u - 1)
  -- Random samples used to define pr:
  let d3 := Random d2.2
  let alpha := d3.1
  let alpha := pi * alpha
  let pmax := 1 - (Lz / r) ^ 2 - r ^ 2 + Lz ^ 2
  let pmax := Real.sqrt pmax
  let pr := pmax * Real.cos alpha
  let pphi := Lz / r
  -- Transformations used to obtain (px,py):
  let px := pr * Real.cos phi - pphi * Real.sin phi
  let py := pr * Real.sin phi + pphi * Real.cos phi
  -- Sample and transform to define (t,pt):
  let d4 := Random d3.2
  let t := d4.1
  let t := 2 * (t - 0.5)
  let d5 := Random d4.2
  let u1 := d5.1
  let d6 := Random d5.2
  let u2 := d6.1
  let ln1 := Real.sqrt (-2 * Real.log u1)
  let pt := ln1 * Real.cos (2 * pi * u2)
  -- Scale to produce the identity covariance matrix:
  let c := Real.sqrt 3
  let x := 2 * x
  let y := 2 * y
  let t := c * t
  let px := 2 * px
  let py := 2 * py
  -- Transform to produce the desired second moments/correlations:
  let root := Real.sqrt (1 - d.m_muxpx * d.m_muxpx)
  let a1 := d.m_sigmaX * x / root
  let a2 := d.m_sigmaPx * (-d.m_muxpx * x / root + px)
  let x := a1
  let px := a2
  let root := Real.sqrt (1 - d.m_muypy * d.m_muypy)
  let a1 := d.m_sigmaY * y / root
  let a2 := d.m_sigmaPy * (-d.m_muypy * y / root + py)
  let y := a1
  let py := a2
  let root := Real.sqrt (1 - d.m_mutpt * d.m_mutpt)
  let a1 := d.m_sigmaT * t / root
  let a2 := d.m_sigmaPt * (-d.m_mutpt * t / root + pt)
  let t := a1
  let pt := a2
  ({ x := x, y := y, t := t, px := px, py := py, pt := pt }, d6.2)

/-- The sampler `distribution::Triangle`. -/
structure distribution.Triangle where
  /-- related RMS size in x -/
  m_sigmaX : ℝ
  /-- related RMS size in y -/
  m_sigmaY : ℝ
  /-- related RMS size in t -/
  m_sigmaT : ℝ
  /-- RMS momentum in x -/
  m_sigmaPx : ℝ
  /-- RMS momentum in y -/
  m_sigmaPy : ℝ
  /-- RMS momentum in t -/
  m_sigmaPt : ℝ
  /-- correlation length-momentum in x -/
  m_muxpx : ℝ
  /-- correlation length-momentum in y -/
  m_muypy : ℝ
  /-- correlation length-momentum in t -/
  m_mutpt : ℝ

/-- Constructor `Triangle(sigx, sigy, sigt, sigpx, sigpy, sigpt, muxpx, muypy, mutpt)`. -/
def distribution.Triangle.new (sigx sigy sigt sigpx sigpy sigpt muxpx muypy mutpt : ℝ) :
    distribution.Triangle where
  m_sigmaX := sigx
  m_sigmaY := sigy
  m_sigmaT := sigt
  m_sigmaPx := sigpx
  m_sigmaPy := sigpy
  m_sigmaPt := sigpt
  m_muxpx := muxpx
  m_muypy := muypy
  m_mutpt := mutpt

/-- The functor `distribution::Triangle::operator()`: one 6D sample and the advanced engine.
`pi` is `ablastr::constant::math::pi`, read as the real number pi, and `pow(u1, 1/d)` is the
real power. -/
def distribution.Triangle.op (d : distribution.Triangle) (_p : Particle)
    (engine : RandomEngine) : Particle × RandomEngine :=
  let pi : ℝ := Real.pi
  -- Sample the t coordinate for a ramped triangular profile (unit variance):
  let d0 := Random engine
  let u0 := d0.1
  let t := Real.sqrt 2 * (2 - 3 * Real.sqrt u0)
  -- Generate five standard normal random variables using Box-Muller:
  let d1 := Random d0.2
  let u1 := d1.1
  let d2 := Random d1.2
  let u2 := d2.1
  let ln1 := Real.sqrt (-2 * Real.log u1)
  let g1 := ln1 * Real.cos (2 * pi * u2)
  let g2 := ln1 * Real.sin (2 * pi * u2)
  let d3 := Random d2.2
  let u1 := d3.1
  let d4 := Random d3.2
  let u2 := d4.1
  let ln1 := Real.sqrt (-2 * Real.log u1)
  let g3 := ln1 * Real.cos (2 * pi * u2)
  let g4 := ln1 * Real.sin (2 * pi * u2)
  let d5 := Random d4.2
  let u1 := d5.1
  let d6 := Random d5.2
  let u2 := d6.1
  let ln1 := Real.sqrt (-2 * Real.log u1)
  let g5 := ln1 * Real.cos (2 * pi * u2)
  -- Use one of these normal random variables for pt:
  let pt := g5
  -- Normalize the rest to produce uniform samples on the unit sphere:
  let norm := Real.sqrt (g1 * g1 + g2 * g2 + g3 * g3 + g4 * g4)
  let g1 := g1 / norm
  let g2 := g2 / norm
  let g3 := g3 / norm
  let g4 := g4 / norm
  -- Scale to produce uniform samples in a 4D ball (unit variance):
  let dim : ℝ := 4
  let d7 := Random d6.2
  let u1 := d7.1
  let u2 := Real.sqrt (dim + 2) * u1 ^ (1 / dim)
  let x := g1 * u2
  let y := g2 * u2
  let px := g3 * u2
  let py := g4 * u2
  -- Transform to produce the desired second moments/correlations:
  let root := Real.sqrt (1 - d.m_muxpx * d.m_muxpx)
  let a1 := d.m_sigmaX * x / root
  let a2 := d.m_sigmaPx * (-d.m_muxpx * x / root + px)
  let x := a1
  let px := a2
  let root := Real.sqrt (1 - d.m_muypy * d.m_muypy)
  let a1 := d.m_sigmaY * y / root
  let a2 := d.m_sigmaPy * (-d.m_muypy * y / root + py)
  let y := a1
  let py := a2
  let root := Real.sqrt (1 - d.m_mutpt * d.m_mutpt)
  let a1 := d.m_sigmaT * t / root
  let a2 := d.m_sigmaPt * (-d.m_mutpt * t / root + pt)
  let t := a1
  let pt := a2
  ({ x := x, y := y, t := t, px := px, py := py, pt := pt }, d7.2)

/-- The evaluation sites of `distribution::Kurth4D::operator()` that have a restricted domain,
in the order of the source: the denominators of its divisions (`Lz/r` twice, then each of the
three `root` twice), the arguments of its `sqrt` calls (`v`, the radicand of `pmax`,
`-2*log(u1)`, `3`, and `1 - mu*mu` for the three planes) and the argument of its `log`
call (`u1`). -/
def distribution.Kurth4D.domain_sites (d : distribution.Kurth4D) (engine : RandomEngine) :
    List ℝ × List ℝ × List ℝ :=
  let d0 := Random engine
  let v := d0.1
  let d1 := Random d0.2
  let r := Real.sqrt v
  let d2 := Random d1.2
  let u := d2.1
  let Lz := r * (2 * u - 1)
  let d3 := Random d2.2
  let d4 := Random d3.2
  let d5 := Random d4.2
  let u1 := d5.1
  let rootx := Real.sqrt (1 - d.m_muxpx * d.m_muxpx)
  let rooty := Real.sqrt (1 - d.m_muypy * d.m_muypy)
  let roott := Real.sqrt (1 - d.m_mutpt * d.m_mutpt)
  ([r, r, rootx, rootx, rooty, rooty, roott, roott],
   [v, 1 - (Lz / r) ^ 2 - r ^ 2 + Lz ^ 2, -2 * Real.log u1, 3,
    1 - d.m_muxpx * d.m_muxpx, 1 - d.m_muypy * d.m_muypy, 1 - d.m_mutpt * d.m_mutpt],
   [u1])

/-- The evaluation sites of `distribution::Triangle::operator()` that have a restricted
domain, in the order of the source: the denominators of its divisions (`norm` four times, `d`
in `1/d`, then each of the three `root` twice), the arguments of its `sqrt` calls (`2`, `u0`,
`-2*log(u1)` for the three Box-Muller pairs, the radicand of `norm`, `d + 2`, and `1 - mu*mu`
for the three planes) and the arguments of its `log` calls (the three `u1`). -/
def distribution.Triangle.domain_sites (d : distribution.Triangle) (engine : RandomEngine) :
    List ℝ × List ℝ × List ℝ :=
  let pi : ℝ := Real.pi
  let d0 := Random engine
  let u0 := d0.1
  let d1 := Random d0.2
  let u1a := d1.1
  let d2 := Random d1.2
  let u2 := d2.1
  let ln1 := Real.sqrt (-2 * Real.log u1a)
  let g1 := ln1 * Real.cos (2 * pi * u2)
  let g2 := ln1 * Real.sin (2 * pi * u2)
  let d3 := Random d2.2
  let u1b := d3.1
  let d4 := Random d3.2
  let u2 := d4.1
  let ln1 := Real.sqrt (-2 * Real.log u1b)
  let g3 := ln1 * Real.cos (2 * pi * u2)
  let g4 := ln1 * Real.sin (2 * pi * u2)
  let d5 := Random d4.2
  let u1c := d5.1
  let norm := Real.sqrt (g1 * g1 + g2 * g2 + g3 * g3 + g4 * g4)
  let dim : ℝ := 4
  let rootx := Real.sqrt (1 - d.m_muxpx * d.m_muxpx)
  let rooty := Real.sqrt (1 - d.m_muypy * d.m_muypy)
  let roott := Real.sqrt (1 - d.m_mutpt * d.m_mutpt)
  ([norm, norm, norm, norm, dim, rootx, rootx, rooty, rooty, roott, roott],
   [2, u0, -2 * Real.log u1a, -2 * Real.log u1b, -2 * Real.log u1c,
    g1 * g1 + g2 * g2 + g3 * g3 + g4 * g4, dim + 2,
    1 - d.m_muxpx * d.m_muxpx, 1 - d.m_muypy * d.m_muypy, 1 - d.m_mutpt * d.m_mutpt],
   [u1a, u1b, u1c])

/-- The matrix of the linear map `(q, p) ↦ (sigq*q/sqrt(1 - mu^2),
sigp*(-mu*q/sqrt(1 - mu^2) + p))`, the last step of both samplers for each of the pairs
`(x, px)`, `(y, py)`, `(t, pt)`. -/
def distribution.correlation_matrix (sigq sigp mu : ℝ) : Matrix (Fin 2) (Fin 2) ℝ :=
  Matrix.of ![![sigq / Real.sqrt (1 - mu ^ 2), 0],
              ![sigp * (-mu / Real.sqrt (1 - mu ^ 2)), sigp]]

/-! ## Kinematics of the reference particle -/

theorem SI.codata_MeV_invc2_ne_zero : SI.codata.MeV_invc2 ≠ 0 := by
  norm_num [SI.codata]

theorem SI.codata_q_e_ne_zero : SI.codata.q_e ≠ 0 := by
  norm_num [SI.codata]

/-- After `set_mass_MeV(massE)` the kinetic energy is `massE * (gamma - 1)` with the
`gamma` of the state before the call: the recomputed `pt` is read off the record whose
mass is already the new one. -/
theorem RefPart.energy_MeV_set_mass_MeV (K : SI) (hK : K.MeV_invc2 ≠ 0) (r : RefPart)
    (massE : ℝ) (hE : massE ≠ 0) :
    (r.set_mass_MeV K massE).energy_MeV K = massE * (-r.pt - 1) := by
  unfold RefPart.set_mass_MeV
  by_cases hpt : r.pt = 0
  · simp only [hpt, ne_eq, not_true_eq_false, if_false, RefPart.energy_MeV, RefPart.mass_MeV]
    field_simp
  · simp only [ne_eq, hpt, not_false_eq_true, if_true, RefPart.energy_MeV, RefPart.mass_MeV]
    field_simp

/-- C1 (evaluation of the code): for the reference particle with rest mass 1 MeV/c^2 and
`pt = -2` the kinetic energy is 1 MeV, and after `set_mass_MeV(2)` it is 2 MeV, so the
call does not preserve the kinetic energy; the field `pt` is still `-2`. -/
theorem RefPart.set_mass_MeV_changes_energy :
    (RefPart.ofPtMassCharge (-2) SI.codata.MeV_invc2 0).energy_MeV SI.codata = 1 ∧
    ((RefPart.ofPtMassCharge (-2) SI.codata.MeV_invc2 0).set_mass_MeV SI.codata 2).energy_MeV
      SI.codata = 2 ∧
    ((RefPart.ofPtMassCharge (-2) SI.codata.MeV_invc2 0).set_mass_MeV SI.codata 2).pt = -2 := by
  have hK := SI.codata_MeV_invc2_ne_zero
  refine ⟨?_, ?_, ?_⟩
  · simp only [RefPart.energy_MeV, RefPart.mass_MeV, RefPart.ofPtMassCharge]
    field_simp
    norm_num
  · rw [RefPart.energy_MeV_set_mass_MeV _ hK _ _ (by norm_num)]
    norm_num [RefPart.ofPtMassCharge]
  · have h2 : (-2 : ℝ) ≠ 0 := by norm_num
    simp only [RefPart.set_mass_MeV, RefPart.ofPtMassCharge, ne_eq, h2, not_false_eq_true,
      if_true, RefPart.energy_MeV, RefPart.mass_MeV]
    field_simp
    norm_num

/-- C2: for every reference particle with `mass ≠ 0` and every real `E`, `energy_MeV()`
after `set_energy_MeV(E)` equals `E` (the unit constant `MeV_invc2` being nonzero). -/
theorem RefPart.energy_MeV_set_energy_MeV (K : SI) (hK : K.MeV_invc2 ≠ 0) (r : RefPart)
    (hm : r.mass ≠ 0) (E : ℝ) :
    (r.set_energy_MeV K E).energy_MeV K = E := by
  simp only [RefPart.set_energy_MeV, RefPart.energy_MeV, RefPart.mass_MeV]
  field_simp
  ring

theorem RefPart.energy_MeV_set_energy_MeV_witness :
    SI.codata.MeV_invc2 ≠ 0 ∧ (RefPart.ofPtMassCharge 0 1 0).mass ≠ 0 ∧
    ((RefPart.ofPtMassCharge 0 1 0).set_energy_MeV SI.codata 2000).energy_MeV SI.codata
      = 2000 :=
  ⟨SI.codata_MeV_invc2_ne_zero, by norm_num [RefPart.ofPtMassCharge],
   RefPart.energy_MeV_set_energy_MeV SI.codata SI.codata_MeV_invc2_ne_zero
     (RefPart.ofPtMassCharge 0 1 0) (by norm_num [RefPart.ofPtMassCharge]) 2000⟩

/-- C3: for every starting state with `mass ≠ 0`, `set_energy_MeV(E)` sets `px = 0`,
`py = 0`, `pt = -E / mass_MeV() - 1` and `pz = sqrt(pt^2 - 1)` with the new `pt`, and leaves
`s, x, y, z, t, mass, charge, sedge` (and the linear map) unchanged. -/
theorem RefPart.set_energy_MeV_effect (K : SI) (r : RefPart) (_hm : r.mass ≠ 0) (E : ℝ) :
    (r.set_energy_MeV K E).px = 0 ∧ (r.set_energy_MeV K E).py = 0 ∧
    (r.set_energy_MeV K E).pt = -E / r.mass_MeV K - 1 ∧
    (r.set_energy_MeV K E).pz = Real.sqrt ((r.set_energy_MeV K E).pt ^ 2 - 1) ∧
    (r.set_energy_MeV K E).s = r.s ∧ (r.set_energy_MeV K E).x = r.x ∧
    (r.set_energy_MeV K E).y = r.y ∧ (r.set_energy_MeV K E).z = r.z ∧
    (r.set_energy_MeV K E).t = r.t ∧ (r.set_energy_MeV K E).mass = r.mass ∧
    (r.set_energy_MeV K E).charge = r.charge ∧ (r.set_energy_MeV K E).sedge = r.sedge ∧
    (r.set_energy_MeV K E).map = r.map :=
  ⟨rfl, rfl, rfl, rfl, rfl, rfl, rfl, rfl, rfl, rfl, rfl, rfl, rfl⟩

theorem RefPart.set_energy_MeV_effect_witness :
    (RefPart.ofPtMassCharge 0 1 0).mass ≠ 0 ∧
    ((RefPart.ofPtMassCharge 0 1 0).set_energy_MeV SI.codata 2000).px = 0 ∧
    ((RefPart.ofPtMassCharge 0 1 0).set_energy_MeV SI.codata 2000).pt
      = -2000 / (RefPart.ofPtMassCharge 0 1 0).mass_MeV SI.codata - 1 :=
  have h := RefPart.set_energy_MeV_effect SI.codata (RefPart.ofPtMassCharge 0 1 0)
    (by norm_num [RefPart.ofPtMassCharge]) 2000
  ⟨by norm_num [RefPart.ofPtMassCharge], h.1, h.2.2.1⟩

/-- For `gamma > 1` the radicand of `beta` is strictly between 0 and 1. -/
theorem RefPart.beta_radicand_bounds (r : RefPart) (h : r.gamma > 1) :
    0 < 1 - 1 / (-r.pt) ^ 2 ∧ 1 - 1 / (-r.pt) ^ 2 < 1 := by
  have hg : 1 < -r.pt := h
  have hsq : 1 < (-r.pt) ^ 2 := by nlinarith
  have hpos : 0 < (-r.pt) ^ 2 := by linarith
  have hlt : 1 / (-r.pt) ^ 2 < 1 := by
    rw [div_lt_one hpos]
    exact hsq
  have hinv : 0 < 1 / (-r.pt) ^ 2 := by positivity
  constructor <;> linarith

/-- For `gamma > 1`, `beta` lies strictly between 0 and 1. -/
theorem RefPart.beta_bounds (r : RefPart) (h : r.gamma > 1) :
    0 < r.beta ∧ r.beta < 1 := by
  obtain ⟨h0, h1⟩ := r.beta_radicand_bounds h
  constructor
  · exact Real.sqrt_pos.mpr h0
  · have : Real.sqrt (1 - 1 / (-r.pt) ^ 2) < Real.sqrt 1 :=
      Real.sqrt_lt_sqrt h0.le h1
    simpa [RefPart.beta] using this

/-- C4: for every reference particle with `pt < -1`, `gamma()^2 - 1 = beta_gamma()^2` and
`beta() * gamma() = beta_gamma()`, where `gamma() = -pt`. -/
theorem RefPart.kinematic_identities (r : RefPart) (h : r.pt < -1) :
    r.gamma ^ 2 - 1 = r.beta_gamma ^ 2 ∧ r.beta * r.gamma = r.beta_gamma ∧
    r.gamma = -r.pt := by
  have hg : 1 < -r.pt := by linarith
  have hg0 : 0 < -r.pt := by linarith
  have hsq : 0 ≤ (-r.pt) ^ 2 - 1 := by nlinarith
  refine ⟨?_, ?_, rfl⟩
  · simp only [RefPart.gamma, RefPart.beta_gamma]
    rw [Real.sq_sqrt hsq]
  · simp only [RefPart.gamma, RefPart.beta, RefPart.beta_gamma]
    have hne : (-r.pt) ^ 2 ≠ 0 := pow_ne_zero 2 hg0.ne'
    have e : (-r.pt) ^ 2 - 1 = (1 - 1 / (-r.pt) ^ 2) * (-r.pt) ^ 2 := by
      rw [sub_mul, one_mul, div_mul_cancel₀ 1 hne]
    rw [e, Real.sqrt_mul' _ (sq_nonneg _), Real.sqrt_sq hg0.le]

theorem RefPart.kinematic_identities_witness :
    (RefPart.ofPtMassCharge (-2) 1 0).pt < -1 ∧
    (RefPart.ofPtMassCharge (-2) 1 0).gamma ^ 2 - 1
      = (RefPart.ofPtMassCharge (-2) 1 0).beta_gamma ^ 2 :=
  ⟨by norm_num [RefPart.ofPtMassCharge],
   (RefPart.kinematic_identities (RefPart.ofPtMassCharge (-2) 1 0)
     (by norm_num [RefPart.ofPtMassCharge])).1⟩

/-- C5: for every reference particle with `gamma = -pt > 1`, `beta()` lies strictly between
0 and 1; in particular `beta() ≠ 0`, the value by which the particle maps of `ChrQuad` and
`PRot` divide. -/
theorem RefPart.beta_mem_unit_interval (r : RefPart) (h : r.gamma > 1) :
    0 < r.beta ∧ r.beta < 1 ∧ r.beta ≠ 0 :=
  ⟨(r.beta_bounds h).1, (r.beta_bounds h).2, (r.beta_bounds h).1.ne'⟩

theorem RefPart.beta_mem_unit_interval_witness :
    (RefPart.ofPtMassCharge (-2) 1 0).gamma > 1 ∧
    0 < (RefPart.ofPtMassCharge (-2) 1 0).beta ∧
    (RefPart.ofPtMassCharge (-2) 1 0).beta < 1 :=
  have h := RefPart.beta_mem_unit_interval (RefPart.ofPtMassCharge (-2) 1 0)
    (by norm_num [RefPart.ofPtMassCharge, RefPart.gamma])
  ⟨by norm_num [RefPart.ofPtMassCharge, RefPart.gamma], h.1, h.2.1⟩

/-- C6: `rigidity_Tm()` equals `mass * beta_gamma() * c / q_e` with `q_e` the elementary
charge constant, and replacing the `charge` field by any value leaves it unchanged. -/
theorem RefPart.rigidity_Tm_charge_independent (K : SI) (r : RefPart) (q : ℝ) :
    r.rigidity_Tm K = r.mass * r.beta_gamma * K.c / K.q_e ∧
    RefPart.rigidity_Tm K { r with charge := q } = r.rigidity_Tm K :=
  ⟨rfl, rfl⟩

/-- With the unit relation `MeV_invc2 = 10^6 * q_e / c^2`, the value `charge / mass`
returned by `qm_qeeV()` is `c^2` times the ratio in elementary charges per eV. -/
theorem RefPart.qm_qeeV_eq (K : SI) (hc : K.c ≠ 0) (hq : K.q_e ≠ 0)
    (hK : K.MeV_invc2 = 10 ^ 6 * K.q_e / K.c ^ 2) (r : RefPart) (hm : r.mass ≠ 0) :
    r.qm_qeeV = K.c ^ 2 * (r.charge_qe K / (r.mass_MeV K * 10 ^ 6)) := by
  simp only [RefPart.qm_qeeV, RefPart.charge_qe, RefPart.mass_MeV, hK]
  field_simp
  ring

/-- C7 (evaluation of the code): for the reference particle of charge one elementary charge
and rest mass 1 MeV/c^2, `charge_qe() / (mass_MeV() * 10^6)` is `10^-6` elementary charges
per eV, while `qm_qeeV()` returns `299792458^2 / 10^6`, the ratio in C/kg. -/
theorem RefPart.qm_qeeV_not_per_eV :
    (RefPart.ofPtMassCharge (-2) SI.codata.MeV_invc2 SI.codata.q_e).charge_qe SI.codata
      / ((RefPart.ofPtMassCharge (-2) SI.codata.MeV_invc2 SI.codata.q_e).mass_MeV SI.codata
          * 10 ^ 6) = 1 / 10 ^ 6 ∧
    (RefPart.ofPtMassCharge (-2) SI.codata.MeV_invc2 SI.codata.q_e).qm_qeeV
      = 299792458 ^ 2 / 10 ^ 6 ∧
    (RefPart.ofPtMassCharge (-2) SI.codata.MeV_invc2 SI.codata.q_e).qm_qeeV
      ≠ (RefPart.ofPtMassCharge (-2) SI.codata.MeV_invc2 SI.codata.q_e).charge_qe SI.codata
        / ((RefPart.ofPtMassCharge (-2) SI.codata.MeV_invc2 SI.codata.q_e).mass_MeV SI.codata
            * 10 ^ 6) := by
  have e1 : (RefPart.ofPtMassCharge (-2) SI.codata.MeV_invc2 SI.codata.q_e).charge_qe SI.codata
      / ((RefPart.ofPtMassCharge (-2) SI.codata.MeV_invc2 SI.codata.q_e).mass_MeV SI.codata
          * 10 ^ 6) = 1 / 10 ^ 6 := by
    norm_num [RefPart.ofPtMassCharge, RefPart.charge_qe, RefPart.mass_MeV, SI.codata]
  have e2 : (RefPart.ofPtMassCharge (-2) SI.codata.MeV_invc2 SI.codata.q_e).qm_qeeV
      = 299792458 ^ 2 / 10 ^ 6 := by
    norm_num [RefPart.ofPtMassCharge, RefPart.qm_qeeV, SI.codata]
  refine ⟨e1, e2, ?_⟩
  rw [e1, e2]
  norm_num

/-! ## The `None` element -/

/-- C8: the per-particle map of the `None` element is the identity: for every particle
state and every reference particle all six coordinates are unchanged. -/
theorem None.op_particle_id (e : None) (p : Particle) (refpart : RefPart) :
    e.op_particle p refpart = p ∧
    (e.op_particle p refpart).x = p.x ∧ (e.op_particle p refpart).y = p.y ∧
    (e.op_particle p refpart).t = p.t ∧ (e.op_particle p refpart).px = p.px ∧
    (e.op_particle p refpart).py = p.py ∧ (e.op_particle p refpart).pt = p.pt :=
  ⟨rfl, rfl, rfl, rfl, rfl, rfl, rfl⟩

/-! ## The chromatic quadrupole -/

/-- The magnetic rigidity of a reference particle with nonzero mass and `gamma > 1` is
nonzero, the constants `c` and `q_e` being nonzero. -/
theorem RefPart.rigidity_Tm_ne_zero (K : SI) (hc : K.c ≠ 0) (hq : K.q_e ≠ 0) (r : RefPart)
    (hm : r.mass ≠ 0) (hγ : r.gamma > 1) : r.rigidity_Tm K ≠ 0 := by
  have hrad : 0 < (-r.pt) ^ 2 - 1 := by
    simp only [RefPart.gamma] at hγ
    nlinarith
  simp only [RefPart.rigidity_Tm]
  exact div_ne_zero (mul_ne_zero (mul_ne_zero hm (Real.sqrt_pos.mpr hrad).ne') hc) hq

theorem SI.codata_c_ne_zero : SI.codata.c ≠ 0 := by
  norm_num [SI.codata]

/-- C9: for every `k ≠ 0`, real `ds`, reference particle with `gamma > 1` (and, when
`unit = 1`, with `rigidity_Tm() ≠ 0`, so that the normalised strength `k / rigidity_Tm()` is
defined) and particle with `1 - 2*pt/beta + pt^2 > 0`, the particle map of
`ChrQuad(ds, k, unit, 1)` followed by the particle map of `ChrQuad(-ds, k, unit, 1)` returns
the original `(x, y, t, px, py, pt)`. -/
theorem ChrQuad.op_particle_reversible (K : SI) (k : ℝ) (hk : k ≠ 0) (ds : ℝ) (unit : ℤ)
    (refpart : RefPart) (_hγ : refpart.gamma > 1)
    (hrig : unit = 1 → refpart.rigidity_Tm K ≠ 0) (p : Particle)
    (hp : 0 < 1 - 2 * p.pt / refpart.beta + p.pt ^ 2) :
    (ChrQuad.new (-ds) k unit 1).op_particle K
      ((ChrQuad.new ds k unit 1).op_particle K p refpart) refpart = p := by
  have hg0 : (if unit = 1 then k / refpart.rigidity_Tm K else k) ≠ 0 := by
    split_ifs with hu
    · exact div_ne_zero hk (hrig hu)
    · exact hk
  obtain ⟨x, y, t, px, py, pt⟩ := p
  simp only [ChrQuad.op_particle, ChrQuad.new, ChrQuad.nslice, Int.cast_one, div_one] at hp ⊢
  generalize (if unit = 1 then k / refpart.rigidity_Tm K else k) = g at hg0 ⊢
  generalize refpart.beta = β at hp ⊢
  have hδ : 0 < Real.sqrt (1 - 2 * pt / β + pt ^ 2) := Real.sqrt_pos.mpr hp
  generalize Real.sqrt (1 - 2 * pt / β + pt ^ 2) = δ1 at hδ ⊢
  by_cases hg : g > 0
  · simp only [hg, if_true]
    have hω : 0 < Real.sqrt (|g| / δ1) := Real.sqrt_pos.mpr (div_pos (abs_pos.mpr hg.ne') hδ)
    generalize Real.sqrt (|g| / δ1) = ω at hω ⊢
    have hw : ω * δ1 ≠ 0 := (mul_pos hω hδ).ne'
    obtain ⟨vx, rfl⟩ : ∃ vx, px = ω * δ1 * vx := ⟨px / (ω * δ1), by field_simp⟩
    obtain ⟨vy, rfl⟩ : ∃ vy, py = ω * δ1 * vy := ⟨py / (ω * δ1), by field_simp⟩
    have hx : ∀ a b : ℝ, a / (ω * δ1) * (ω * δ1 * b) = a * b := by
      intro a b
      field_simp
      ring
    have e1 : ω * -ds = -(ω * ds) := by ring
    have e2 : 2 * -ds * ω = -(2 * (ω * ds)) := by ring
    have e3 : 2 * ds * ω = 2 * (ω * ds) := by ring
    have hcs := Real.cos_sq_add_sin_sq (ω * ds)
    have hch := Real.cosh_sq (ω * ds)
    have hc2 : Real.cos (2 * (ω * ds)) = Real.cos (ω * ds) ^ 2 - Real.sin (ω * ds) ^ 2 := by
      rw [Real.cos_two_mul]
      linarith
    simp only [hx, e1, e2, e3, Real.cos_neg, Real.sin_neg, Real.cosh_neg, Real.sinh_neg,
      Real.sin_two_mul, Real.sinh_two_mul, Real.cosh_two_mul, hc2]
    generalize Real.cos (ω * ds) = c at hcs ⊢
    generalize Real.sin (ω * ds) = s at hcs ⊢
    generalize Real.cosh (ω * ds) = ch at hch ⊢
    generalize Real.sinh (ω * ds) = sh at hch ⊢
    simp only [Particle.mk.injEq, and_true]
    refine ⟨?_, ?_, ?_, ?_, ?_⟩
    · field_simp
      linear_combination (ω * δ1 * x) * hcs
    · field_simp
      linear_combination (ω * δ1 * y) * hch
    · linear_combination (-1 + β * pt) / (8 * β * δ1 ^ 3 * ω) *
        ((-(2 * (ω * δ1) ^ 2 * x * vx) * (c ^ 2 + s ^ 2 + 1)
            + 2 * ω * ds * ((ω * δ1) ^ 2 * (vx ^ 2 + x ^ 2))) * hcs
         + (-(2 * (ω * δ1) ^ 2 * y * vy) * (ch ^ 2 - sh ^ 2 + 1)
            + 2 * ω * ds * ((ω * δ1) ^ 2 * (vy ^ 2 - y ^ 2))) * hch)
    · linear_combination (ω * δ1 * vx) * hcs
    · linear_combination (ω * δ1 * vy) * hch
  · rcases lt_or_eq_of_le (not_lt.mp hg) with hneg | hzero
    · simp only [hg, if_false]
      have hω : 0 < Real.sqrt (|g| / δ1) :=
        Real.sqrt_pos.mpr (div_pos (abs_pos.mpr hneg.ne) hδ)
      generalize Real.sqrt (|g| / δ1) = ω at hω ⊢
      have hw : ω * δ1 ≠ 0 := (mul_pos hω hδ).ne'
      obtain ⟨vx, rfl⟩ : ∃ vx, px = ω * δ1 * vx := ⟨px / (ω * δ1), by field_simp⟩
      obtain ⟨vy, rfl⟩ : ∃ vy, py = ω * δ1 * vy := ⟨py / (ω * δ1), by field_simp⟩
      have hx : ∀ a b : ℝ, a / (ω * δ1) * (ω * δ1 * b) = a * b := by
        intro a b
        field_simp
        ring
      have e1 : ω * -ds = -(ω * ds) := by ring
      have e2 : 2 * -ds * ω = -(2 * (ω * ds)) := by ring
      have e3 : 2 * ds * ω = 2 * (ω * ds) := by ring
      have hcs := Real.cos_sq_add_sin_sq (ω * ds)
      have hch := Real.cosh_sq (ω * ds)
      have hc2 : Real.cos (2 * (ω * ds)) = Real.cos (ω * ds) ^ 2 - Real.sin (ω * ds) ^ 2 := by
        rw [Real.cos_two_mul]
        linarith
      simp only [hx, e1, e2, e3, Real.cos_neg, Real.sin_neg, Real.cosh_neg, Real.sinh_neg,
        Real.sin_two_mul, Real.sinh_two_mul, Real.cosh_two_mul, hc2]
      generalize Real.cos (ω * ds) = c at hcs ⊢
      generalize Real.sin (ω * ds) = s at hcs ⊢
      generalize Real.cosh (ω * ds) = ch at hch ⊢
      generalize Real.sinh (ω * ds) = sh at hch ⊢
      simp only [Particle.mk.injEq, and_true]
      refine ⟨?_, ?_, ?_, ?_, ?_⟩
      · field_simp
        linear_combination (ω * δ1 * x) * hch
      · field_simp
        linear_combination (ω * δ1 * y) * hcs
      · linear_combination (-1 + β * pt) / (8 * β * δ1 ^ 3 * ω) *
          ((-(2 * (ω * δ1) ^ 2 * y * vy) * (c ^ 2 + s ^ 2 + 1)
              + 2 * ω * ds * ((ω * δ1) ^ 2 * (vy ^ 2 + y ^ 2))) * hcs
           + (-(2 * (ω * δ1) ^ 2 * x * vx) * (ch ^ 2 - sh ^ 2 + 1)
              + 2 * ω * ds * ((ω * δ1) ^ 2 * (vx ^ 2 - x ^ 2))) * hch)
      · linear_combination (ω * δ1 * vx) * hch
      · linear_combination (ω * δ1 * vy) * hcs
    · exact absurd hzero hg0

theorem ChrQuad.op_particle_reversible_witness :
    (1 : ℝ) ≠ 0 ∧ (RefPart.ofPtMassCharge (-2) 1 0).gamma > 1 ∧
    (RefPart.ofPtMassCharge (-2) 1 0).rigidity_Tm SI.codata ≠ 0 ∧
    (ChrQuad.new (-1) 1 1 1).op_particle SI.codata
      ((ChrQuad.new 1 1 1 1).op_particle SI.codata
        { x := 1, y := 2, t := 3, px := 4, py := 5, pt := 0 }
        (RefPart.ofPtMassCharge (-2) 1 0))
      (RefPart.ofPtMassCharge (-2) 1 0)
      = { x := 1, y := 2, t := 3, px := 4, py := 5, pt := 0 } :=
  have hγ : (RefPart.ofPtMassCharge (-2) 1 0).gamma > 1 := by
    norm_num [RefPart.ofPtMassCharge, RefPart.gamma]
  have hrig : (RefPart.ofPtMassCharge (-2) 1 0).rigidity_Tm SI.codata ≠ 0 :=
    RefPart.rigidity_Tm_ne_zero SI.codata SI.codata_c_ne_zero SI.codata_q_e_ne_zero
      (RefPart.ofPtMassCharge (-2) 1 0) (by norm_num [RefPart.ofPtMassCharge]) hγ
  ⟨one_ne_zero, hγ, hrig,
   ChrQuad.op_particle_reversible SI.codata 1 one_ne_zero 1 1
     (RefPart.ofPtMassCharge (-2) 1 0) hγ (fun _ => hrig)
     { x := 1, y := 2, t := 3, px := 4, py := 5, pt := 0 } (by norm_num)⟩

/-- Exchanging the transverse planes of the input and of the output turns the map of
strength `k` into the map of strength `-k`. -/
theorem ChrQuad.op_particle_neg_k (K : SI) (ds k : ℝ) (unit nslice : ℤ)
    (refpart : RefPart) (p : Particle) :
    (ChrQuad.new ds k unit nslice).op_particle K p refpart
      = ((ChrQuad.new ds (-k) unit nslice).op_particle K p.swap_xy refpart).swap_xy := by
  have hg : (if unit = 1 then -k / refpart.rigidity_Tm K else -k)
      = -(if unit = 1 then k / refpart.rigidity_Tm K else k) := by
    split_ifs
    · ring
    · rfl
  simp only [ChrQuad.op_particle, ChrQuad.new, ChrQuad.nslice, Particle.swap_xy, hg, abs_neg]
  generalize (if unit = 1 then k / refpart.rigidity_Tm K else k) = g
  rcases lt_trichotomy g 0 with h | h | h
  · have h1 : ¬ (g > 0) := not_lt.mpr h.le
    have h2 : -g > 0 := by linarith
    simp only [h1, h2, if_true, if_false]
  · subst h
    simp only [neg_zero, gt_iff_lt, lt_self_iff_false, if_false, abs_zero, zero_div,
      Real.sqrt_zero, zero_mul, mul_zero, Real.cos_zero, Real.sin_zero, Real.cosh_zero,
      Real.sinh_zero, div_zero, one_mul, zero_add, add_zero]
  · have h1 : g > 0 := h
    have h2 : ¬ (-g > 0) := by
      intro h3
      linarith
    simp only [h1, h2, if_true, if_false]

/-- C10: for every `k > 0`, `ds`, `nslice ≥ 1`, unit, reference particle and particle, the
output of `ChrQuad(ds, k)` equals the output of `ChrQuad(ds, -k)` on the transversely
swapped input with its `x` and `y` planes swapped back; in particular the `x`-output of the
focusing case is the `y`-output of the defocusing case, and the `t`-outputs coincide. -/
theorem ChrQuad.op_particle_mirror (K : SI) (ds k : ℝ) (_hk : 0 < k) (unit nslice : ℤ)
    (_hn : 1 ≤ nslice) (refpart : RefPart) (p : Particle) :
    (ChrQuad.new ds k unit nslice).op_particle K p refpart
      = ((ChrQuad.new ds (-k) unit nslice).op_particle K p.swap_xy refpart).swap_xy ∧
    ((ChrQuad.new ds k unit nslice).op_particle K p refpart).x
      = ((ChrQuad.new ds (-k) unit nslice).op_particle K p.swap_xy refpart).y ∧
    ((ChrQuad.new ds k unit nslice).op_particle K p refpart).t
      = ((ChrQuad.new ds (-k) unit nslice).op_particle K p.swap_xy refpart).t := by
  have h := ChrQuad.op_particle_neg_k K ds k unit nslice refpart p
  refine ⟨h, ?_, ?_⟩
  · rw [h]
    rfl
  · rw [h]
    rfl

theorem ChrQuad.op_particle_mirror_witness :
    (0 : ℝ) < 1 ∧ (1 : ℤ) ≤ 1 ∧
    ((ChrQuad.new 1 1 0 1).op_particle SI.codata
        { x := 1, y := 2, t := 3, px := 4, py := 5, pt := 0 }
        (RefPart.ofPtMassCharge (-2) 1 0)).x
      = ((ChrQuad.new 1 (-1) 0 1).op_particle SI.codata
        (Particle.swap_xy { x := 1, y := 2, t := 3, px := 4, py := 5, pt := 0 })
        (RefPart.ofPtMassCharge (-2) 1 0)).y :=
  ⟨one_pos, le_refl 1,
   (ChrQuad.op_particle_mirror SI.codata 1 1 one_pos 0 1 (le_refl 1)
     (RefPart.ofPtMassCharge (-2) 1 0)
     { x := 1, y := 2, t := 3, px := 4, py := 5, pt := 0 }).2.1⟩

/-- C11: with `L = ds/nslice`, `d1 = sqrt(1 - 2*pt/beta + pt^2)` and `w = sqrt(|g|/d1)`, where
`g` is the strength after the unit conversion: for `g > 0` the map is circular in `x` and
hyperbolic in `y` (horizontally focusing), for `g < 0` the two planes exchange these forms
(horizontally defocusing), and `pt` is unchanged in both cases. -/
theorem ChrQuad.op_particle_focusing (K : SI) (e : ChrQuad) (p : Particle) (refpart : RefPart)
    (g L d1 w : ℝ)
    (hg : g = if e.m_unit = 1 then e.m_k / refpart.rigidity_Tm K else e.m_k)
    (hL : L = e.m_ds / (e.m_nslice : ℝ))
    (hd1 : d1 = Real.sqrt (1 - 2 * p.pt / refpart.beta + p.pt ^ 2))
    (hw : w = Real.sqrt (|g| / d1)) :
    (0 < g →
      (e.op_particle K p refpart).x = Real.cos (w * L) * p.x + Real.sin (w * L) / (w * d1) * p.px ∧
      (e.op_particle K p refpart).px
        = -w * d1 * Real.sin (w * L) * p.x + Real.cos (w * L) * p.px ∧
      (e.op_particle K p refpart).y
        = Real.cosh (w * L) * p.y + Real.sinh (w * L) / (w * d1) * p.py ∧
      (e.op_particle K p refpart).py
        = w * d1 * Real.sinh (w * L) * p.y + Real.cosh (w * L) * p.py) ∧
    (g < 0 →
      (e.op_particle K p refpart).x
        = Real.cosh (w * L) * p.x + Real.sinh (w * L) / (w * d1) * p.px ∧
      (e.op_particle K p refpart).px
        = w * d1 * Real.sinh (w * L) * p.x + Real.cosh (w * L) * p.px ∧
      (e.op_particle K p refpart).y = Real.cos (w * L) * p.y + Real.sin (w * L) / (w * d1) * p.py ∧
      (e.op_particle K p refpart).py
        = -w * d1 * Real.sin (w * L) * p.y + Real.cos (w * L) * p.py) ∧
    (e.op_particle K p refpart).pt = p.pt := by
  subst hg hL hd1 hw
  refine ⟨fun h => ?_, fun h => ?_, rfl⟩
  · simp only [ChrQuad.op_particle, ChrQuad.nslice, gt_iff_lt, h, if_true, and_self]
  · have h1 : ¬ 0 < (if e.m_unit = 1 then e.m_k / refpart.rigidity_Tm K else e.m_k) :=
      not_lt.mpr h.le
    simp only [ChrQuad.op_particle, ChrQuad.nslice, gt_iff_lt, h1, if_false, and_self]

theorem ChrQuad.op_particle_focusing_witness :
    (0 : ℝ) < 1 ∧
      (((ChrQuad.new 1 1 0 1).op_particle SI.codata
        { x := 1, y := 2, t := 3, px := 4, py := 5, pt := 0 }
        (RefPart.ofPtMassCharge (-2) 1 0)).x
      = Real.cos (Real.sqrt (|1| / Real.sqrt (1 - 2 * 0 / (RefPart.ofPtMassCharge (-2) 1 0).beta
            + 0 ^ 2)) * (1 / ((1 : ℤ) : ℝ))) * 1
        + Real.sin (Real.sqrt (|1| / Real.sqrt (1 - 2 * 0 / (RefPart.ofPtMassCharge (-2) 1 0).beta
            + 0 ^ 2)) * (1 / ((1 : ℤ) : ℝ)))
          / (Real.sqrt (|1| / Real.sqrt (1 - 2 * 0 / (RefPart.ofPtMassCharge (-2) 1 0).beta
            + 0 ^ 2)) * Real.sqrt (1 - 2 * 0 / (RefPart.ofPtMassCharge (-2) 1 0).beta
            + 0 ^ 2)) * 4) :=
  ⟨one_pos, ((ChrQuad.op_particle_focusing SI.codata (ChrQuad.new 1 1 0 1)
    { x := 1, y := 2, t := 3, px := 4, py := 5, pt := 0 } (RefPart.ofPtMassCharge (-2) 1 0)
    1 (1 / ((1 : ℤ) : ℝ))
    (Real.sqrt (1 - 2 * 0 / (RefPart.ofPtMassCharge (-2) 1 0).beta + 0 ^ 2))
    (Real.sqrt (|1| / Real.sqrt (1 - 2 * 0 / (RefPart.ofPtMassCharge (-2) 1 0).beta + 0 ^ 2)))
    (by simp [ChrQuad.new]) rfl rfl rfl).1 one_pos).1⟩

/-- C12: the particle map of `ChrQuad(ds, k, unit = 1, nslice)` produces the same output as
that of `ChrQuad(ds, k / rigidity_Tm(), unit = 0, nslice)` for every reference particle with
nonzero rigidity; with `unit = 0` the strength is used unscaled, so the output does not
depend on the quantities entering the rigidity only (mass, charge and the constants). -/
theorem ChrQuad.op_particle_unit_conversion (K : SI) (ds k : ℝ) (nslice : ℤ)
    (refpart : RefPart) (_hR : refpart.rigidity_Tm K ≠ 0) (p : Particle) :
    (ChrQuad.new ds k 1 nslice).op_particle K p refpart
      = (ChrQuad.new ds (k / refpart.rigidity_Tm K) 0 nslice).op_particle K p refpart ∧
    (∀ (K' : SI) (mass' charge' : ℝ),
      (ChrQuad.new ds k 0 nslice).op_particle K' p
          { refpart with mass := mass', charge := charge' }
        = (ChrQuad.new ds k 0 nslice).op_particle K p refpart) := by
  constructor
  · simp only [ChrQuad.op_particle, ChrQuad.new, ChrQuad.nslice, if_true, zero_ne_one, if_false]
  · intro K' mass' charge'
    simp only [ChrQuad.op_particle, ChrQuad.new, ChrQuad.nslice, zero_ne_one, if_false, RefPart.beta]

theorem ChrQuad.op_particle_unit_conversion_witness :
    (RefPart.ofPtMassCharge (-2) SI.codata.MeV_invc2 0).rigidity_Tm SI.codata ≠ 0 ∧
    (ChrQuad.new 1 3 1 1).op_particle SI.codata
        { x := 1, y := 2, t := 3, px := 4, py := 5, pt := 0 }
        (RefPart.ofPtMassCharge (-2) SI.codata.MeV_invc2 0)
      = (ChrQuad.new 1
          (3 / (RefPart.ofPtMassCharge (-2) SI.codata.MeV_invc2 0).rigidity_Tm SI.codata) 0 1
        ).op_particle SI.codata
        { x := 1, y := 2, t := 3, px := 4, py := 5, pt := 0 }
        (RefPart.ofPtMassCharge (-2) SI.codata.MeV_invc2 0) := by
  have hR : (RefPart.ofPtMassCharge (-2) SI.codata.MeV_invc2 0).rigidity_Tm SI.codata ≠ 0 := by
    have h3 : Real.sqrt ((- -2 : ℝ) ^ 2 - 1) ≠ 0 := by
      have : (0 : ℝ) < (- -2 : ℝ) ^ 2 - 1 := by norm_num
      exact (Real.sqrt_pos.mpr this).ne'
    simp only [RefPart.rigidity_Tm, RefPart.ofPtMassCharge, SI.codata]
    refine div_ne_zero (mul_ne_zero (mul_ne_zero ?_ h3) ?_) ?_ <;> norm_num
  exact ⟨hR, (ChrQuad.op_particle_unit_conversion SI.codata 1 3 1
    (RefPart.ofPtMassCharge (-2) SI.codata.MeV_invc2 0) hR
    { x := 1, y := 2, t := 3, px := 4, py := 5, pt := 0 }).1⟩

/-- C13: for every reference particle with `pt^2 > 1` and every `ChrQuad(ds, k, unit, nslice)`
with `nslice ≥ 1`, the reference-particle map sets `s` to `s + ds/nslice` and leaves
`px, py, pz, pt, mass` and `charge` unchanged; in particular, after `set_energy_MeV(2000.0)`
a push through an element with `ds = 1.0` and `nslice = 1` advances `s` by exactly 1 and
leaves `px, py, pt` unchanged. -/
theorem ChrQuad.op_refpart_effect (K : SI) (ds k : ℝ) (unit nslice : ℤ) (_hn : 1 ≤ nslice)
    (refpart : RefPart) (_hpt : refpart.pt ^ 2 > 1) :
    ((ChrQuad.new ds k unit nslice).op_refpart refpart).s = refpart.s + ds / (nslice : ℝ) ∧
    ((ChrQuad.new ds k unit nslice).op_refpart refpart).px = refpart.px ∧
    ((ChrQuad.new ds k unit nslice).op_refpart refpart).py = refpart.py ∧
    ((ChrQuad.new ds k unit nslice).op_refpart refpart).pz = refpart.pz ∧
    ((ChrQuad.new ds k unit nslice).op_refpart refpart).pt = refpart.pt ∧
    ((ChrQuad.new ds k unit nslice).op_refpart refpart).mass = refpart.mass ∧
    ((ChrQuad.new ds k unit nslice).op_refpart refpart).charge = refpart.charge ∧
    (∀ r0 : RefPart,
      ((ChrQuad.new 1 k unit 1).op_refpart (r0.set_energy_MeV K 2000)).s
        = (r0.set_energy_MeV K 2000).s + 1 ∧
      ((ChrQuad.new 1 k unit 1).op_refpart (r0.set_energy_MeV K 2000)).px
        = (r0.set_energy_MeV K 2000).px ∧
      ((ChrQuad.new 1 k unit 1).op_refpart (r0.set_energy_MeV K 2000)).py
        = (r0.set_energy_MeV K 2000).py ∧
      ((ChrQuad.new 1 k unit 1).op_refpart (r0.set_energy_MeV K 2000)).pt
        = (r0.set_energy_MeV K 2000).pt) := by
  refine ⟨rfl, rfl, rfl, rfl, rfl, rfl, rfl, fun r0 => ⟨?_, rfl, rfl, rfl⟩⟩
  simp only [ChrQuad.op_refpart, ChrQuad.new, ChrQuad.nslice, Int.cast_one, div_one]

theorem ChrQuad.op_refpart_effect_witness :
    (1 : ℤ) ≤ 1 ∧ (RefPart.ofPtMassCharge (-2) 1 0).pt ^ 2 > 1 ∧
    ((ChrQuad.new 1 3 0 1).op_refpart (RefPart.ofPtMassCharge (-2) 1 0)).s
      = (RefPart.ofPtMassCharge (-2) 1 0).s + 1 / ((1 : ℤ) : ℝ) :=
  ⟨le_refl 1, by norm_num [RefPart.ofPtMassCharge],
   (ChrQuad.op_refpart_effect SI.codata 1 3 0 1 (le_refl 1) (RefPart.ofPtMassCharge (-2) 1 0)
     (by norm_num [RefPart.ofPtMassCharge])).1⟩

/-! ## The thin multipole -/

theorem wrap_int32_of_mem (n : ℤ) (h1 : -2 ^ 31 ≤ n) (h2 : n < 2 ^ 31) : wrap_int32 n = n := by
  unfold wrap_int32
  omega

/-- For indices 1 to 13 the constructor stores `(m-1)!`. -/
theorem Multipole.new_mfactorial (m : ℤ) (hm1 : 1 ≤ m) (hm13 : m ≤ 13) (Kn Ks : ℝ) :
    (Multipole.new m Kn Ks).m_mfactorial = (((m - 1).toNat.factorial : ℕ) : ℤ) := by
  interval_cases m <;> rfl

/-- The kick of the multipole in terms of the stored factorial, for an index whose
predecessor is a natural number `n` within the `int` range. -/
theorem Multipole.op_particle_of_index (e : Multipole) (n : ℕ) (N : ℤ)
    (hidx : wrap_int32 (e.m_multipole - 1) = (n : ℤ)) (hN : e.m_mfactorial = N)
    (p : Particle) (refpart : RefPart) :
    e.op_particle p refpart =
      { x := p.x, y := p.y, t := p.t,
        px := p.px - ((⟨e.m_Kn, e.m_Ks⟩ : ℂ) * (⟨p.x, p.y⟩ : ℂ) ^ n).re / (N : ℝ),
        py := p.py + ((⟨e.m_Kn, e.m_Ks⟩ : ℂ) * (⟨p.x, p.y⟩ : ℂ) ^ n).im / (N : ℝ),
        pt := p.pt } := by
  simp only [Multipole.op_particle, hidx, hN, zpow_natCast, Particle.mk.injEq, true_and,
    and_true]
  constructor
  · rw [mul_comm ((⟨p.x, p.y⟩ : ℂ) ^ n)]
    ring
  · rw [mul_comm ((⟨p.x, p.y⟩ : ℂ) ^ n)]

/-- The kick where the stored factorial is exact: for every multipole index `1 ≤ m ≤ 13`,
coefficients `Kn`, `Ks` and particle, with `zeta = x + i*y` and
`f = (Kn + i*Ks) * zeta^(m-1) / (m-1)!`, the particle map returns `px' = px - Re(f)` and
`py' = py + Im(f)` and leaves `x, y, t, pt` unchanged; for `m = 2`,
`px' = px - (Kn*x - Ks*y)` and `py' = py + (Kn*y + Ks*x)`. -/
theorem Multipole.op_particle_kick (m : ℤ) (hm1 : 1 ≤ m) (hm13 : m ≤ 13) (Kn Ks : ℝ)
    (p : Particle) (refpart : RefPart) :
    ((Multipole.new m Kn Ks).op_particle p refpart).px
      = p.px - ((⟨Kn, Ks⟩ : ℂ) * (⟨p.x, p.y⟩ : ℂ) ^ (m - 1).toNat
          / (((m - 1).toNat.factorial : ℕ) : ℂ)).re ∧
    ((Multipole.new m Kn Ks).op_particle p refpart).py
      = p.py + ((⟨Kn, Ks⟩ : ℂ) * (⟨p.x, p.y⟩ : ℂ) ^ (m - 1).toNat
          / (((m - 1).toNat.factorial : ℕ) : ℂ)).im ∧
    ((Multipole.new m Kn Ks).op_particle p refpart).x = p.x ∧
    ((Multipole.new m Kn Ks).op_particle p refpart).y = p.y ∧
    ((Multipole.new m Kn Ks).op_particle p refpart).t = p.t ∧
    ((Multipole.new m Kn Ks).op_particle p refpart).pt = p.pt ∧
    ((Multipole.new 2 Kn Ks).op_particle p refpart).px = p.px - (Kn * p.x - Ks * p.y) ∧
    ((Multipole.new 2 Kn Ks).op_particle p refpart).py = p.py + (Kn * p.y + Ks * p.x) := by
  have hidx : wrap_int32 ((Multipole.new m Kn Ks).m_multipole - 1) = ((m - 1).toNat : ℤ) := by
    have h0 : (Multipole.new m Kn Ks).m_multipole = m := rfl
    rw [h0, wrap_int32_of_mem _ (by omega) (by omega), Int.toNat_of_nonneg (by omega)]
  have h := Multipole.op_particle_of_index (Multipole.new m Kn Ks) _ _ hidx
    (Multipole.new_mfactorial m hm1 hm13 Kn Ks) p refpart
  have hidx2 : wrap_int32 ((Multipole.new 2 Kn Ks).m_multipole - 1) = ((1 : ℕ) : ℤ) := rfl
  have h2 := Multipole.op_particle_of_index (Multipole.new 2 Kn Ks) 1 1 hidx2 rfl p refpart
  have hKn : (Multipole.new m Kn Ks).m_Kn = Kn := rfl
  have hKs : (Multipole.new m Kn Ks).m_Ks = Ks := rfl
  have hKn2 : (Multipole.new 2 Kn Ks).m_Kn = Kn := rfl
  have hKs2 : (Multipole.new 2 Kn Ks).m_Ks = Ks := rfl
  rw [hKn, hKs] at h
  rw [hKn2, hKs2] at h2
  rw [h, h2]
  refine ⟨?_, ?_, rfl, rfl, rfl, rfl, ?_, ?_⟩
  · simp only [Complex.div_natCast_re, Int.cast_natCast]
  · simp only [Complex.div_natCast_im, Int.cast_natCast]
  · simp only [pow_one, Complex.mul_re, Int.cast_one, div_one]
  · simp only [pow_one, Complex.mul_im, Int.cast_one, div_one]

theorem Multipole.op_particle_kick_witness :
    (1 : ℤ) ≤ 3 ∧ (3 : ℤ) ≤ 13 ∧
    ((Multipole.new 3 1 0).op_particle { x := 1, y := 2, t := 3, px := 4, py := 5, pt := 0 }
        (RefPart.ofPtMassCharge (-2) 1 0)).x = 1 :=
  ⟨by decide, by decide,
   (Multipole.op_particle_kick 3 (by decide) (by decide) 1 0
     { x := 1, y := 2, t := 3, px := 4, py := 5, pt := 0 }
     (RefPart.ofPtMassCharge (-2) 1 0)).2.2.1⟩

/-- C14: the code at index 14. The loop commented `compute factorial of multipole index`
overflows its `int`: the 32-bit product stored by the constructor is `1932053504`, not
`13! = 6227020800`, so with `Kn = 1`, `Ks = 0` and the particle at `x = 1`, `y = 0`, `px = 0`
the map returns `px' = -1/1932053504` instead of `px - Re(f) = -1/13!`. -/
theorem Multipole.op_particle_kick_index14 :
    (Multipole.new 14 1 0).m_mfactorial = 1932053504 ∧
    ((Multipole.new 14 1 0).op_particle { x := 1, y := 0, t := 0, px := 0, py := 0, pt := 0 }
        (RefPart.ofPtMassCharge (-2) 1 0)).px = -1 / 1932053504 ∧
    ((Multipole.new 14 1 0).op_particle { x := 1, y := 0, t := 0, px := 0, py := 0, pt := 0 }
        (RefPart.ofPtMassCharge (-2) 1 0)).px
      ≠ (0 : ℝ) - ((⟨1, 0⟩ : ℂ) * (⟨1, 0⟩ : ℂ) ^ ((14 : ℤ) - 1).toNat
          / (((((14 : ℤ) - 1).toNat).factorial : ℕ) : ℂ)).re := by
  have hidx : wrap_int32 ((Multipole.new 14 1 0).m_multipole - 1) = ((13 : ℕ) : ℤ) := by
    decide
  have hN : (Multipole.new 14 1 0).m_mfactorial = 1932053504 := by decide
  have h := Multipole.op_particle_of_index (Multipole.new 14 1 0) 13 1932053504 hidx hN
    { x := 1, y := 0, t := 0, px := 0, py := 0, pt := 0 } (RefPart.ofPtMassCharge (-2) 1 0)
  have hone : (⟨1, 0⟩ : ℂ) = 1 := rfl
  have hKn : (Multipole.new 14 1 0).m_Kn = 1 := rfl
  have hKs : (Multipole.new 14 1 0).m_Ks = 0 := rfl
  have hpx : ((Multipole.new 14 1 0).op_particle
      { x := 1, y := 0, t := 0, px := 0, py := 0, pt := 0 }
      (RefPart.ofPtMassCharge (-2) 1 0)).px = -1 / 1932053504 := by
    rw [h, hKn, hKs, hone]
    norm_num
  refine ⟨hN, hpx, ?_⟩
  rw [hpx, hone]
  have h13 : ((14 : ℤ) - 1).toNat = 13 := by decide
  rw [h13]
  simp only [one_pow, mul_one, Complex.div_natCast_re, Complex.one_re]
  norm_num [Nat.factorial]

/-! ## Thin kicks: reversibility -/

/-- The square of the principal square root is the argument. -/
theorem csqrt_sq (z : ℂ) : csqrt z ^ 2 = z := by
  unfold csqrt
  exact Complex.cpow_ofNat_inv_pow z 2

/-- The cube of the principal square root is the principal power of exponent `3/2`. -/
theorem csqrt_cube (z : ℂ) : csqrt z ^ 3 = z ^ ((3 : ℂ) / 2) := by
  unfold csqrt
  have h : ((3 : ℂ) / 2) = ((3 : ℕ) : ℂ) * 2⁻¹ := by
    push_cast
    ring
  rw [h, Complex.cpow_nat_mul]

/-- C16: for every `knll`, `cnll ≠ 0` and particle with `zeta = (x + i*y)/cnll`, `zeta^2 ≠ 1`,
the map leaves `x, y, t, pt` unchanged and returns `px' = px - (knll/cnll)*Re(dF)`,
`py' = py + (knll/cnll)*Im(dF)`, where
`dF = zeta/(1 - zeta^2) + arcsin(zeta)/(1 - zeta^2)^(3/2)` with the principal complex square
root and `arcsin(zeta) = -i*log(i*zeta + sqrt(1 - zeta^2))`. -/
theorem NonlinearLens.op_particle_lens_kick (knll cnll : ℝ) (_hc : cnll ≠ 0) (p : Particle)
    (refpart : RefPart) (zeta arcsin dF : ℂ)
    (hzeta : zeta = (⟨p.x, p.y⟩ : ℂ) / (cnll : ℂ)) (_hs : zeta ^ 2 ≠ 1)
    (harcsin : arcsin = -Complex.I * Complex.log (Complex.I * zeta + csqrt (1 - zeta ^ 2)))
    (hdF : dF = zeta / (1 - zeta ^ 2) + arcsin / (1 - zeta ^ 2) ^ ((3 : ℂ) / 2)) :
    ((NonlinearLens.new knll cnll).op_particle p refpart).px
      = p.px - (knll / cnll) * dF.re ∧
    ((NonlinearLens.new knll cnll).op_particle p refpart).py
      = p.py + (knll / cnll) * dF.im ∧
    ((NonlinearLens.new knll cnll).op_particle p refpart).x = p.x ∧
    ((NonlinearLens.new knll cnll).op_particle p refpart).y = p.y ∧
    ((NonlinearLens.new knll cnll).op_particle p refpart).t = p.t ∧
    ((NonlinearLens.new knll cnll).op_particle p refpart).pt = p.pt := by
  have hre1 : (⟨1, 0⟩ : ℂ) = 1 := rfl
  have him1 : (⟨0, 1⟩ : ℂ) = Complex.I := rfl
  refine ⟨?_, ?_, rfl, rfl, rfl, rfl⟩
  · simp only [NonlinearLens.op_particle, NonlinearLens.new, hre1, him1, ← hzeta, csqrt_sq,
      csqrt_cube, ← harcsin, ← hdF]
    ring
  · simp only [NonlinearLens.op_particle, NonlinearLens.new, hre1, him1, ← hzeta, csqrt_sq,
      csqrt_cube, ← harcsin, ← hdF]
    ring

theorem NonlinearLens.op_particle_lens_kick_witness :
    (1 : ℝ) ≠ 0 ∧
    ((NonlinearLens.new 2 1).op_particle { x := 0, y := 0, t := 3, px := 4, py := 5, pt := 0 }
        (RefPart.ofPtMassCharge (-2) 1 0)).x = 0 :=
  ⟨one_ne_zero,
   (NonlinearLens.op_particle_lens_kick 2 1 one_ne_zero
     { x := 0, y := 0, t := 3, px := 4, py := 5, pt := 0 } (RefPart.ofPtMassCharge (-2) 1 0)
     ((⟨0, 0⟩ : ℂ) / ((1 : ℝ) : ℂ))
     (-Complex.I * Complex.log (Complex.I * ((⟨0, 0⟩ : ℂ) / ((1 : ℝ) : ℂ))
        + csqrt (1 - ((⟨0, 0⟩ : ℂ) / ((1 : ℝ) : ℂ)) ^ 2)))
     (((⟨0, 0⟩ : ℂ) / ((1 : ℝ) : ℂ)) / (1 - ((⟨0, 0⟩ : ℂ) / ((1 : ℝ) : ℂ)) ^ 2)
        + (-Complex.I * Complex.log (Complex.I * ((⟨0, 0⟩ : ℂ) / ((1 : ℝ) : ℂ))
            + csqrt (1 - ((⟨0, 0⟩ : ℂ) / ((1 : ℝ) : ℂ)) ^ 2)))
          / (1 - ((⟨0, 0⟩ : ℂ) / ((1 : ℝ) : ℂ)) ^ 2) ^ ((3 : ℂ) / 2))
     rfl
     (by
       have h0 : (⟨0, 0⟩ : ℂ) = 0 := rfl
       rw [h0]
       norm_num)
     rfl rfl).2.2.1⟩

/-! ## The pole-face rotation -/

/-- C17: with `theta = phi_out - phi_in`, `Px = px + sin(phi_in)` and
`pz = sqrt(1 - 2*pt/beta + pt^2 - py^2 - Px^2)` (radicand nonnegative), the map divides by
`pzf = pz*cos(theta) - Px*sin(theta)` and returns `px'` with
`px' + sin(phi_out) = Px*cos(theta) + pz*sin(theta)`, so that
`(px' + sin(phi_out))^2 + pzf^2 = Px^2 + pz^2`; `py` and `pt` are unchanged. -/
theorem PRot.op_particle_rotation (e : PRot) (p : Particle) (refpart : RefPart)
    (theta Px pz pzf : ℝ) (htheta : theta = e.m_phi_out - e.m_phi_in)
    (hPx : Px = p.px + Real.sin e.m_phi_in)
    (_hrad : 0 ≤ 1 - 2 * p.pt / refpart.beta + p.pt ^ 2 - p.py ^ 2 - Px ^ 2)
    (hpz : pz = Real.sqrt (1 - 2 * p.pt / refpart.beta + p.pt ^ 2 - p.py ^ 2 - Px ^ 2))
    (hpzf : pzf = pz * Real.cos theta - Px * Real.sin theta) :
    (e.op_particle p refpart).x = p.x * pz / pzf ∧
    (e.op_particle p refpart).px + Real.sin e.m_phi_out
      = Px * Real.cos theta + pz * Real.sin theta ∧
    ((e.op_particle p refpart).px + Real.sin e.m_phi_out) ^ 2 + pzf ^ 2 = Px ^ 2 + pz ^ 2 ∧
    (e.op_particle p refpart).py = p.py ∧
    (e.op_particle p refpart).pt = p.pt := by
  have hout : e.m_phi_out = e.m_phi_in + theta := by
    rw [htheta]
    ring
  have hsin : Real.sin e.m_phi_out
      = Real.sin e.m_phi_in * Real.cos theta + Real.cos e.m_phi_in * Real.sin theta := by
    rw [hout, Real.sin_add]
  have hpx : (e.op_particle p refpart).px + Real.sin e.m_phi_out
      = Px * Real.cos theta + pz * Real.sin theta := by
    simp only [PRot.op_particle, ← htheta, ← hPx, ← hpz]
    rw [hsin, hPx]
    ring
  refine ⟨?_, hpx, ?_, rfl, rfl⟩
  · simp only [PRot.op_particle, ← htheta, ← hPx, ← hpz, ← hpzf]
  · rw [hpx, hpzf]
    have hcs := Real.cos_sq_add_sin_sq theta
    linear_combination (Px ^ 2 + pz ^ 2) * hcs

theorem PRot.op_particle_rotation_witness :
    (0 : ℝ) ≤ 1 - 2 * 0 / (RefPart.ofPtMassCharge (-2) 1 0).beta + 0 ^ 2 - 0 ^ 2
        - (0 + Real.sin (PRot.new 0 0).m_phi_in) ^ 2 ∧
    ((PRot.new 0 0).op_particle { x := 1, y := 2, t := 3, px := 0, py := 0, pt := 0 }
        (RefPart.ofPtMassCharge (-2) 1 0)).py = 0 :=
  have h0 : (0 : ℝ) ≤ 1 - 2 * 0 / (RefPart.ofPtMassCharge (-2) 1 0).beta + 0 ^ 2 - 0 ^ 2
        - (0 + Real.sin (PRot.new 0 0).m_phi_in) ^ 2 := by
    norm_num [PRot.new]
  ⟨h0, (PRot.op_particle_rotation (PRot.new 0 0)
      { x := 1, y := 2, t := 3, px := 0, py := 0, pt := 0 } (RefPart.ofPtMassCharge (-2) 1 0)
      ((PRot.new 0 0).m_phi_out - (PRot.new 0 0).m_phi_in)
      (0 + Real.sin (PRot.new 0 0).m_phi_in)
      (Real.sqrt (1 - 2 * 0 / (RefPart.ofPtMassCharge (-2) 1 0).beta + 0 ^ 2 - 0 ^ 2
        - (0 + Real.sin (PRot.new 0 0).m_phi_in) ^ 2))
      (Real.sqrt (1 - 2 * 0 / (RefPart.ofPtMassCharge (-2) 1 0).beta + 0 ^ 2 - 0 ^ 2
          - (0 + Real.sin (PRot.new 0 0).m_phi_in) ^ 2)
          * Real.cos ((PRot.new 0 0).m_phi_out - (PRot.new 0 0).m_phi_in)
        - (0 + Real.sin (PRot.new 0 0).m_phi_in)
          * Real.sin ((PRot.new 0 0).m_phi_out - (PRot.new 0 0).m_phi_in))
      rfl rfl h0 rfl rfl).2.2.2.1⟩

/-- C18, as the code has it: for every particle with `pzf ≠ 0`, the position outputs are
`x' = x*pz/pzf`, `y' = y + py*x*sin(theta)/pzf` and
`t' = t - (pt - 1/beta)*x*sin(theta)/pzf`. -/
theorem PRot.op_particle_positions (e : PRot) (p : Particle) (refpart : RefPart)
    (theta pz pzf : ℝ) (htheta : theta = e.m_phi_out - e.m_phi_in)
    (hpz : pz = Real.sqrt (1 - 2 * p.pt / refpart.beta + p.pt ^ 2 - p.py ^ 2
      - (p.px + Real.sin e.m_phi_in) ^ 2))
    (hpzf : pzf = pz * Real.cos theta - (p.px + Real.sin e.m_phi_in) * Real.sin theta)
    (_hne : pzf ≠ 0) :
    (e.op_particle p refpart).x = p.x * pz / pzf ∧
    (e.op_particle p refpart).y = p.y + p.py * p.x * Real.sin theta / pzf ∧
    (e.op_particle p refpart).t
      = p.t - (p.pt - 1 / refpart.beta) * p.x * Real.sin theta / pzf := by
  subst htheta hpz hpzf
  exact ⟨rfl, rfl, rfl⟩

theorem PRot.op_particle_positions_witness :
    Real.sqrt (1 - 2 * 0 / (RefPart.ofPtMassCharge (-2) 1 0).beta + 0 ^ 2 - 0 ^ 2
          - (0 + Real.sin (PRot.new 0 0).m_phi_in) ^ 2)
          * Real.cos ((PRot.new 0 0).m_phi_out - (PRot.new 0 0).m_phi_in)
        - (0 + Real.sin (PRot.new 0 0).m_phi_in)
          * Real.sin ((PRot.new 0 0).m_phi_out - (PRot.new 0 0).m_phi_in) ≠ 0 ∧
    ((PRot.new 0 0).op_particle { x := 1, y := 2, t := 3, px := 0, py := 0, pt := 0 }
        (RefPart.ofPtMassCharge (-2) 1 0)).y
      = 2 + 0 * 1 * Real.sin ((PRot.new 0 0).m_phi_out - (PRot.new 0 0).m_phi_in)
        / (Real.sqrt (1 - 2 * 0 / (RefPart.ofPtMassCharge (-2) 1 0).beta + 0 ^ 2 - 0 ^ 2
          - (0 + Real.sin (PRot.new 0 0).m_phi_in) ^ 2)
          * Real.cos ((PRot.new 0 0).m_phi_out - (PRot.new 0 0).m_phi_in)
        - (0 + Real.sin (PRot.new 0 0).m_phi_in)
          * Real.sin ((PRot.new 0 0).m_phi_out - (PRot.new 0 0).m_phi_in)) :=
  have h0 : Real.sqrt (1 - 2 * 0 / (RefPart.ofPtMassCharge (-2) 1 0).beta + 0 ^ 2 - 0 ^ 2
          - (0 + Real.sin (PRot.new 0 0).m_phi_in) ^ 2)
          * Real.cos ((PRot.new 0 0).m_phi_out - (PRot.new 0 0).m_phi_in)
        - (0 + Real.sin (PRot.new 0 0).m_phi_in)
          * Real.sin ((PRot.new 0 0).m_phi_out - (PRot.new 0 0).m_phi_in) ≠ 0 := by
    norm_num [PRot.new]
  ⟨h0, (PRot.op_particle_positions (PRot.new 0 0)
      { x := 1, y := 2, t := 3, px := 0, py := 0, pt := 0 } (RefPart.ofPtMassCharge (-2) 1 0)
      _ _ _ rfl rfl rfl h0).2.1⟩

/-- C18 fails as stated for `y` (and `t`): for `PRot(0, 90)` and the particle
`x = 1, y = 0, t = 0, px = -3/5, py = 1/5, pt = 0` one has `pzf = 3/5 ≠ 0` and the map returns
`y' = y + py*x*sin(theta)/pzf = 1/3`, whereas `y*pz/pzf = 0`. -/
theorem PRot.op_particle_y_not_rescaled :
    Real.sqrt (1 - 2 * 0 / (RefPart.ofPtMassCharge (-2) 1 0).beta + 0 ^ 2 - (1 / 5) ^ 2
          - (-3 / 5 + Real.sin (PRot.new 0 90).m_phi_in) ^ 2)
          * Real.cos ((PRot.new 0 90).m_phi_out - (PRot.new 0 90).m_phi_in)
        - (-3 / 5 + Real.sin (PRot.new 0 90).m_phi_in)
          * Real.sin ((PRot.new 0 90).m_phi_out - (PRot.new 0 90).m_phi_in) = 3 / 5 ∧
    ((PRot.new 0 90).op_particle
        { x := 1, y := 0, t := 0, px := -3 / 5, py := 1 / 5, pt := 0 }
        (RefPart.ofPtMassCharge (-2) 1 0)).y = 1 / 3 ∧
    ((PRot.new 0 90).op_particle
        { x := 1, y := 0, t := 0, px := -3 / 5, py := 1 / 5, pt := 0 }
        (RefPart.ofPtMassCharge (-2) 1 0)).y
      ≠ 0 * Real.sqrt (1 - 2 * 0 / (RefPart.ofPtMassCharge (-2) 1 0).beta + 0 ^ 2 - (1 / 5) ^ 2
          - (-3 / 5 + Real.sin (PRot.new 0 90).m_phi_in) ^ 2)
        / (Real.sqrt (1 - 2 * 0 / (RefPart.ofPtMassCharge (-2) 1 0).beta + 0 ^ 2 - (1 / 5) ^ 2
          - (-3 / 5 + Real.sin (PRot.new 0 90).m_phi_in) ^ 2)
          * Real.cos ((PRot.new 0 90).m_phi_out - (PRot.new 0 90).m_phi_in)
        - (-3 / 5 + Real.sin (PRot.new 0 90).m_phi_in)
          * Real.sin ((PRot.new 0 90).m_phi_out - (PRot.new 0 90).m_phi_in)) := by
  have hin : (PRot.new 0 90).m_phi_in = 0 := by
    simp [PRot.new]
  have hout : (PRot.new 0 90).m_phi_out = Real.pi / 2 := by
    simp only [PRot.new, PRot.degree2rad]
    ring
  have hy : ((PRot.new 0 90).op_particle
        { x := 1, y := 0, t := 0, px := -3 / 5, py := 1 / 5, pt := 0 }
        (RefPart.ofPtMassCharge (-2) 1 0)).y = 1 / 3 := by
    simp only [PRot.op_particle, hin, hout, sub_zero, Real.sin_pi_div_two, Real.cos_pi_div_two,
      Real.sin_zero, mul_zero, add_zero, mul_one, zero_sub, zero_add]
    norm_num
  refine ⟨?_, hy, ?_⟩
  · simp only [hin, hout, sub_zero, Real.sin_pi_div_two, Real.cos_pi_div_two,
      Real.sin_zero, mul_zero, add_zero, mul_one, zero_sub]
    norm_num
  · rw [hy]
    norm_num

/-- The rotation by `theta = phi_out - phi_in` followed by the rotation with the two angles
exchanged is the identity on particles with positive `pz` and `pzf`. -/
theorem PRot.op_particle_swap_angles (e : PRot) (p : Particle) (refpart : RefPart)
    (hpz : 0 < Real.sqrt (1 - 2 * p.pt / refpart.beta + p.pt ^ 2 - p.py ^ 2
      - (p.px + Real.sin e.m_phi_in) ^ 2))
    (hpzf : 0 < Real.sqrt (1 - 2 * p.pt / refpart.beta + p.pt ^ 2 - p.py ^ 2
        - (p.px + Real.sin e.m_phi_in) ^ 2) * Real.cos (e.m_phi_out - e.m_phi_in)
      - (p.px + Real.sin e.m_phi_in) * Real.sin (e.m_phi_out - e.m_phi_in)) :
    PRot.op_particle { m_phi_in := e.m_phi_out, m_phi_out := e.m_phi_in }
      (e.op_particle p refpart) refpart = p := by
  obtain ⟨a, b⟩ := e
  obtain ⟨x, y, t, px, py, pt⟩ := p
  obtain ⟨θ, rfl⟩ : ∃ θ, b = a + θ := ⟨b - a, by ring⟩
  have e1 : a + θ - a = θ := by ring
  have e2 : a - (a + θ) = -θ := by ring
  simp only [e1] at hpzf
  simp only [PRot.op_particle, e1, e2, Real.cos_neg, Real.sin_neg, Real.sin_add, Real.cos_add]
  generalize refpart.beta = β at hpz hpzf ⊢
  have hR : 0 ≤ 1 - 2 * pt / β + pt ^ 2 - py ^ 2 - (px + Real.sin a) ^ 2 :=
    (Real.sqrt_pos.mp hpz).le
  have hsq := Real.sq_sqrt hR
  generalize Real.sqrt (1 - 2 * pt / β + pt ^ 2 - py ^ 2 - (px + Real.sin a) ^ 2) = pz
    at hpz hpzf hsq ⊢
  have hcs := Real.cos_sq_add_sin_sq θ
  have hab := Real.cos_sq_add_sin_sq a
  generalize Real.cos θ = c at hpzf hcs ⊢
  generalize Real.sin θ = s at hpzf hcs ⊢
  generalize Real.cos a = C at hab ⊢
  generalize Real.sin a = S at hpzf hsq hab ⊢
  have hrad : 1 - 2 * pt / β + pt ^ 2 - py ^ 2
      - (px * c + (pz - C) * s + (S * c + C * s)) ^ 2 = (pz * c - (px + S) * s) ^ 2 := by
    linear_combination -hsq - (pz ^ 2 + (px + S) ^ 2) * hcs
  rw [hrad, Real.sqrt_sq hpzf.le]
  have hback : (pz * c - (px + S) * s) * c
      - (px * c + (pz - C) * s + (S * c + C * s)) * -s = pz := by
    linear_combination pz * hcs
  rw [hback]
  have hpz0 : pz ≠ 0 := hpz.ne'
  have hpzf0 : pz * c - (px + S) * s ≠ 0 := hpzf.ne'
  simp only [Particle.mk.injEq, and_true]
  refine ⟨?_, ?_, ?_, ?_⟩
  · field_simp
  · field_simp
    ring
  · field_simp
    ring
  · linear_combination px * hcs

/-- C19: for every `phi_in`, `phi_out`, reference particle with `gamma > 1` and particle state
with `pz > 0` and `pzf > 0`, applying `PRot(phi_in, phi_out)` and then `PRot(phi_out, phi_in)`
returns the original `(x, y, t, px, py, pt)`. -/
theorem PRot.op_particle_rotation_reversible (phi_in phi_out : ℝ) (refpart : RefPart)
    (_hγ : refpart.gamma > 1) (p : Particle)
    (hpz : 0 < Real.sqrt (1 - 2 * p.pt / refpart.beta + p.pt ^ 2 - p.py ^ 2
      - (p.px + Real.sin (PRot.new phi_in phi_out).m_phi_in) ^ 2))
    (hpzf : 0 < Real.sqrt (1 - 2 * p.pt / refpart.beta + p.pt ^ 2 - p.py ^ 2
        - (p.px + Real.sin (PRot.new phi_in phi_out).m_phi_in) ^ 2)
        * Real.cos ((PRot.new phi_in phi_out).m_phi_out - (PRot.new phi_in phi_out).m_phi_in)
      - (p.px + Real.sin (PRot.new phi_in phi_out).m_phi_in)
        * Real.sin ((PRot.new phi_in phi_out).m_phi_out
            - (PRot.new phi_in phi_out).m_phi_in)) :
    (PRot.new phi_out phi_in).op_particle
      ((PRot.new phi_in phi_out).op_particle p refpart) refpart = p :=
  PRot.op_particle_swap_angles (PRot.new phi_in phi_out) p refpart hpz hpzf

theorem PRot.op_particle_rotation_reversible_witness :
    (RefPart.ofPtMassCharge (-2) 1 0).gamma > 1 ∧
    (PRot.new 90 0).op_particle
      ((PRot.new 0 90).op_particle
        { x := 1, y := 0, t := 0, px := -3 / 5, py := 1 / 5, pt := 0 }
        (RefPart.ofPtMassCharge (-2) 1 0))
      (RefPart.ofPtMassCharge (-2) 1 0)
      = { x := 1, y := 0, t := 0, px := -3 / 5, py := 1 / 5, pt := 0 } := by
  have hin : (PRot.new 0 90).m_phi_in = 0 := by
    simp [PRot.new]
  have hout : (PRot.new 0 90).m_phi_out = Real.pi / 2 := by
    simp only [PRot.new, PRot.degree2rad]
    ring
  refine ⟨by norm_num [RefPart.ofPtMassCharge, RefPart.gamma],
    PRot.op_particle_rotation_reversible 0 90 (RefPart.ofPtMassCharge (-2) 1 0)
      (by norm_num [RefPart.ofPtMassCharge, RefPart.gamma])
      { x := 1, y := 0, t := 0, px := -3 / 5, py := 1 / 5, pt := 0 } ?_ ?_⟩
  · rw [hin]
    apply Real.sqrt_pos.mpr
    norm_num
  · rw [hin, hout]
    simp only [sub_zero, Real.sin_pi_div_two, Real.cos_pi_div_two, Real.sin_zero, mul_zero,
      add_zero, mul_one, zero_sub]
    norm_num

/-! ## Integrators -/

/-- A counting loop whose body ignores the counter, run `k` times, is the fold of the `k`-fold
repetition of the three maps that make up the body. -/
theorem integrators.fold_range_eq_fold_maps {S : Type} (a b c : S → S) (k : ℕ) (init : S) :
    (List.range k).foldl (fun st _j => c (b (a st))) init
      = (List.replicate k [a, b, c]).flatten.foldl (fun st f => f st) init := by
  induction k with
  | zero => rfl
  | succ k ih =>
    rw [List.range_succ, List.foldl_append, ih, List.replicate_succ', List.flatten_append,
      List.foldl_append]
    rfl

/-- C20: over `[zin, zout]` with `nsteps = n ≥ 1`, `symp2_integrate` applies to the
`(reference particle, zeval)` state, started at `(refpart, zin)`, exactly the sequence
`map1(h/2), map2(h), map1(h/2)` repeated `n` times in that order, with `h = (zout - zin)/n`. -/
theorem integrators.symp2_integrate_sequence (refpart : RefPart) (zin zout : ℝ) (n : ℤ)
    (_hn : 1 ≤ n) (element : integrators.T_Element) (h : ℝ) (hh : h = (zout - zin) / (n : ℝ)) :
    integrators.symp2_integrate_state refpart zin zout n element
      = (List.replicate n.toNat
          [element.map1 (h / 2), element.map2 h, element.map1 (h / 2)]).flatten.foldl
          (fun st f => f st) (refpart, zin) ∧
    integrators.symp2_integrate refpart zin zout n element
      = ((List.replicate n.toNat
          [element.map1 (h / 2), element.map2 h, element.map1 (h / 2)]).flatten.foldl
          (fun st f => f st) (refpart, zin)).1 ∧
    (List.replicate n.toNat
      [element.map1 (h / 2), element.map2 h, element.map1 (h / 2)]).flatten.length
      = 3 * n.toNat ∧
    ((n.toNat : ℤ) = n) := by
  have key : integrators.symp2_integrate_state refpart zin zout n element
      = (List.replicate n.toNat
          [element.map1 (h / 2), element.map2 h, element.map1 (h / 2)]).flatten.foldl
          (fun st f => f st) (refpart, zin) := by
    subst hh
    exact integrators.fold_range_eq_fold_maps _ _ _ _ _
  refine ⟨key, ?_, ?_, Int.toNat_of_nonneg (by omega)⟩
  · rw [integrators.symp2_integrate, key]
  · simp only [List.length_flatten, List.map_replicate, List.length_cons, List.length_nil,
      List.sum_replicate, smul_eq_mul]
    omega

theorem integrators.symp2_integrate_sequence_witness :
    (1 : ℤ) ≤ 2 ∧
    integrators.symp2_integrate_state (RefPart.ofPtMassCharge (-2) 1 0) 0 1 2 integrators.probe
      = (List.replicate (2 : ℤ).toNat
          [integrators.probe.map1 ((1 - 0) / ((2 : ℤ) : ℝ) / 2),
           integrators.probe.map2 ((1 - 0) / ((2 : ℤ) : ℝ)),
           integrators.probe.map1 ((1 - 0) / ((2 : ℤ) : ℝ) / 2)]).flatten.foldl
          (fun st f => f st) (RefPart.ofPtMassCharge (-2) 1 0, 0) :=
  ⟨by decide,
   (integrators.symp2_integrate_sequence (RefPart.ofPtMassCharge (-2) 1 0) 0 1 2 (by decide)
     integrators.probe ((1 - 0) / ((2 : ℤ) : ℝ)) rfl).1⟩

/-- A counting loop whose body is the composition of a list of maps, run `k` times, is the
fold of the `k`-fold repetition of that list. -/
theorem integrators.fold_range_eq_fold_list {S : Type} (L : List (S → S)) (k : ℕ) (init : S) :
    (List.range k).foldl (fun st _j => L.foldl (fun st f => f st) st) init
      = (List.replicate k L).flatten.foldl (fun st f => f st) init := by
  induction k with
  | zero => rfl
  | succ k ih =>
    rw [List.range_succ, List.foldl_append, ih, List.replicate_succ', List.flatten_append,
      List.foldl_append]
    simp only [List.foldl_cons, List.foldl_nil, List.flatten_cons, List.flatten_nil,
      List.append_nil]

/-- The cube root of two is less than two, so `1 + alpha = 2 - 2^(1/3)` is positive. -/
theorem integrators.one_add_alpha_pos : 0 < 1 + (1 - (2 : ℝ) ^ ((1 : ℝ) / 3)) := by
  have h : (2 : ℝ) ^ ((1 : ℝ) / 3) < (2 : ℝ) ^ (1 : ℝ) :=
    Real.rpow_lt_rpow_of_exponent_lt (by norm_num) (by norm_num)
  rw [Real.rpow_one] at h
  linarith

/-- The cube of the cube root of two is two. -/
theorem integrators.cbrt_two_cube : ((2 : ℝ) ^ ((1 : ℝ) / 3)) ^ 3 = 2 := by
  rw [← Real.rpow_natCast, ← Real.rpow_mul (by norm_num)]
  norm_num

/-- On the recording element a loop whose body adds `a`, `b`, `c` to `s`, `t`, `z` adds
`k*a`, `k*b`, `k*c` after `k` rounds. -/
theorem integrators.fold_range_totals (a b c : ℝ) (body : RefPart × ℝ → RefPart × ℝ)
    (hs : ∀ st, (body st).1.s = st.1.s + a) (ht : ∀ st, (body st).1.t = st.1.t + b)
    (hz : ∀ st, (body st).1.z = st.1.z + c) (k : ℕ) (init : RefPart × ℝ) :
    ((List.range k).foldl (fun st _j => body st) init).1.s = init.1.s + k * a ∧
    ((List.range k).foldl (fun st _j => body st) init).1.t = init.1.t + k * b ∧
    ((List.range k).foldl (fun st _j => body st) init).1.z = init.1.z + k * c := by
  induction k with
  | zero => simp
  | succ k ih =>
    rw [List.range_succ, List.foldl_append]
    simp only [List.foldl_cons, List.foldl_nil, hs, ht, hz, ih.1, ih.2.1, ih.2.2]
    push_cast
    refine ⟨by ring, by ring, by ring⟩

/-- C21: in every integration step the step lengths passed to `map1` sum to
`h = (zout - zin)/n`, those passed to `map2` sum to `h`, and `map3` receives `h` in
`symp2_integrate_split3`, for all three integrators; over `n ≥ 1` steps the total is
`n*h = zout - zin`, as the element recording its step lengths shows. -/
theorem integrators.substep_sums (refpart : RefPart) (zin zout : ℝ) (n : ℤ) (hn : 1 ≤ n)
    (element : integrators.T_Element) (h : ℝ) (hh : h = (zout - zin) / (n : ℝ))
    (alpha tau1 tau2 tau3 tau4 : ℝ) (halpha : alpha = 1 - (2 : ℝ) ^ ((1 : ℝ) / 3))
    (htau2 : tau2 = h / (1 + alpha)) (htau1 : tau1 = tau2 / 2) (htau3 : tau3 = alpha * tau1)
    (htau4 : tau4 = (alpha - 1) * tau2) :
    (integrators.symp2_integrate_state refpart zin zout n element
        = (List.replicate n.toNat
            [element.map1 (h / 2), element.map2 h, element.map1 (h / 2)]).flatten.foldl
            (fun st f => f st) (refpart, zin) ∧
      h / 2 + h / 2 = h) ∧
    (integrators.symp2_integrate_split3_state refpart zin zout n element
        = (List.replicate n.toNat
            [element.map1 (h / 2), element.map2 (h / 2), element.map3 h,
             element.map2 (h / 2), element.map1 (h / 2)]).flatten.foldl
            (fun st f => f st) (refpart, zin) ∧
      h / 2 + h / 2 = h) ∧
    (integrators.symp4_integrate_state refpart zin zout n element
        = (List.replicate n.toNat
            [element.map1 tau1, element.map2 tau2, element.map1 tau3, element.map2 tau4,
             element.map1 tau3, element.map2 tau2, element.map1 tau1]).flatten.foldl
            (fun st f => f st) (refpart, zin) ∧
      tau1 + tau3 + tau3 + tau1 = h ∧ tau2 + tau4 + tau2 = h) ∧
    ((n.toNat : ℝ) * h = zout - zin) ∧
    ((integrators.symp2_integrate refpart zin zout n integrators.counter).s
        = refpart.s + (zout - zin) ∧
      (integrators.symp2_integrate refpart zin zout n integrators.counter).t
        = refpart.t + (zout - zin)) ∧
    ((integrators.symp2_integrate_split3 refpart zin zout n integrators.counter).s
        = refpart.s + (zout - zin) ∧
      (integrators.symp2_integrate_split3 refpart zin zout n integrators.counter).t
        = refpart.t + (zout - zin) ∧
      (integrators.symp2_integrate_split3 refpart zin zout n integrators.counter).z
        = refpart.z + (zout - zin)) ∧
    ((integrators.symp4_integrate refpart zin zout n integrators.counter).s
        = refpart.s + (zout - zin) ∧
      (integrators.symp4_integrate refpart zin zout n integrators.counter).t
        = refpart.t + (zout - zin)) := by
  have hpos := integrators.one_add_alpha_pos
  have hne : 1 + alpha ≠ 0 := by
    rw [halpha]
    exact hpos.ne'
  have hn0 : (n : ℝ) ≠ 0 := by
    have : (0 : ℝ) < n := by exact_mod_cast (by omega : (0 : ℤ) < n)
    exact this.ne'
  have hcast : ((n.toNat : ℕ) : ℝ) = (n : ℝ) := by
    have : ((n.toNat : ℕ) : ℤ) = n := Int.toNat_of_nonneg (by omega)
    exact_mod_cast this
  have htot : (n.toNat : ℝ) * h = zout - zin := by
    rw [hcast, hh]
    field_simp
  have hsum1 : tau1 + tau3 + tau3 + tau1 = h := by
    rw [htau3, htau1, htau2]
    field_simp
    ring
  have hsum2 : tau2 + tau4 + tau2 = h := by
    rw [htau4, htau2]
    field_simp
    ring
  refine ⟨⟨?_, by ring⟩, ⟨?_, by ring⟩, ⟨?_, hsum1, hsum2⟩, htot, ?_, ?_, ?_⟩
  · subst hh
    exact integrators.fold_range_eq_fold_list
      [element.map1 ((zout - zin) / (n : ℝ) / 2), element.map2 ((zout - zin) / (n : ℝ)),
       element.map1 ((zout - zin) / (n : ℝ) / 2)] _ _
  · subst hh
    exact integrators.fold_range_eq_fold_list
      [element.map1 ((zout - zin) / (n : ℝ) / 2), element.map2 ((zout - zin) / (n : ℝ) / 2),
       element.map3 ((zout - zin) / (n : ℝ)), element.map2 ((zout - zin) / (n : ℝ) / 2),
       element.map1 ((zout - zin) / (n : ℝ) / 2)] _ _
  · subst htau4 htau3 htau1 htau2 halpha hh
    exact integrators.fold_range_eq_fold_list
      [element.map1 _, element.map2 _, element.map1 _, element.map2 _, element.map1 _,
       element.map2 _, element.map1 _] _ _
  · have key := integrators.fold_range_totals (h / 2 + h / 2) h 0
      (fun st => integrators.counter.map1 (h / 2)
        (integrators.counter.map2 h (integrators.counter.map1 (h / 2) st)))
      (fun st => by simp only [integrators.counter]; ring)
      (fun st => by simp only [integrators.counter])
      (fun st => by simp only [integrators.counter, add_zero]) n.toNat (refpart, zin)
    subst hh
    refine ⟨?_, ?_⟩
    · rw [← htot]
      have := key.1
      simp only [integrators.symp2_integrate, integrators.symp2_integrate_state]
      rw [this]
      ring
    · rw [← htot]
      have := key.2.1
      simp only [integrators.symp2_integrate, integrators.symp2_integrate_state]
      rw [this]
  · have key := integrators.fold_range_totals (h / 2 + h / 2) (h / 2 + h / 2) h
      (fun st => integrators.counter.map1 (h / 2) (integrators.counter.map2 (h / 2)
        (integrators.counter.map3 h (integrators.counter.map2 (h / 2)
          (integrators.counter.map1 (h / 2) st)))))
      (fun st => by simp only [integrators.counter]; ring)
      (fun st => by simp only [integrators.counter]; ring)
      (fun st => by simp only [integrators.counter]) n.toNat (refpart, zin)
    subst hh
    refine ⟨?_, ?_, ?_⟩
    · rw [← htot]
      have := key.1
      simp only [integrators.symp2_integrate_split3, integrators.symp2_integrate_split3_state]
      rw [this]
      ring
    · rw [← htot]
      have := key.2.1
      simp only [integrators.symp2_integrate_split3, integrators.symp2_integrate_split3_state]
      rw [this]
      ring
    · rw [← htot]
      have := key.2.2
      simp only [integrators.symp2_integrate_split3, integrators.symp2_integrate_split3_state]
      rw [this]
  · have key := integrators.fold_range_totals (tau1 + tau3 + tau3 + tau1) (tau2 + tau4 + tau2) 0
      (fun st => integrators.counter.map1 tau1 (integrators.counter.map2 tau2
        (integrators.counter.map1 tau3 (integrators.counter.map2 tau4
          (integrators.counter.map1 tau3 (integrators.counter.map2 tau2
            (integrators.counter.map1 tau1 st)))))))
      (fun st => by simp only [integrators.counter]; ring)
      (fun st => by simp only [integrators.counter]; ring)
      (fun st => by simp only [integrators.counter, add_zero]) n.toNat (refpart, zin)
    rw [hsum1, hsum2] at key
    subst htau4 htau3 htau1 htau2 halpha hh
    refine ⟨?_, ?_⟩
    · rw [← htot]
      have := key.1
      simp only [integrators.symp4_integrate, integrators.symp4_integrate_state]
      rw [this]
    · rw [← htot]
      have := key.2.1
      simp only [integrators.symp4_integrate, integrators.symp4_integrate_state]
      rw [this]

theorem integrators.substep_sums_witness :
    (1 : ℤ) ≤ 2 ∧
    (integrators.symp4_integrate (RefPart.ofPtMassCharge (-2) 1 0) 0 1 2
      integrators.counter).s = (RefPart.ofPtMassCharge (-2) 1 0).s + (1 - 0) ∧
    (integrators.symp4_integrate (RefPart.ofPtMassCharge (-2) 1 0) 0 1 2
      integrators.counter).t = (RefPart.ofPtMassCharge (-2) 1 0).t + (1 - 0) :=
  ⟨by decide,
   (integrators.substep_sums (RefPart.ofPtMassCharge (-2) 1 0) 0 1 2 (by decide)
     integrators.counter ((1 - 0) / ((2 : ℤ) : ℝ)) rfl
     (1 - (2 : ℝ) ^ ((1 : ℝ) / 3))
     ((1 - 0) / ((2 : ℤ) : ℝ) / (1 + (1 - (2 : ℝ) ^ ((1 : ℝ) / 3))) / 2)
     ((1 - 0) / ((2 : ℤ) : ℝ) / (1 + (1 - (2 : ℝ) ^ ((1 : ℝ) / 3))))
     ((1 - (2 : ℝ) ^ ((1 : ℝ) / 3))
       * ((1 - 0) / ((2 : ℤ) : ℝ) / (1 + (1 - (2 : ℝ) ^ ((1 : ℝ) / 3))) / 2))
     ((1 - (2 : ℝ) ^ ((1 : ℝ) / 3) - 1)
       * ((1 - 0) / ((2 : ℤ) : ℝ) / (1 + (1 - (2 : ℝ) ^ ((1 : ℝ) / 3)))))
     rfl rfl rfl rfl rfl).2.2.2.2.2.2⟩

/-- C22: with `alpha = 1 - 2^(1/3)`, `w1 = 1/(1 + alpha)` and `w0 = (alpha - 1)/(1 + alpha)`,
the step lengths of `symp4_integrate` are `tau1 = w1*h/2`, `tau2 = w1*h`,
`tau3 = (w1 + w0)*h/2`, `tau4 = w0*h`, and the coefficients satisfy `1 + alpha ≠ 0`,
`2*w1 + w0 = 1` and `2*w1^3 + w0^3 = 0`. -/
theorem integrators.symp4_coefficients (refpart : RefPart) (zin zout : ℝ) (n : ℤ)
    (element : integrators.T_Element) (h alpha w1 w0 : ℝ) (hh : h = (zout - zin) / (n : ℝ))
    (halpha : alpha = 1 - (2 : ℝ) ^ ((1 : ℝ) / 3)) (hw1 : w1 = 1 / (1 + alpha))
    (hw0 : w0 = (alpha - 1) / (1 + alpha)) :
    integrators.symp4_integrate_state refpart zin zout n element
      = (List.replicate n.toNat
          [element.map1 (w1 * h / 2), element.map2 (w1 * h), element.map1 ((w1 + w0) * h / 2),
           element.map2 (w0 * h), element.map1 ((w1 + w0) * h / 2), element.map2 (w1 * h),
           element.map1 (w1 * h / 2)]).flatten.foldl (fun st f => f st) (refpart, zin) ∧
    1 + alpha ≠ 0 ∧ 2 * w1 + w0 = 1 ∧ 2 * w1 ^ 3 + w0 ^ 3 = 0 := by
  have hpos := integrators.one_add_alpha_pos
  have hcube := integrators.cbrt_two_cube
  have hne : 1 + alpha ≠ 0 := by
    rw [halpha]
    exact hpos.ne'
  have e1 : h / (1 + alpha) / 2 = w1 * h / 2 := by
    rw [hw1]
    ring
  have e2 : h / (1 + alpha) = w1 * h := by
    rw [hw1]
    ring
  have e3 : alpha * (h / (1 + alpha) / 2) = (w1 + w0) * h / 2 := by
    rw [hw1, hw0]
    ring
  have e4 : (alpha - 1) * (h / (1 + alpha)) = w0 * h := by
    rw [hw0]
    ring
  refine ⟨?_, hne, ?_, ?_⟩
  · rw [← e1, ← e2, ← e3, ← e4]
    subst halpha hh
    exact integrators.fold_range_eq_fold_list
      [element.map1 _, element.map2 _, element.map1 _, element.map2 _, element.map1 _,
       element.map2 _, element.map1 _] _ _
  · rw [hw1, hw0]
    field_simp
    ring
  · rw [hw1, hw0]
    field_simp
    rw [halpha]
    generalize (2 : ℝ) ^ ((1 : ℝ) / 3) = c at hcube
    linear_combination -hcube

theorem integrators.symp4_coefficients_witness :
    1 + (1 - (2 : ℝ) ^ ((1 : ℝ) / 3)) ≠ 0 ∧
    2 * (1 / (1 + (1 - (2 : ℝ) ^ ((1 : ℝ) / 3)))) ^ 3
      + ((1 - (2 : ℝ) ^ ((1 : ℝ) / 3) - 1) / (1 + (1 - (2 : ℝ) ^ ((1 : ℝ) / 3)))) ^ 3 = 0 :=
  have h := integrators.symp4_coefficients (RefPart.ofPtMassCharge (-2) 1 0) 0 1 2
    integrators.probe ((1 - 0) / ((2 : ℤ) : ℝ)) (1 - (2 : ℝ) ^ ((1 : ℝ) / 3))
    (1 / (1 + (1 - (2 : ℝ) ^ ((1 : ℝ) / 3))))
    ((1 - (2 : ℝ) ^ ((1 : ℝ) / 3) - 1) / (1 + (1 - (2 : ℝ) ^ ((1 : ℝ) / 3))))
    rfl rfl rfl rfl
  ⟨h.2.1, h.2.2.2⟩

/-- C27: for any element whose `map1` is additive in its step length, one `symp4_integrate`
step of size `h` acts on the `(reference particle, zeval)` state exactly as three
consecutive `symp2_integrate` steps of sizes `w1*h`, `w0*h`, `w1*h`, each started at the
state the previous one ended in, with `w1 = 1/(2 - 2^(1/3))` and
`w0 = -2^(1/3)/(2 - 2^(1/3))`. -/
theorem integrators.symp4_triple_jump (element : integrators.T_Element)
    (hadd : ∀ (a b : ℝ) (st : RefPart × ℝ),
      element.map1 b (element.map1 a st) = element.map1 (a + b) st)
    (refpart : RefPart) (zin h w1 w0 : ℝ)
    (hw1 : w1 = 1 / (2 - (2 : ℝ) ^ ((1 : ℝ) / 3)))
    (hw0 : w0 = -(2 : ℝ) ^ ((1 : ℝ) / 3) / (2 - (2 : ℝ) ^ ((1 : ℝ) / 3))) :
    integrators.symp4_integrate_state refpart zin (zin + h) 1 element
      = integrators.symp2_integrate_state
          (integrators.symp2_integrate_state
            (integrators.symp2_integrate_state refpart zin (zin + w1 * h) 1 element).1
            (integrators.symp2_integrate_state refpart zin (zin + w1 * h) 1 element).2
            ((integrators.symp2_integrate_state refpart zin (zin + w1 * h) 1 element).2
              + w0 * h) 1 element).1
          (integrators.symp2_integrate_state
            (integrators.symp2_integrate_state refpart zin (zin + w1 * h) 1 element).1
            (integrators.symp2_integrate_state refpart zin (zin + w1 * h) 1 element).2
            ((integrators.symp2_integrate_state refpart zin (zin + w1 * h) 1 element).2
              + w0 * h) 1 element).2
          ((integrators.symp2_integrate_state
            (integrators.symp2_integrate_state refpart zin (zin + w1 * h) 1 element).1
            (integrators.symp2_integrate_state refpart zin (zin + w1 * h) 1 element).2
            ((integrators.symp2_integrate_state refpart zin (zin + w1 * h) 1 element).2
              + w0 * h) 1 element).2 + w1 * h) 1 element := by
  have hr : List.range 1 = [0] := rfl
  have hstep2 : ∀ (r : RefPart) (z σ : ℝ),
      integrators.symp2_integrate_state r z (z + σ) 1 element
        = element.map1 (σ / 2) (element.map2 σ (element.map1 (σ / 2) (r, z))) := by
    intro r z σ
    simp only [integrators.symp2_integrate_state, Int.toNat_one, hr,
      List.foldl_cons, List.foldl_nil, Int.cast_one, div_one, add_sub_cancel_left]
  have hpair : ∀ st : RefPart × ℝ, (st.1, st.2) = st := fun st => rfl
  simp only [hstep2, hpair, hadd]
  simp only [integrators.symp4_integrate_state, Int.toNat_one, hr,
    List.foldl_cons, List.foldl_nil, Int.cast_one, div_one, add_sub_cancel_left]
  have hne : (2 : ℝ) - (2 : ℝ) ^ ((1 : ℝ) / 3) ≠ 0 := by
    have := integrators.one_add_alpha_pos
    intro h0
    linarith
  have e0 : 1 + (1 - (2 : ℝ) ^ ((1 : ℝ) / 3)) = 2 - (2 : ℝ) ^ ((1 : ℝ) / 3) := by ring
  have e1 : h / (1 + (1 - (2 : ℝ) ^ ((1 : ℝ) / 3))) / 2 = w1 * h / 2 := by
    rw [hw1, e0]
    ring
  have e2 : h / (1 + (1 - (2 : ℝ) ^ ((1 : ℝ) / 3))) = w1 * h := by
    rw [hw1, e0]
    ring
  have e3 : (1 - (2 : ℝ) ^ ((1 : ℝ) / 3)) * (w1 * h / 2) = w1 * h / 2 + w0 * h / 2 := by
    rw [hw1, hw0]
    field_simp
    ring
  have e4 : (1 - (2 : ℝ) ^ ((1 : ℝ) / 3) - 1) * (w1 * h) = w0 * h := by
    rw [hw1, hw0]
    field_simp
  rw [e1, e2, e4, e3, add_comm (w0 * h / 2) (w1 * h / 2)]

theorem integrators.symp4_triple_jump_witness :
    integrators.symp4_integrate_state (RefPart.ofPtMassCharge (-2) 1 0) 0 (0 + 1) 1
        integrators.probe
      = integrators.symp2_integrate_state
          (integrators.symp2_integrate_state
            (integrators.symp2_integrate_state (RefPart.ofPtMassCharge (-2) 1 0) 0
              (0 + 1 / (2 - (2 : ℝ) ^ ((1 : ℝ) / 3)) * 1) 1 integrators.probe).1
            (integrators.symp2_integrate_state (RefPart.ofPtMassCharge (-2) 1 0) 0
              (0 + 1 / (2 - (2 : ℝ) ^ ((1 : ℝ) / 3)) * 1) 1 integrators.probe).2
            ((integrators.symp2_integrate_state (RefPart.ofPtMassCharge (-2) 1 0) 0
              (0 + 1 / (2 - (2 : ℝ) ^ ((1 : ℝ) / 3)) * 1) 1 integrators.probe).2
              + -(2 : ℝ) ^ ((1 : ℝ) / 3) / (2 - (2 : ℝ) ^ ((1 : ℝ) / 3)) * 1) 1
            integrators.probe).1
          (integrators.symp2_integrate_state
            (integrators.symp2_integrate_state (RefPart.ofPtMassCharge (-2) 1 0) 0
              (0 + 1 / (2 - (2 : ℝ) ^ ((1 : ℝ) / 3)) * 1) 1 integrators.probe).1
            (integrators.symp2_integrate_state (RefPart.ofPtMassCharge (-2) 1 0) 0
              (0 + 1 / (2 - (2 : ℝ) ^ ((1 : ℝ) / 3)) * 1) 1 integrators.probe).2
            ((integrators.symp2_integrate_state (RefPart.ofPtMassCharge (-2) 1 0) 0
              (0 + 1 / (2 - (2 : ℝ) ^ ((1 : ℝ) / 3)) * 1) 1 integrators.probe).2
              + -(2 : ℝ) ^ ((1 : ℝ) / 3) / (2 - (2 : ℝ) ^ ((1 : ℝ) / 3)) * 1) 1
            integrators.probe).2
          ((integrators.symp2_integrate_state
            (integrators.symp2_integrate_state (RefPart.ofPtMassCharge (-2) 1 0) 0
              (0 + 1 / (2 - (2 : ℝ) ^ ((1 : ℝ) / 3)) * 1) 1 integrators.probe).1
            (integrators.symp2_integrate_state (RefPart.ofPtMassCharge (-2) 1 0) 0
              (0 + 1 / (2 - (2 : ℝ) ^ ((1 : ℝ) / 3)) * 1) 1 integrators.probe).2
            ((integrators.symp2_integrate_state (RefPart.ofPtMassCharge (-2) 1 0) 0
              (0 + 1 / (2 - (2 : ℝ) ^ ((1 : ℝ) / 3)) * 1) 1 integrators.probe).2
              + -(2 : ℝ) ^ ((1 : ℝ) / 3) / (2 - (2 : ℝ) ^ ((1 : ℝ) / 3)) * 1) 1
            integrators.probe).2 + 1 / (2 - (2 : ℝ) ^ ((1 : ℝ) / 3)) * 1) 1
          integrators.probe :=
  integrators.symp4_triple_jump integrators.probe
    (fun a b st => by
      simp only [integrators.probe, Prod.mk.injEq]
      constructor
      · congr 1
        ring
      · ring)
    (RefPart.ofPtMassCharge (-2) 1 0) 0 1 _ _ rfl rfl

/-! ## Distribution samplers -/

/-- C23: one call of `Kurth4D` consumes exactly 7 uniform draws and one call of `Triangle`
exactly 8, whatever the drawn values, `distribution::None` consumes none, and the six
outputs are a function of those draws and the configured moments only: two engines that
agree on the next 7 (resp. 8) draws give the same sample, whatever the coordinates passed
in. -/
theorem distribution.draw_count (dk : distribution.Kurth4D) (dt : distribution.Triangle)
    (dn : distribution.None) (p p' : Particle) (e e' : RandomEngine)
    (hK : ∀ i, i < 7 → e.stream (e.pos + i) = e'.stream (e'.pos + i))
    (hT : ∀ i, i < 8 → e.stream (e.pos + i) = e'.stream (e'.pos + i)) :
    (dk.op p e).2 = { e with pos := e.pos + 7 } ∧
    (dt.op p e).2 = { e with pos := e.pos + 8 } ∧
    (dn.op p e).2 = e ∧
    (dk.op p e).1 = (dk.op p' e').1 ∧
    (dt.op p e).1 = (dt.op p' e').1 := by
  have k0 := hK 0 (by norm_num)
  have k1 := hK 1 (by norm_num)
  have k2 := hK 2 (by norm_num)
  have k3 := hK 3 (by norm_num)
  have k4 := hK 4 (by norm_num)
  have k5 := hK 5 (by norm_num)
  have k6 := hK 6 (by norm_num)
  have t7 := hT 7 (by norm_num)
  simp only [add_zero] at k0
  refine ⟨?_, ?_, rfl, ?_, ?_⟩
  · simp only [distribution.Kurth4D.op, Random, add_assoc, Nat.reduceAdd]
  · simp only [distribution.Triangle.op, Random, add_assoc, Nat.reduceAdd]
  · simp only [distribution.Kurth4D.op, Random, add_assoc, Nat.reduceAdd, k0, k1, k2, k3, k4,
      k5, k6]
  · simp only [distribution.Triangle.op, Random, add_assoc, Nat.reduceAdd, k0, k1, k2, k3, k4,
      k5, k6, t7]

theorem distribution.draw_count_witness :
    ((distribution.Kurth4D.new 1 1 1 1 1 1 0 0 0).op
        { x := 0, y := 0, t := 0, px := 0, py := 0, pt := 0 } (RandomEngine.const (1 / 2))).2.pos
      = 7 ∧
    ((distribution.Triangle.new 1 1 1 1 1 1 0 0 0).op
        { x := 0, y := 0, t := 0, px := 0, py := 0, pt := 0 } (RandomEngine.const (1 / 2))).2.pos
      = 8 :=
  have h := distribution.draw_count (distribution.Kurth4D.new 1 1 1 1 1 1 0 0 0)
    (distribution.Triangle.new 1 1 1 1 1 1 0 0 0) ⟨⟩
    { x := 0, y := 0, t := 0, px := 0, py := 0, pt := 0 }
    { x := 0, y := 0, t := 0, px := 0, py := 0, pt := 0 }
    (RandomEngine.const (1 / 2)) (RandomEngine.const (1 / 2)) (fun _ _ => rfl) (fun _ _ => rfl)
  ⟨by rw [h.1]; rfl, by rw [h.2.1]; rfl⟩

/-- C26: the `distribution::None` sampler is the identity: for every input
`(x, y, t, px, py, pt)` and every engine state all six coordinates are unchanged after the
call (and so is the engine). -/
theorem distribution.None.op_id (d : distribution.None) (p : Particle) (e : RandomEngine) :
    (d.op p e).1 = p ∧
    (d.op p e).1.x = p.x ∧ (d.op p e).1.y = p.y ∧ (d.op p e).1.t = p.t ∧
    (d.op p e).1.px = p.px ∧ (d.op p e).1.py = p.py ∧ (d.op p e).1.pt = p.pt ∧
    (d.op p e).2 = e :=
  ⟨rfl, rfl, rfl, rfl, rfl, rfl, rfl, rfl⟩

/-- The last step of `Kurth4D`: the sample for given moments is the correlation transform of
the sample for unit sizes and zero correlations, drawn from the same engine. -/
theorem distribution.Kurth4D.op_eq_transform_kurth (d : distribution.Kurth4D) (p : Particle)
    (e : RandomEngine) :
    (d.op p e).1 =
      { x := d.m_sigmaX * ((distribution.Kurth4D.new 1 1 1 1 1 1 0 0 0).op p e).1.x
          / Real.sqrt (1 - d.m_muxpx ^ 2),
        px := d.m_sigmaPx * (-d.m_muxpx * ((distribution.Kurth4D.new 1 1 1 1 1 1 0 0 0).op p e).1.x
            / Real.sqrt (1 - d.m_muxpx ^ 2)
          + ((distribution.Kurth4D.new 1 1 1 1 1 1 0 0 0).op p e).1.px),
        y := d.m_sigmaY * ((distribution.Kurth4D.new 1 1 1 1 1 1 0 0 0).op p e).1.y
          / Real.sqrt (1 - d.m_muypy ^ 2),
        py := d.m_sigmaPy * (-d.m_muypy * ((distribution.Kurth4D.new 1 1 1 1 1 1 0 0 0).op p e).1.y
            / Real.sqrt (1 - d.m_muypy ^ 2)
          + ((distribution.Kurth4D.new 1 1 1 1 1 1 0 0 0).op p e).1.py),
        t := d.m_sigmaT * ((distribution.Kurth4D.new 1 1 1 1 1 1 0 0 0).op p e).1.t
          / Real.sqrt (1 - d.m_mutpt ^ 2),
        pt := d.m_sigmaPt * (-d.m_mutpt * ((distribution.Kurth4D.new 1 1 1 1 1 1 0 0 0).op p e).1.t
            / Real.sqrt (1 - d.m_mutpt ^ 2)
          + ((distribution.Kurth4D.new 1 1 1 1 1 1 0 0 0).op p e).1.pt) } := by
  simp only [distribution.Kurth4D.op, distribution.Kurth4D.new, mul_zero, sub_zero,
    Real.sqrt_one, div_one, one_mul, neg_zero, zero_mul, zero_add, pow_two]

/-- The last step of `Triangle`, in the same form. -/
theorem distribution.Triangle.op_eq_transform_triangle (d : distribution.Triangle) (p : Particle)
    (e : RandomEngine) :
    (d.op p e).1 =
      { x := d.m_sigmaX * ((distribution.Triangle.new 1 1 1 1 1 1 0 0 0).op p e).1.x
          / Real.sqrt (1 - d.m_muxpx ^ 2),
        px := d.m_sigmaPx * (-d.m_muxpx * ((distribution.Triangle.new 1 1 1 1 1 1 0 0 0).op p e).1.x
            / Real.sqrt (1 - d.m_muxpx ^ 2)
          + ((distribution.Triangle.new 1 1 1 1 1 1 0 0 0).op p e).1.px),
        y := d.m_sigmaY * ((distribution.Triangle.new 1 1 1 1 1 1 0 0 0).op p e).1.y
          / Real.sqrt (1 - d.m_muypy ^ 2),
        py := d.m_sigmaPy * (-d.m_muypy * ((distribution.Triangle.new 1 1 1 1 1 1 0 0 0).op p e).1.y
            / Real.sqrt (1 - d.m_muypy ^ 2)
          + ((distribution.Triangle.new 1 1 1 1 1 1 0 0 0).op p e).1.py),
        t := d.m_sigmaT * ((distribution.Triangle.new 1 1 1 1 1 1 0 0 0).op p e).1.t
          / Real.sqrt (1 - d.m_mutpt ^ 2),
        pt := d.m_sigmaPt * (-d.m_mutpt * ((distribution.Triangle.new 1 1 1 1 1 1 0 0 0).op p e).1.t
            / Real.sqrt (1 - d.m_mutpt ^ 2)
          + ((distribution.Triangle.new 1 1 1 1 1 1 0 0 0).op p e).1.pt) } := by
  simp only [distribution.Triangle.op, distribution.Triangle.new, mul_zero, sub_zero,
    Real.sqrt_one, div_one, one_mul, neg_zero, zero_mul, zero_add, pow_two]

/-- The correlation matrix sends `(q, p)` to `(sigq*q/root, sigp*(-mu*q/root + p))`. -/
theorem distribution.correlation_matrix_mulVec (sigq sigp mu q pp : ℝ) :
    (distribution.correlation_matrix sigq sigp mu).mulVec ![q, pp]
      = ![sigq * q / Real.sqrt (1 - mu ^ 2), sigp * (-mu * q / Real.sqrt (1 - mu ^ 2) + pp)] := by
  funext i
  fin_cases i
  · simp [distribution.correlation_matrix, Matrix.mulVec, Matrix.dotProduct, Fin.sum_univ_two]
    ring
  · simp [distribution.correlation_matrix, Matrix.mulVec, Matrix.dotProduct, Fin.sum_univ_two]
    ring

/-- The covariance produced by the correlation matrix from the unit covariance. -/
theorem distribution.correlation_matrix_covariance (sigq sigp mu : ℝ) (hmu : |mu| < 1) :
    distribution.correlation_matrix sigq sigp mu
        * (distribution.correlation_matrix sigq sigp mu).transpose
      = (1 / (1 - mu ^ 2)) • Matrix.of ![![sigq ^ 2, -mu * sigq * sigp],
                                          ![-mu * sigq * sigp, sigp ^ 2]] := by
  have hlt : mu ^ 2 < 1 := by
    have := abs_lt.mp hmu
    nlinarith
  have hpos : 0 < 1 - mu ^ 2 := by linarith
  have hroot : Real.sqrt (1 - mu ^ 2) ≠ 0 := (Real.sqrt_pos.mpr hpos).ne'
  have hsq : Real.sqrt (1 - mu ^ 2) ^ 2 = 1 - mu ^ 2 := Real.sq_sqrt hpos.le
  have hne : 1 - mu ^ 2 ≠ 0 := hpos.ne'
  have h00 : distribution.correlation_matrix sigq sigp mu 0 0
      = sigq / Real.sqrt (1 - mu ^ 2) := rfl
  have h01 : distribution.correlation_matrix sigq sigp mu 0 1 = 0 := rfl
  have h10 : distribution.correlation_matrix sigq sigp mu 1 0
      = sigp * (-mu / Real.sqrt (1 - mu ^ 2)) := rfl
  have h11 : distribution.correlation_matrix sigq sigp mu 1 1 = sigp := rfl
  have r00 : (Matrix.of ![![sigq ^ 2, -mu * sigq * sigp],
      ![-mu * sigq * sigp, sigp ^ 2]] : Matrix (Fin 2) (Fin 2) ℝ) 0 0 = sigq ^ 2 := rfl
  have r01 : (Matrix.of ![![sigq ^ 2, -mu * sigq * sigp],
      ![-mu * sigq * sigp, sigp ^ 2]] : Matrix (Fin 2) (Fin 2) ℝ) 0 1
      = -mu * sigq * sigp := rfl
  have r10 : (Matrix.of ![![sigq ^ 2, -mu * sigq * sigp],
      ![-mu * sigq * sigp, sigp ^ 2]] : Matrix (Fin 2) (Fin 2) ℝ) 1 0
      = -mu * sigq * sigp := rfl
  have r11 : (Matrix.of ![![sigq ^ 2, -mu * sigq * sigp],
      ![-mu * sigq * sigp, sigp ^ 2]] : Matrix (Fin 2) (Fin 2) ℝ) 1 1 = sigp ^ 2 := rfl
  generalize Real.sqrt (1 - mu ^ 2) = r at hroot hsq h00 h10
  ext i j
  fin_cases i <;> fin_cases j
  · simp only [Fin.zero_eta, Matrix.mul_apply, Fin.sum_univ_two, Matrix.transpose_apply,
      Matrix.smul_apply, smul_eq_mul, h00, h01, r00]
    rw [← hsq]
    field_simp
    ring
  · simp only [Fin.zero_eta, Fin.mk_one, Matrix.mul_apply, Fin.sum_univ_two,
      Matrix.transpose_apply, Matrix.smul_apply, smul_eq_mul, h00, h01, h10, h11, r01]
    rw [← hsq]
    field_simp
    ring
  · simp only [Fin.zero_eta, Fin.mk_one, Matrix.mul_apply, Fin.sum_univ_two,
      Matrix.transpose_apply, Matrix.smul_apply, smul_eq_mul, h00, h01, h10, h11, r10]
    rw [← hsq]
    field_simp
    ring
  · simp only [Fin.mk_one, Matrix.mul_apply, Fin.sum_univ_two, Matrix.transpose_apply,
      Matrix.smul_apply, smul_eq_mul, h10, h11, r11]
    have hmu2 : mu ^ 2 = 1 - r ^ 2 := by linarith
    rw [← hsq]
    field_simp
    linear_combination (sigp ^ 2 * r ^ 2) * hmu2

/-- C24: for `|mu| < 1` the final step of `Kurth4D` and of `Triangle` maps each
unit-normalised pair `(q, p)` among `(x, px)`, `(y, py)`, `(t, pt)` to
`q' = sigma_q*q/sqrt(1 - mu^2)`, `p' = sigma_p*(-mu*q/sqrt(1 - mu^2) + p)`; the matrix `M` of
this linear map satisfies `M*M^T = (1/(1 - mu^2)) * [[sigma_q^2, -mu*sigma_q*sigma_p],
[-mu*sigma_q*sigma_p, sigma_p^2]]`, which for `mu = 0` is the diagonal matrix of
`sigma_q^2`, `sigma_p^2`. -/
theorem distribution.correlation_transform (dk : distribution.Kurth4D)
    (dt : distribution.Triangle) (p : Particle) (e : RandomEngine) (sigq sigp mu : ℝ)
    (hmu : |mu| < 1) :
    (((dk.op p e).1.x = dk.m_sigmaX * ((distribution.Kurth4D.new 1 1 1 1 1 1 0 0 0).op p e).1.x
          / Real.sqrt (1 - dk.m_muxpx ^ 2) ∧
      (dk.op p e).1.px = dk.m_sigmaPx * (-dk.m_muxpx
          * ((distribution.Kurth4D.new 1 1 1 1 1 1 0 0 0).op p e).1.x
            / Real.sqrt (1 - dk.m_muxpx ^ 2)
          + ((distribution.Kurth4D.new 1 1 1 1 1 1 0 0 0).op p e).1.px)) ∧
     ((dk.op p e).1.y = dk.m_sigmaY * ((distribution.Kurth4D.new 1 1 1 1 1 1 0 0 0).op p e).1.y
          / Real.sqrt (1 - dk.m_muypy ^ 2) ∧
      (dk.op p e).1.py = dk.m_sigmaPy * (-dk.m_muypy
          * ((distribution.Kurth4D.new 1 1 1 1 1 1 0 0 0).op p e).1.y
            / Real.sqrt (1 - dk.m_muypy ^ 2)
          + ((distribution.Kurth4D.new 1 1 1 1 1 1 0 0 0).op p e).1.py)) ∧
     ((dk.op p e).1.t = dk.m_sigmaT * ((distribution.Kurth4D.new 1 1 1 1 1 1 0 0 0).op p e).1.t
          / Real.sqrt (1 - dk.m_mutpt ^ 2) ∧
      (dk.op p e).1.pt = dk.m_sigmaPt * (-dk.m_mutpt
          * ((distribution.Kurth4D.new 1 1 1 1 1 1 0 0 0).op p e).1.t
            / Real.sqrt (1 - dk.m_mutpt ^ 2)
          + ((distribution.Kurth4D.new 1 1 1 1 1 1 0 0 0).op p e).1.pt))) ∧
    (((dt.op p e).1.x = dt.m_sigmaX * ((distribution.Triangle.new 1 1 1 1 1 1 0 0 0).op p e).1.x
          / Real.sqrt (1 - dt.m_muxpx ^ 2) ∧
      (dt.op p e).1.px = dt.m_sigmaPx * (-dt.m_muxpx
          * ((distribution.Triangle.new 1 1 1 1 1 1 0 0 0).op p e).1.x
            / Real.sqrt (1 - dt.m_muxpx ^ 2)
          + ((distribution.Triangle.new 1 1 1 1 1 1 0 0 0).op p e).1.px)) ∧
     ((dt.op p e).1.y = dt.m_sigmaY * ((distribution.Triangle.new 1 1 1 1 1 1 0 0 0).op p e).1.y
          / Real.sqrt (1 - dt.m_muypy ^ 2) ∧
      (dt.op p e).1.py = dt.m_sigmaPy * (-dt.m_muypy
          * ((distribution.Triangle.new 1 1 1 1 1 1 0 0 0).op p e).1.y
            / Real.sqrt (1 - dt.m_muypy ^ 2)
          + ((distribution.Triangle.new 1 1 1 1 1 1 0 0 0).op p e).1.py)) ∧
     ((dt.op p e).1.t = dt.m_sigmaT * ((distribution.Triangle.new 1 1 1 1 1 1 0 0 0).op p e).1.t
          / Real.sqrt (1 - dt.m_mutpt ^ 2) ∧
      (dt.op p e).1.pt = dt.m_sigmaPt * (-dt.m_mutpt
          * ((distribution.Triangle.new 1 1 1 1 1 1 0 0 0).op p e).1.t
            / Real.sqrt (1 - dt.m_mutpt ^ 2)
          + ((distribution.Triangle.new 1 1 1 1 1 1 0 0 0).op p e).1.pt))) ∧
    (∀ q pp : ℝ, (distribution.correlation_matrix sigq sigp mu).mulVec ![q, pp]
      = ![sigq * q / Real.sqrt (1 - mu ^ 2),
          sigp * (-mu * q / Real.sqrt (1 - mu ^ 2) + pp)]) ∧
    distribution.correlation_matrix sigq sigp mu
        * (distribution.correlation_matrix sigq sigp mu).transpose
      = (1 / (1 - mu ^ 2)) • Matrix.of ![![sigq ^ 2, -mu * sigq * sigp],
                                          ![-mu * sigq * sigp, sigp ^ 2]] ∧
    distribution.correlation_matrix sigq sigp 0
        * (distribution.correlation_matrix sigq sigp 0).transpose
      = Matrix.of ![![sigq ^ 2, 0], ![0, sigp ^ 2]] := by
  have hk := distribution.Kurth4D.op_eq_transform_kurth dk p e
  have ht := distribution.Triangle.op_eq_transform_triangle dt p e
  refine ⟨?_, ?_, fun q pp => distribution.correlation_matrix_mulVec sigq sigp mu q pp,
    distribution.correlation_matrix_covariance sigq sigp mu hmu, ?_⟩
  · rw [hk]
    exact ⟨⟨rfl, rfl⟩, ⟨rfl, rfl⟩, ⟨rfl, rfl⟩⟩
  · rw [ht]
    exact ⟨⟨rfl, rfl⟩, ⟨rfl, rfl⟩, ⟨rfl, rfl⟩⟩
  · rw [distribution.correlation_matrix_covariance sigq sigp 0 (by norm_num)]
    ext i j
    fin_cases i <;> fin_cases j <;> simp

theorem distribution.correlation_transform_witness :
    |(0 : ℝ)| < 1 ∧
    distribution.correlation_matrix 2 (1 / 2) 0
        * (distribution.correlation_matrix 2 (1 / 2) 0).transpose
      = (1 / (1 - (0 : ℝ) ^ 2)) • Matrix.of ![![(2 : ℝ) ^ 2, -0 * 2 * (1 / 2)],
                                               ![-0 * 2 * (1 / 2), (1 / 2 : ℝ) ^ 2]] :=
  ⟨by norm_num,
   (distribution.correlation_transform (distribution.Kurth4D.new 2 2 2 (1 / 2) (1 / 2) (1 / 2) 0 0 0)
     (distribution.Triangle.new 2 2 2 (1 / 2) (1 / 2) (1 / 2) 0 0 0)
     { x := 0, y := 0, t := 0, px := 0, py := 0, pt := 0 } (RandomEngine.const (1 / 2))
     2 (1 / 2) 0 (by norm_num)).2.2.2.1⟩

theorem distribution.integral_sqrt_unit : ∫ u in (0 : ℝ)..1, Real.sqrt u = 2 / 3 := by
  have h : ∀ u : ℝ, Real.sqrt u = u ^ ((1 : ℝ) / 2) := fun u => Real.sqrt_eq_rpow u ▸ rfl
  simp only [h]
  rw [integral_rpow (Or.inl (by norm_num))]
  norm_num

theorem distribution.intervalIntegrable_sqrt :
    IntervalIntegrable Real.sqrt MeasureTheory.volume 0 1 :=
  Real.continuous_sqrt.intervalIntegrable 0 1

theorem distribution.integral_t_unit :
    ∫ u in (0 : ℝ)..1, Real.sqrt 2 * (2 - 3 * Real.sqrt u) = 0 := by
  rw [intervalIntegral.integral_const_mul,
    intervalIntegral.integral_sub (by simp) (distribution.intervalIntegrable_sqrt.const_mul 3),
    intervalIntegral.integral_const_mul, distribution.integral_sqrt_unit]
  simp
  norm_num

theorem distribution.integral_t_sq_unit :
    ∫ u in (0 : ℝ)..1, (Real.sqrt 2 * (2 - 3 * Real.sqrt u)) ^ 2 = 1 := by
  have hcongr : ∀ u ∈ Set.uIcc (0 : ℝ) 1,
      (Real.sqrt 2 * (2 - 3 * Real.sqrt u)) ^ 2 = 8 - 24 * Real.sqrt u + 18 * u := by
    intro u hu
    rw [Set.uIcc_of_le (by norm_num)] at hu
    have h2 : Real.sqrt 2 ^ 2 = 2 := Real.sq_sqrt (by norm_num)
    have hu2 : Real.sqrt u ^ 2 = u := Real.sq_sqrt hu.1
    linear_combination (2 - 3 * Real.sqrt u) ^ 2 * h2 + 18 * hu2
  rw [intervalIntegral.integral_congr hcongr]
  have i1 : IntervalIntegrable (fun _ : ℝ => (8 : ℝ)) MeasureTheory.volume 0 1 := by simp
  have i2 : IntervalIntegrable (fun u : ℝ => 24 * Real.sqrt u) MeasureTheory.volume 0 1 :=
    distribution.intervalIntegrable_sqrt.const_mul 24
  have i3 : IntervalIntegrable (fun u : ℝ => 18 * u) MeasureTheory.volume 0 1 :=
    (continuous_const.mul continuous_id).intervalIntegrable 0 1
  rw [intervalIntegral.integral_add (i1.sub i2) i3, intervalIntegral.integral_sub i1 i2, intervalIntegral.integral_const_mul, intervalIntegral.integral_const_mul,
    distribution.integral_sqrt_unit, integral_id]
  simp
  norm_num

/-- The `t` output of `Triangle` with `sigt = 1` and `mutpt = 0` is the transform
`sqrt(2)*(2 - 3*sqrt(u))` of the first draw `u`. -/
theorem distribution.Triangle.op_t_of_first_draw (sigx sigy sigpx sigpy sigpt muxpx muypy u : ℝ)
    (p : Particle) (e : RandomEngine) :
    ((distribution.Triangle.new sigx sigy 1 sigpx sigpy sigpt muxpx muypy 0).op p
        (RandomEngine.cons u e)).1.t = Real.sqrt 2 * (2 - 3 * Real.sqrt u) := by
  simp only [distribution.Triangle.op, distribution.Triangle.new, Random, RandomEngine.cons,
    if_true, mul_zero, sub_zero, Real.sqrt_one, div_one, one_mul]

/-- C25: the longitudinal transform `t(u) = sqrt(2)*(2 - 3*sqrt(u))` of `Triangle`, read off
the sampler with `sigt = 1`, `mutpt = 0` as a function of its first draw `u`, has integral 0
and square integral 1 over `[0, 1]`, and for every `u` in `[0, 1)` it lies in
`(-sqrt(2), 2*sqrt(2)]`. -/
theorem distribution.Triangle.op_t_moments (sigx sigy sigpx sigpy sigpt muxpx muypy : ℝ)
    (p : Particle) (e : RandomEngine) :
    (∀ u : ℝ, ((distribution.Triangle.new sigx sigy 1 sigpx sigpy sigpt muxpx muypy 0).op p
        (RandomEngine.cons u e)).1.t = Real.sqrt 2 * (2 - 3 * Real.sqrt u)) ∧
    (∫ u in (0 : ℝ)..1,
      ((distribution.Triangle.new sigx sigy 1 sigpx sigpy sigpt muxpx muypy 0).op p
        (RandomEngine.cons u e)).1.t) = 0 ∧
    (∫ u in (0 : ℝ)..1,
      (((distribution.Triangle.new sigx sigy 1 sigpx sigpy sigpt muxpx muypy 0).op p
        (RandomEngine.cons u e)).1.t) ^ 2) = 1 ∧
    (∀ u : ℝ, 0 ≤ u → u < 1 →
      -Real.sqrt 2 < ((distribution.Triangle.new sigx sigy 1 sigpx sigpy sigpt muxpx muypy 0).op
          p (RandomEngine.cons u e)).1.t ∧
      ((distribution.Triangle.new sigx sigy 1 sigpx sigpy sigpt muxpx muypy 0).op p
          (RandomEngine.cons u e)).1.t ≤ 2 * Real.sqrt 2) := by
  have ht := fun u => distribution.Triangle.op_t_of_first_draw sigx sigy sigpx sigpy sigpt
    muxpx muypy u p e
  refine ⟨ht, ?_, ?_, ?_⟩
  · simp only [ht]
    exact distribution.integral_t_unit
  · simp only [ht]
    exact distribution.integral_t_sq_unit
  · intro u hu0 hu1
    rw [ht]
    have h2 : 0 < Real.sqrt 2 := Real.sqrt_pos.mpr (by norm_num)
    have hs0 : 0 ≤ Real.sqrt u := Real.sqrt_nonneg u
    have hs1 : Real.sqrt u < 1 := by
      have := Real.sqrt_lt_sqrt hu0 hu1
      rwa [Real.sqrt_one] at this
    constructor
    · nlinarith
    · nlinarith

/-- C28: with `sigx = sigy = sigpx = sigpy = 1/2` and zero transverse correlations, for
every first draw `v` in `(0, 1)` and third draw `u` in `[0, 1)` the `Kurth4D` sample
satisfies `x^2 + y^2 = v < 1`, `x*py - y*px = Lz` with the sampled `Lz = sqrt(v)*(2*u - 1)`,
and `1 - (x^2 + y^2) - (px^2 + py^2) + (x*py - y*px)^2 ≥ 0`. -/
theorem distribution.Kurth4D.op_support (sigt sigpt mutpt : ℝ) (p : Particle)
    (e : RandomEngine) (v u : ℝ) (hv : v = e.stream e.pos) (hu : u = e.stream (e.pos + 2))
    (hv0 : 0 < v) (hv1 : v < 1) (hu0 : 0 ≤ u) (hu1 : u < 1) :
    ((distribution.Kurth4D.new (1 / 2) (1 / 2) sigt (1 / 2) (1 / 2) sigpt 0 0 mutpt).op p e).1.x ^ 2
      + ((distribution.Kurth4D.new (1 / 2) (1 / 2) sigt (1 / 2) (1 / 2) sigpt 0 0 mutpt).op
          p e).1.y ^ 2 = v ∧
    v < 1 ∧
    ((distribution.Kurth4D.new (1 / 2) (1 / 2) sigt (1 / 2) (1 / 2) sigpt 0 0 mutpt).op p e).1.x
        * ((distribution.Kurth4D.new (1 / 2) (1 / 2) sigt (1 / 2) (1 / 2) sigpt 0 0 mutpt).op
          p e).1.py
      - ((distribution.Kurth4D.new (1 / 2) (1 / 2) sigt (1 / 2) (1 / 2) sigpt 0 0 mutpt).op
          p e).1.y
        * ((distribution.Kurth4D.new (1 / 2) (1 / 2) sigt (1 / 2) (1 / 2) sigpt 0 0 mutpt).op
          p e).1.px = Real.sqrt v * (2 * u - 1) ∧
    1 - (((distribution.Kurth4D.new (1 / 2) (1 / 2) sigt (1 / 2) (1 / 2) sigpt 0 0 mutpt).op
            p e).1.x ^ 2
        + ((distribution.Kurth4D.new (1 / 2) (1 / 2) sigt (1 / 2) (1 / 2) sigpt 0 0 mutpt).op
            p e).1.y ^ 2)
      - (((distribution.Kurth4D.new (1 / 2) (1 / 2) sigt (1 / 2) (1 / 2) sigpt 0 0 mutpt).op
            p e).1.px ^ 2
        + ((distribution.Kurth4D.new (1 / 2) (1 / 2) sigt (1 / 2) (1 / 2) sigpt 0 0 mutpt).op
            p e).1.py ^ 2)
      + (((distribution.Kurth4D.new (1 / 2) (1 / 2) sigt (1 / 2) (1 / 2) sigpt 0 0 mutpt).op
            p e).1.x
          * ((distribution.Kurth4D.new (1 / 2) (1 / 2) sigt (1 / 2) (1 / 2) sigpt 0 0 mutpt).op
            p e).1.py
        - ((distribution.Kurth4D.new (1 / 2) (1 / 2) sigt (1 / 2) (1 / 2) sigpt 0 0 mutpt).op
            p e).1.y
          * ((distribution.Kurth4D.new (1 / 2) (1 / 2) sigt (1 / 2) (1 / 2) sigpt 0 0 mutpt).op
            p e).1.px) ^ 2 ≥ 0 := by
  simp only [distribution.Kurth4D.op, distribution.Kurth4D.new, Random, add_assoc,
    Nat.reduceAdd, mul_zero, sub_zero, Real.sqrt_one, div_one, neg_zero, zero_mul, zero_add,
    ← hv, ← hu]
  have hr : 0 < Real.sqrt v := Real.sqrt_pos.mpr hv0
  have hr2 : Real.sqrt v ^ 2 = v := Real.sq_sqrt hv0.le
  generalize Real.sqrt v = r at hr hr2 ⊢
  have hcs := Real.cos_sq_add_sin_sq (2 * 3.14159265358979 * e.stream (e.pos + 1))
  generalize Real.cos (2 * 3.14159265358979 * e.stream (e.pos + 1)) = c at hcs ⊢
  generalize Real.sin (2 * 3.14159265358979 * e.stream (e.pos + 1)) = s at hcs ⊢
  have hLz : r * (2 * u - 1) / r = 2 * u - 1 := by
    field_simp
  rw [hLz]
  have hP : 0 ≤ 1 - (2 * u - 1) ^ 2 - r ^ 2 + (r * (2 * u - 1)) ^ 2 := by
    have e1 : 1 - (2 * u - 1) ^ 2 - r ^ 2 + (r * (2 * u - 1)) ^ 2
        = (4 * u * (1 - u)) * (1 - v) := by
      rw [← hr2]
      ring
    rw [e1]
    have h1 : 0 ≤ 4 * u * (1 - u) := by nlinarith
    have h2 : 0 ≤ 1 - v := by linarith
    exact mul_nonneg h1 h2
  have hpm := Real.sq_sqrt hP
  have hpm0 := Real.sqrt_nonneg (1 - (2 * u - 1) ^ 2 - r ^ 2 + (r * (2 * u - 1)) ^ 2)
  generalize Real.sqrt (1 - (2 * u - 1) ^ 2 - r ^ 2 + (r * (2 * u - 1)) ^ 2) = pmax
    at hpm hpm0 ⊢
  have hca := Real.cos_sq_add_sin_sq (3.14159265358979 * e.stream (e.pos + 3))
  have hsa := sq_nonneg (Real.sin (3.14159265358979 * e.stream (e.pos + 3)))
  generalize Real.sin (3.14159265358979 * e.stream (e.pos + 3)) = sa at hca hsa
  generalize Real.cos (3.14159265358979 * e.stream (e.pos + 3)) = ca at hca ⊢
  refine ⟨?_, hv1, ?_, ?_⟩
  · linear_combination hr2 + r ^ 2 * hcs
  · linear_combination (r * (2 * u - 1)) * hcs
  · have key : 1 - ((1 / 2 * (2 * (r * c))) ^ 2 + (1 / 2 * (2 * (r * s))) ^ 2)
        - ((1 / 2 * (2 * (pmax * ca * c - (2 * u - 1) * s))) ^ 2
          + (1 / 2 * (2 * (pmax * ca * s + (2 * u - 1) * c))) ^ 2)
        + (1 / 2 * (2 * (r * c)) * (1 / 2 * (2 * (pmax * ca * s + (2 * u - 1) * c)))
          - 1 / 2 * (2 * (r * s)) * (1 / 2 * (2 * (pmax * ca * c - (2 * u - 1) * s)))) ^ 2
        = pmax ^ 2 * sa ^ 2 := by
      linear_combination (-(r ^ 2) - pmax ^ 2 * ca ^ 2 - (2 * u - 1) ^ 2
        + (r * (2 * u - 1)) ^ 2 * (c ^ 2 + s ^ 2 + 1)) * hcs - hpm - pmax ^ 2 * hca
    rw [ge_iff_le, key]
    positivity

theorem distribution.Kurth4D.op_support_witness :
    (0 : ℝ) < 1 / 2 ∧ (1 / 2 : ℝ) < 1 ∧
    ((distribution.Kurth4D.new (1 / 2) (1 / 2) 1 (1 / 2) (1 / 2) 1 0 0 0).op
        { x := 0, y := 0, t := 0, px := 0, py := 0, pt := 0 } (RandomEngine.const (1 / 2))).1.x ^ 2
      + ((distribution.Kurth4D.new (1 / 2) (1 / 2) 1 (1 / 2) (1 / 2) 1 0 0 0).op
        { x := 0, y := 0, t := 0, px := 0, py := 0, pt := 0 } (RandomEngine.const (1 / 2))).1.y ^ 2
      = 1 / 2 :=
  ⟨by norm_num, by norm_num,
   (distribution.Kurth4D.op_support 1 1 0
     { x := 0, y := 0, t := 0, px := 0, py := 0, pt := 0 } (RandomEngine.const (1 / 2))
     (1 / 2) (1 / 2) rfl rfl (by norm_num) (by norm_num) (by norm_num) (by norm_num)).1⟩

/-- The square of the radius `sqrt(d + 2) * u^(1/d)` for `d = 4` is `6*sqrt(u)`. -/
theorem distribution.ball_radius_sq (u : ℝ) (hu : 0 ≤ u) :
    (Real.sqrt (4 + 2) * u ^ ((1 : ℝ) / 4)) ^ 2 = 6 * Real.sqrt u := by
  have h6 : Real.sqrt (4 + 2) ^ 2 = 6 := by
    rw [Real.sq_sqrt (by norm_num)]
    norm_num
  have hu4 : (u ^ ((1 : ℝ) / 4)) ^ 2 = Real.sqrt u := by
    rw [← Real.rpow_natCast, ← Real.rpow_mul hu, Real.sqrt_eq_rpow]
    norm_num
  rw [mul_pow, h6, hu4]

/-- C29: with `sigx = sigy = sigpx = sigpy = 1` and zero transverse correlations, for all
draws in `(0, 1)` the `Triangle` sample satisfies `x^2 + y^2 + px^2 + py^2 = 6*sqrt(u) < 6`,
where `u` is the eighth uniform draw: the point lies on the sphere of radius
`sqrt(6)*u^(1/4)`. -/
theorem distribution.Triangle.op_ball (sigt sigpt mutpt : ℝ) (p : Particle) (e : RandomEngine)
    (u : ℝ) (hu : u = e.stream (e.pos + 7))
    (hdraw : ∀ i, i < 8 → 0 < e.stream (e.pos + i) ∧ e.stream (e.pos + i) < 1) :
    ((distribution.Triangle.new 1 1 sigt 1 1 sigpt 0 0 mutpt).op p e).1.x ^ 2
      + ((distribution.Triangle.new 1 1 sigt 1 1 sigpt 0 0 mutpt).op p e).1.y ^ 2
      + ((distribution.Triangle.new 1 1 sigt 1 1 sigpt 0 0 mutpt).op p e).1.px ^ 2
      + ((distribution.Triangle.new 1 1 sigt 1 1 sigpt 0 0 mutpt).op p e).1.py ^ 2
      = 6 * Real.sqrt u ∧
    6 * Real.sqrt u < 6 ∧
    6 * Real.sqrt u = (Real.sqrt 6 * u ^ ((1 : ℝ) / 4)) ^ 2 := by
  have d1 := hdraw 1 (by norm_num)
  have d3 := hdraw 3 (by norm_num)
  have d7 := hdraw 7 (by norm_num)
  rw [← hu] at d7
  have hrad := distribution.ball_radius_sq u d7.1.le
  have hlt : 6 * Real.sqrt u < 6 := by
    have := Real.sqrt_lt_sqrt d7.1.le d7.2
    rw [Real.sqrt_one] at this
    linarith
  have h42 : (4 : ℝ) + 2 = 6 := by norm_num
  refine ⟨?_, hlt, ?_⟩
  · simp only [distribution.Triangle.op, distribution.Triangle.new, Random, add_assoc,
      Nat.reduceAdd, mul_zero, sub_zero, Real.sqrt_one, div_one, one_mul, neg_zero, zero_mul,
      zero_add, ← hu]
    rw [← hrad]
    generalize Real.sqrt (4 + 2) * u ^ ((1 : ℝ) / 4) = U
    have hL1 : 0 < Real.sqrt (-2 * Real.log (e.stream (e.pos + 1))) := by
      apply Real.sqrt_pos.mpr
      have := Real.log_neg d1.1 d1.2
      linarith
    have hL2 : 0 ≤ Real.sqrt (-2 * Real.log (e.stream (e.pos + 3))) := Real.sqrt_nonneg _
    generalize Real.sqrt (-2 * Real.log (e.stream (e.pos + 1))) = L1 at hL1 ⊢
    generalize Real.sqrt (-2 * Real.log (e.stream (e.pos + 3))) = L2 at hL2 ⊢
    have hc1 := Real.cos_sq_add_sin_sq (2 * Real.pi * e.stream (e.pos + 2))
    have hc2 := Real.cos_sq_add_sin_sq (2 * Real.pi * e.stream (e.pos + 4))
    generalize Real.cos (2 * Real.pi * e.stream (e.pos + 2)) = C1 at hc1 ⊢
    generalize Real.sin (2 * Real.pi * e.stream (e.pos + 2)) = S1 at hc1 ⊢
    generalize Real.cos (2 * Real.pi * e.stream (e.pos + 4)) = C2 at hc2 ⊢
    generalize Real.sin (2 * Real.pi * e.stream (e.pos + 4)) = S2 at hc2 ⊢
    have hin : L1 * C1 * (L1 * C1) + (L1 * S1 * (L1 * S1) + (L2 * C2 * (L2 * C2)
        + L2 * S2 * (L2 * S2))) = L1 ^ 2 + L2 ^ 2 := by
      linear_combination L1 ^ 2 * hc1 + L2 ^ 2 * hc2
    rw [hin]
    have hpos : 0 < L1 ^ 2 + L2 ^ 2 := by positivity
    have hN := Real.sq_sqrt hpos.le
    have hN0 : Real.sqrt (L1 ^ 2 + L2 ^ 2) ≠ 0 := (Real.sqrt_pos.mpr hpos).ne'
    generalize Real.sqrt (L1 ^ 2 + L2 ^ 2) = N at hN hN0 ⊢
    field_simp
    rw [hN]
    linear_combination U ^ 2 * (L1 ^ 2 * hc1 + L2 ^ 2 * hc2)
  · have hs6 : Real.sqrt 6 = Real.sqrt (4 + 2) := by
      rw [h42]
    rw [hs6]
    exact hrad.symm

theorem distribution.Triangle.op_ball_witness :
    ((distribution.Triangle.new 1 1 1 1 1 1 0 0 0).op
        { x := 0, y := 0, t := 0, px := 0, py := 0, pt := 0 } (RandomEngine.const (1 / 2))).1.x ^ 2
      + ((distribution.Triangle.new 1 1 1 1 1 1 0 0 0).op
        { x := 0, y := 0, t := 0, px := 0, py := 0, pt := 0 } (RandomEngine.const (1 / 2))).1.y ^ 2
      + ((distribution.Triangle.new 1 1 1 1 1 1 0 0 0).op
        { x := 0, y := 0, t := 0, px := 0, py := 0, pt := 0 } (RandomEngine.const (1 / 2))).1.px ^ 2
      + ((distribution.Triangle.new 1 1 1 1 1 1 0 0 0).op
        { x := 0, y := 0, t := 0, px := 0, py := 0, pt := 0 } (RandomEngine.const (1 / 2))).1.py ^ 2
      = 6 * Real.sqrt (1 / 2) :=
  (distribution.Triangle.op_ball 1 1 0
    { x := 0, y := 0, t := 0, px := 0, py := 0, pt := 0 } (RandomEngine.const (1 / 2))
    (1 / 2) rfl
    (fun _ _ => ⟨by norm_num [RandomEngine.const], by norm_num [RandomEngine.const]⟩)).1

/-! ## The stored factorial of the multipole -/

theorem wrap_int32_lt (n : ℤ) : wrap_int32 n < 2 ^ 31 := by
  unfold wrap_int32
  omega

/-- A 32-bit running product started below `2^31` stays below `2^31`. -/
theorem Multipole.running_product_lt (l : List ℤ) (acc : ℤ) (h : acc < 2 ^ 31) :
    l.foldl (fun acc n => wrap_int32 (acc * n)) acc < 2 ^ 31 := by
  induction l generalizing acc with
  | nil => simpa using h
  | cons n l ih =>
    rw [List.foldl_cons]
    exact ih _ (wrap_int32_lt _)

/-- C30: for every multipole index `1 ≤ m ≤ 13` the constructor computes
`m_mfactorial = (m-1)!` exactly in a 32-bit signed `int`, and 13 is the largest such index:
`13!` exceeds `2^31 - 1`, for `m = 14` the 32-bit product is `1932053504`, not `13!`, and for
no index from 14 on does the stored value equal `(m-1)!`. -/
theorem Multipole.new_mfactorial_int32 (m : ℤ) (hm1 : 1 ≤ m) (hm13 : m ≤ 13) (Kn Ks : ℝ) :
    (Multipole.new m Kn Ks).m_mfactorial = (((m - 1).toNat.factorial : ℕ) : ℤ) ∧
    (((m - 1).toNat.factorial : ℕ) : ℤ) ≤ 2 ^ 31 - 1 ∧
    (2 ^ 31 - 1 : ℤ) < ((Nat.factorial 13 : ℕ) : ℤ) ∧
    (Multipole.new 14 Kn Ks).m_mfactorial = 1932053504 ∧
    (Multipole.new 14 Kn Ks).m_mfactorial ≠ ((Nat.factorial 13 : ℕ) : ℤ) ∧
    (∀ m' : ℤ, 14 ≤ m' →
      (Multipole.new m' Kn Ks).m_mfactorial ≠ (((m' - 1).toNat.factorial : ℕ) : ℤ)) := by
  have h13 : (2 ^ 31 - 1 : ℤ) < ((Nat.factorial 13 : ℕ) : ℤ) := by decide
  have h14 : (Multipole.new 14 Kn Ks).m_mfactorial = 1932053504 := rfl
  refine ⟨Multipole.new_mfactorial m hm1 hm13 Kn Ks, ?_, h13, h14, ?_, ?_⟩
  · interval_cases m <;> decide
  · rw [h14]
    decide
  · intro m' hm'
    have hlt : (Multipole.new m' Kn Ks).m_mfactorial < 2 ^ 31 :=
      Multipole.running_product_lt _ 1 (by norm_num)
    have hle : Nat.factorial 13 ≤ (m' - 1).toNat.factorial :=
      Nat.factorial_le (by omega)
    have hle' : ((Nat.factorial 13 : ℕ) : ℤ) ≤ (((m' - 1).toNat.factorial : ℕ) : ℤ) := by
      exact_mod_cast hle
    intro heq
    rw [heq] at hlt
    omega

theorem Multipole.new_mfactorial_int32_witness :
    (1 : ℤ) ≤ 13 ∧ (13 : ℤ) ≤ 13 ∧
    (Multipole.new 13 1 0).m_mfactorial = (((((13 : ℤ) - 1).toNat).factorial : ℕ) : ℤ) :=
  ⟨by decide, by decide, (Multipole.new_mfactorial_int32 13 (by decide) (by decide) 1 0).1⟩

/-! ## The mass setter and the energy setter -/

/-- C31: for every state and every `massE ≠ 0`, after `set_mass_MeV(massE)` the field `pt`
equals its value before the call, `pz` equals `sqrt(pt^2 - 1)` when `pt ≠ 0`, `mass` equals
`massE * MeV_invc2`, and `px, py, s, x, y, z, t, charge` are unchanged (the unit constant
`MeV_invc2` being nonzero). -/
theorem RefPart.set_mass_MeV_effect (K : SI) (hK : K.MeV_invc2 ≠ 0) (r : RefPart) (massE : ℝ)
    (hE : massE ≠ 0) :
    (r.set_mass_MeV K massE).pt = r.pt ∧
    (r.set_mass_MeV K massE).gamma = r.gamma ∧
    (r.pt ≠ 0 → (r.set_mass_MeV K massE).pz = Real.sqrt (r.pt ^ 2 - 1)) ∧
    (r.set_mass_MeV K massE).mass = massE * K.MeV_invc2 ∧
    (r.set_mass_MeV K massE).px = r.px ∧ (r.set_mass_MeV K massE).py = r.py ∧
    (r.set_mass_MeV K massE).s = r.s ∧ (r.set_mass_MeV K massE).x = r.x ∧
    (r.set_mass_MeV K massE).y = r.y ∧ (r.set_mass_MeV K massE).z = r.z ∧
    (r.set_mass_MeV K massE).t = r.t ∧ (r.set_mass_MeV K massE).charge = r.charge := by
  have hpt : (r.set_mass_MeV K massE).pt = r.pt := by
    unfold RefPart.set_mass_MeV
    by_cases h0 : r.pt = 0
    · simp only [h0, ne_eq, not_true_eq_false, if_false]
    · simp only [ne_eq, h0, not_false_eq_true, if_true, RefPart.energy_MeV, RefPart.mass_MeV]
      field_simp
      ring
  have hrest : (r.set_mass_MeV K massE).mass = massE * K.MeV_invc2 ∧
      (r.set_mass_MeV K massE).px = r.px ∧ (r.set_mass_MeV K massE).py = r.py ∧
      (r.set_mass_MeV K massE).s = r.s ∧ (r.set_mass_MeV K massE).x = r.x ∧
      (r.set_mass_MeV K massE).y = r.y ∧ (r.set_mass_MeV K massE).z = r.z ∧
      (r.set_mass_MeV K massE).t = r.t ∧ (r.set_mass_MeV K massE).charge = r.charge := by
    unfold RefPart.set_mass_MeV
    by_cases h0 : r.pt = 0
    · simp only [h0, ne_eq, not_true_eq_false, if_false, and_self]
    · simp only [ne_eq, h0, not_false_eq_true, if_true, and_self]
  refine ⟨hpt, ?_, ?_, hrest⟩
  · simp only [RefPart.gamma, hpt]
  · intro h0
    have hpz : (r.set_mass_MeV K massE).pz
        = Real.sqrt ((r.set_mass_MeV K massE).pt ^ 2 - 1) := by
      unfold RefPart.set_mass_MeV
      simp only [ne_eq, h0, not_false_eq_true, if_true]
    rw [hpz, hpt]

theorem RefPart.set_mass_MeV_effect_witness :
    SI.codata.MeV_invc2 ≠ 0 ∧ (2 : ℝ) ≠ 0 ∧
    ((RefPart.ofPtMassCharge (-2) 1 0).set_mass_MeV SI.codata 2).pt
      = (RefPart.ofPtMassCharge (-2) 1 0).pt :=
  ⟨SI.codata_MeV_invc2_ne_zero, two_ne_zero,
   (RefPart.set_mass_MeV_effect SI.codata SI.codata_MeV_invc2_ne_zero
     (RefPart.ofPtMassCharge (-2) 1 0) 2 two_ne_zero).1⟩

/-- C32: for every state with `mass > 0` and every `E > 0`, after `set_energy_MeV(E)` one has
`gamma() > 1` (`pt < -1`), `pz = beta_gamma() > 0` and `px^2 + py^2 + pz^2 = pt^2 - 1` (the
unit constant `MeV_invc2` being positive). -/
theorem RefPart.set_energy_MeV_invariant (K : SI) (hK : 0 < K.MeV_invc2) (r : RefPart)
    (hm : 0 < r.mass) (E : ℝ) (hE : 0 < E) :
    (r.set_energy_MeV K E).gamma > 1 ∧ (r.set_energy_MeV K E).pt < -1 ∧
    (r.set_energy_MeV K E).pz = (r.set_energy_MeV K E).beta_gamma ∧
    (r.set_energy_MeV K E).pz > 0 ∧
    (r.set_energy_MeV K E).px ^ 2 + (r.set_energy_MeV K E).py ^ 2
        + (r.set_energy_MeV K E).pz ^ 2 = (r.set_energy_MeV K E).pt ^ 2 - 1 := by
  have hmass : 0 < r.mass_MeV K := by
    simp only [RefPart.mass_MeV]
    positivity
  have hpt : (r.set_energy_MeV K E).pt = -E / r.mass_MeV K - 1 := rfl
  have hq : 0 < E / r.mass_MeV K := div_pos hE hmass
  have hlt : (r.set_energy_MeV K E).pt < -1 := by
    rw [hpt, neg_div]
    linarith
  have hrad : 0 < (r.set_energy_MeV K E).pt ^ 2 - 1 := by nlinarith
  have hpz : (r.set_energy_MeV K E).pz = Real.sqrt ((r.set_energy_MeV K E).pt ^ 2 - 1) := rfl
  have hpx : (r.set_energy_MeV K E).px = 0 := rfl
  have hpy : (r.set_energy_MeV K E).py = 0 := rfl
  refine ⟨?_, hlt, ?_, ?_, ?_⟩
  · simp only [RefPart.gamma]
    linarith
  · rw [hpz]
    simp only [RefPart.beta_gamma, neg_sq]
  · rw [hpz]
    exact Real.sqrt_pos.mpr hrad
  · rw [hpx, hpy, hpz, Real.sq_sqrt hrad.le]
    ring

theorem SI.codata_MeV_invc2_pos : 0 < SI.codata.MeV_invc2 := by
  norm_num [SI.codata]

theorem RefPart.set_energy_MeV_invariant_witness :
    0 < SI.codata.MeV_invc2 ∧ 0 < (RefPart.ofPtMassCharge 0 1 0).mass ∧ (0 : ℝ) < 2000 ∧
    ((RefPart.ofPtMassCharge 0 1 0).set_energy_MeV SI.codata 2000).gamma > 1 :=
  ⟨SI.codata_MeV_invc2_pos, by norm_num [RefPart.ofPtMassCharge], by norm_num,
   (RefPart.set_energy_MeV_invariant SI.codata SI.codata_MeV_invc2_pos
     (RefPart.ofPtMassCharge 0 1 0) (by norm_num [RefPart.ofPtMassCharge]) 2000
     (by norm_num)).1⟩

/-- C36: for every `phi_in`, `phi_out` whose cosines (of the stored angles) are positive and
every reference particle with `gamma > 1`, the particle with
`x = y = t = px = py = pt = 0` is mapped to itself; there `pz = cos(phi_in)`,
`pzf = cos(phi_out)` and `px' = 0`. -/
theorem PRot.op_particle_reference_orbit (phi_in phi_out : ℝ) (refpart : RefPart)
    (hin : 0 < Real.cos (PRot.new phi_in phi_out).m_phi_in)
    (_hout : 0 < Real.cos (PRot.new phi_in phi_out).m_phi_out)
    (_hγ : refpart.gamma > 1) :
    (PRot.new phi_in phi_out).op_particle
        { x := 0, y := 0, t := 0, px := 0, py := 0, pt := 0 } refpart
      = { x := 0, y := 0, t := 0, px := 0, py := 0, pt := 0 } ∧
    Real.sqrt (1 - 2 * 0 / refpart.beta + 0 ^ 2 - 0 ^ 2
        - (0 + Real.sin (PRot.new phi_in phi_out).m_phi_in) ^ 2)
      = Real.cos (PRot.new phi_in phi_out).m_phi_in ∧
    Real.sqrt (1 - 2 * 0 / refpart.beta + 0 ^ 2 - 0 ^ 2
          - (0 + Real.sin (PRot.new phi_in phi_out).m_phi_in) ^ 2)
        * Real.cos ((PRot.new phi_in phi_out).m_phi_out - (PRot.new phi_in phi_out).m_phi_in)
      - (0 + Real.sin (PRot.new phi_in phi_out).m_phi_in)
        * Real.sin ((PRot.new phi_in phi_out).m_phi_out - (PRot.new phi_in phi_out).m_phi_in)
      = Real.cos (PRot.new phi_in phi_out).m_phi_out ∧
    ((PRot.new phi_in phi_out).op_particle
        { x := 0, y := 0, t := 0, px := 0, py := 0, pt := 0 } refpart).px = 0 := by
  generalize (PRot.new phi_in phi_out) = e at hin ⊢
  have hpz : Real.sqrt (1 - 2 * 0 / refpart.beta + 0 ^ 2 - 0 ^ 2
      - (0 + Real.sin e.m_phi_in) ^ 2) = Real.cos e.m_phi_in := by
    have h1 : 1 - 2 * 0 / refpart.beta + 0 ^ 2 - 0 ^ 2 - (0 + Real.sin e.m_phi_in) ^ 2
        = Real.cos e.m_phi_in ^ 2 := by
      have := Real.cos_sq_add_sin_sq e.m_phi_in
      simp only [mul_zero, zero_div, sub_zero, zero_add]
      linarith [sq_nonneg (0 : ℝ)]
    rw [h1, Real.sqrt_sq hin.le]
  have hpzf : Real.cos e.m_phi_in * Real.cos (e.m_phi_out - e.m_phi_in)
      - (0 + Real.sin e.m_phi_in) * Real.sin (e.m_phi_out - e.m_phi_in)
      = Real.cos e.m_phi_out := by
    have hc : Real.cos e.m_phi_out
        = Real.cos (e.m_phi_in + (e.m_phi_out - e.m_phi_in)) := by
      congr 1
      ring
    rw [hc, Real.cos_add]
    ring
  have hmap : e.op_particle { x := 0, y := 0, t := 0, px := 0, py := 0, pt := 0 } refpart
      = { x := 0, y := 0, t := 0, px := 0, py := 0, pt := 0 } := by
    simp only [PRot.op_particle]
    rw [hpz, hpzf]
    simp only [zero_mul, zero_div, mul_zero, sub_self, add_zero, sub_zero]
  refine ⟨hmap, hpz, ?_, ?_⟩
  · rw [hpz, hpzf]
  · rw [hmap]

theorem PRot.op_particle_reference_orbit_witness :
    0 < Real.cos (PRot.new 0 0).m_phi_in ∧ 0 < Real.cos (PRot.new 0 0).m_phi_out ∧
    (RefPart.ofPtMassCharge (-2) 1 1).gamma > 1 ∧
    (PRot.new 0 0).op_particle { x := 0, y := 0, t := 0, px := 0, py := 0, pt := 0 }
        (RefPart.ofPtMassCharge (-2) 1 1)
      = { x := 0, y := 0, t := 0, px := 0, py := 0, pt := 0 } :=
  ⟨by simp [PRot.new], by simp [PRot.new],
   by norm_num [RefPart.gamma, RefPart.ofPtMassCharge],
   (PRot.op_particle_reference_orbit 0 0 (RefPart.ofPtMassCharge (-2) 1 1)
     (by simp [PRot.new]) (by simp [PRot.new])
     (by norm_num [RefPart.gamma, RefPart.ofPtMassCharge])).1⟩

/-! ## The chromatic quadrupole: composition of slices -/

/-- The map over a length `L1` followed by the map over a length `L2` is the map over
`L1 + L2`, for the same strength and the same reference particle. -/
theorem ChrQuad.op_particle_add (K : SI) (k : ℝ) (L1 L2 : ℝ) (unit : ℤ)
    (refpart : RefPart) (p : Particle)
    (hp : 0 < 1 - 2 * p.pt / refpart.beta + p.pt ^ 2) :
    (ChrQuad.new L2 k unit 1).op_particle K
      ((ChrQuad.new L1 k unit 1).op_particle K p refpart) refpart
      = (ChrQuad.new (L1 + L2) k unit 1).op_particle K p refpart := by
  obtain ⟨x, y, t, px, py, pt⟩ := p
  simp only [ChrQuad.op_particle, ChrQuad.new, ChrQuad.nslice, Int.cast_one, div_one] at hp ⊢
  generalize (if unit = 1 then k / refpart.rigidity_Tm K else k) = g
  generalize refpart.beta = β at hp ⊢
  have hδ : 0 < Real.sqrt (1 - 2 * pt / β + pt ^ 2) := Real.sqrt_pos.mpr hp
  generalize Real.sqrt (1 - 2 * pt / β + pt ^ 2) = δ1 at hδ ⊢
  by_cases hg : g > 0
  · simp only [hg, if_true]
    have hω : 0 < Real.sqrt (|g| / δ1) := Real.sqrt_pos.mpr (div_pos (abs_pos.mpr hg.ne') hδ)
    generalize Real.sqrt (|g| / δ1) = ω at hω ⊢
    have hw : ω * δ1 ≠ 0 := (mul_pos hω hδ).ne'
    obtain ⟨vx, rfl⟩ : ∃ vx, px = ω * δ1 * vx := ⟨px / (ω * δ1), by field_simp⟩
    obtain ⟨vy, rfl⟩ : ∃ vy, py = ω * δ1 * vy := ⟨py / (ω * δ1), by field_simp⟩
    have hx : ∀ a b : ℝ, a / (ω * δ1) * (ω * δ1 * b) = a * b := by
      intro a b
      field_simp
      ring
    have e1 : ω * (L1 + L2) = ω * L1 + ω * L2 := by ring
    have e2 : 2 * (L1 + L2) * ω = 2 * (ω * L1) + 2 * (ω * L2) := by ring
    have e3 : 2 * L1 * ω = 2 * (ω * L1) := by ring
    have e4 : 2 * L2 * ω = 2 * (ω * L2) := by ring
    have hcs := Real.cos_sq_add_sin_sq (ω * L1)
    have hch := Real.cosh_sq (ω * L1)
    have hc2 : ∀ a : ℝ, Real.cos (2 * a) = Real.cos a ^ 2 - Real.sin a ^ 2 := by
      intro a
      rw [Real.cos_two_mul]
      linarith [Real.cos_sq_add_sin_sq a]
    simp only [hx, e1, e2, e3, e4, Real.cos_add, Real.sin_add, Real.cosh_add, Real.sinh_add,
      Real.sin_two_mul, Real.sinh_two_mul, Real.cosh_two_mul, hc2]
    generalize Real.cos (ω * L1) = c1 at hcs ⊢
    generalize Real.sin (ω * L1) = s1 at hcs ⊢
    generalize Real.cosh (ω * L1) = ch1 at hch ⊢
    generalize Real.sinh (ω * L1) = sh1 at hch ⊢
    generalize Real.cos (ω * L2) = c2
    generalize Real.sin (ω * L2) = s2
    generalize Real.cosh (ω * L2) = ch2
    generalize Real.sinh (ω * L2) = sh2
    simp only [Particle.mk.injEq, and_true]
    refine ⟨?_, ?_, ?_, ?_, ?_⟩
    · field_simp
      ring
    · field_simp
      ring
    · linear_combination (-1 + β * pt) / (8 * β * δ1 ^ 3 * ω) *
        ((-(2 * ω * L2 * ((ω * δ1) ^ 2 * (vx ^ 2 + x ^ 2)))) * hcs
         + (-(2 * ω * L2 * ((ω * δ1) ^ 2 * (vy ^ 2 - y ^ 2)))) * hch)
    · ring
    · ring
  · rcases lt_or_eq_of_le (not_lt.mp hg) with hneg | hzero
    · simp only [hg, if_false]
      have hω : 0 < Real.sqrt (|g| / δ1) :=
        Real.sqrt_pos.mpr (div_pos (abs_pos.mpr hneg.ne) hδ)
      generalize Real.sqrt (|g| / δ1) = ω at hω ⊢
      have hw : ω * δ1 ≠ 0 := (mul_pos hω hδ).ne'
      obtain ⟨vx, rfl⟩ : ∃ vx, px = ω * δ1 * vx := ⟨px / (ω * δ1), by field_simp⟩
      obtain ⟨vy, rfl⟩ : ∃ vy, py = ω * δ1 * vy := ⟨py / (ω * δ1), by field_simp⟩
      have hx : ∀ a b : ℝ, a / (ω * δ1) * (ω * δ1 * b) = a * b := by
        intro a b
        field_simp
        ring
      have e1 : ω * (L1 + L2) = ω * L1 + ω * L2 := by ring
      have e2 : 2 * (L1 + L2) * ω = 2 * (ω * L1) + 2 * (ω * L2) := by ring
      have e3 : 2 * L1 * ω = 2 * (ω * L1) := by ring
      have e4 : 2 * L2 * ω = 2 * (ω * L2) := by ring
      have hcs := Real.cos_sq_add_sin_sq (ω * L1)
      have hch := Real.cosh_sq (ω * L1)
      have hc2 : ∀ a : ℝ, Real.cos (2 * a) = Real.cos a ^ 2 - Real.sin a ^ 2 := by
        intro a
        rw [Real.cos_two_mul]
        linarith [Real.cos_sq_add_sin_sq a]
      simp only [hx, e1, e2, e3, e4, Real.cos_add, Real.sin_add, Real.cosh_add, Real.sinh_add,
        Real.sin_two_mul, Real.sinh_two_mul, Real.cosh_two_mul, hc2]
      generalize Real.cos (ω * L1) = c1 at hcs ⊢
      generalize Real.sin (ω * L1) = s1 at hcs ⊢
      generalize Real.cosh (ω * L1) = ch1 at hch ⊢
      generalize Real.sinh (ω * L1) = sh1 at hch ⊢
      generalize Real.cos (ω * L2) = c2
      generalize Real.sin (ω * L2) = s2
      generalize Real.cosh (ω * L2) = ch2
      generalize Real.sinh (ω * L2) = sh2
      simp only [Particle.mk.injEq, and_true]
      refine ⟨?_, ?_, ?_, ?_, ?_⟩
      · field_simp
        ring
      · field_simp
        ring
      · linear_combination (-1 + β * pt) / (8 * β * δ1 ^ 3 * ω) *
          ((-(2 * ω * L2 * ((ω * δ1) ^ 2 * (vy ^ 2 + y ^ 2)))) * hcs
           + (-(2 * ω * L2 * ((ω * δ1) ^ 2 * (vx ^ 2 - x ^ 2)))) * hch)
      · ring
      · ring
    · subst hzero
      simp only [gt_iff_lt, lt_self_iff_false, if_false, abs_zero, zero_div,
        Real.sqrt_zero, zero_mul, mul_zero, Real.cos_zero, Real.sin_zero, Real.cosh_zero,
        Real.sinh_zero, div_zero, one_mul, zero_add, add_zero, neg_zero]
      simp only [Particle.mk.injEq, and_true, true_and]
      ring

/-- The map over a slice of length zero is the identity. -/
theorem ChrQuad.op_particle_zero_length (K : SI) (k : ℝ) (unit : ℤ) (refpart : RefPart)
    (p : Particle) :
    (ChrQuad.new 0 k unit 1).op_particle K p refpart = p := by
  obtain ⟨x, y, t, px, py, pt⟩ := p
  simp only [ChrQuad.op_particle, ChrQuad.new, ChrQuad.nslice, Int.cast_one, div_one,
    mul_zero, zero_mul, Real.cos_zero, Real.sin_zero, Real.cosh_zero, Real.sinh_zero,
    zero_div, one_mul, add_zero, sub_zero, zero_add]
  split_ifs <;> simp only [Particle.mk.injEq, and_true, true_and] <;> ring

/-- The map of a sliced element is the map of the unsliced element of the slice length. -/
theorem ChrQuad.op_particle_slice (K : SI) (ds k : ℝ) (unit n : ℤ) (p : Particle)
    (refpart : RefPart) :
    (ChrQuad.new ds k unit n).op_particle K p refpart
      = (ChrQuad.new (ds / (n : ℝ)) k unit 1).op_particle K p refpart := by
  simp only [ChrQuad.op_particle, ChrQuad.new, ChrQuad.nslice, Int.cast_one, div_one]

/-- Applying the map over a length `L` for `j` times is the map over the length `j * L`. -/
theorem ChrQuad.op_particle_iterate (K : SI) (k L : ℝ) (unit : ℤ) (refpart : RefPart)
    (p : Particle) (hp : 0 < 1 - 2 * p.pt / refpart.beta + p.pt ^ 2) (j : ℕ) :
    (fun q => (ChrQuad.new L k unit 1).op_particle K q refpart)^[j] p
      = (ChrQuad.new ((j : ℝ) * L) k unit 1).op_particle K p refpart := by
  induction j with
  | zero =>
    rw [Function.iterate_zero, id_eq, Nat.cast_zero, zero_mul,
      ChrQuad.op_particle_zero_length]
  | succ j ih =>
    rw [Function.iterate_succ_apply', ih, ChrQuad.op_particle_add K k _ _ unit refpart p hp]
    congr 2
    push_cast
    ring

/-- C33: for every `k ≠ 0`, reference particle with `gamma > 1` and particle with
`1 - 2*pt/beta + pt^2 > 0`, applying the map for slice length `L1` and then the map for slice
length `L2` (same `k`, same reference particle) equals the map for slice length `L1 + L2`, in
all six coordinates including `t`; consequently applying the map of `ChrQuad(ds, k, unit, n)`
`n` times equals applying the map of `ChrQuad(ds, k, unit, 1)` once. -/
theorem ChrQuad.op_particle_slice_additive (K : SI) (k : ℝ) (_hk : k ≠ 0) (unit : ℤ)
    (refpart : RefPart) (_hγ : refpart.gamma > 1) (p : Particle)
    (hp : 0 < 1 - 2 * p.pt / refpart.beta + p.pt ^ 2) :
    (∀ L1 L2 : ℝ,
      (ChrQuad.new L2 k unit 1).op_particle K
        ((ChrQuad.new L1 k unit 1).op_particle K p refpart) refpart
        = (ChrQuad.new (L1 + L2) k unit 1).op_particle K p refpart) ∧
    (∀ (ds : ℝ) (n : ℤ), 1 ≤ n →
      (fun q => (ChrQuad.new ds k unit n).op_particle K q refpart)^[n.toNat] p
        = (ChrQuad.new ds k unit 1).op_particle K p refpart) := by
  refine ⟨fun L1 L2 => ChrQuad.op_particle_add K k L1 L2 unit refpart p hp, ?_⟩
  intro ds n hn
  have hfun : (fun q => (ChrQuad.new ds k unit n).op_particle K q refpart)
      = (fun q => (ChrQuad.new (ds / (n : ℝ)) k unit 1).op_particle K q refpart) := by
    funext q
    exact ChrQuad.op_particle_slice K ds k unit n q refpart
  rw [hfun, ChrQuad.op_particle_iterate K k _ unit refpart p hp]
  have hcast : ((n.toNat : ℕ) : ℝ) = (n : ℝ) := by
    have h : ((n.toNat : ℕ) : ℤ) = n := Int.toNat_of_nonneg (by omega)
    exact_mod_cast congrArg (fun z : ℤ => (z : ℝ)) h
  have hne : (n : ℝ) ≠ 0 := by
    have : (0 : ℝ) < (n : ℝ) := by exact_mod_cast (by omega : (0 : ℤ) < n)
    exact this.ne'
  rw [hcast, mul_div_cancel₀ ds hne]

theorem ChrQuad.op_particle_slice_additive_witness :
    (1 : ℝ) ≠ 0 ∧ (RefPart.ofPtMassCharge (-2) 1 0).gamma > 1 ∧
    (0 : ℝ) < 1 - 2 * (0 : ℝ) / (RefPart.ofPtMassCharge (-2) 1 0).beta + (0 : ℝ) ^ 2 ∧
    (ChrQuad.new 2 1 0 1).op_particle SI.codata
      ((ChrQuad.new 1 1 0 1).op_particle SI.codata
        { x := 1, y := 2, t := 3, px := 4, py := 5, pt := 0 }
        (RefPart.ofPtMassCharge (-2) 1 0))
      (RefPart.ofPtMassCharge (-2) 1 0)
      = (ChrQuad.new (1 + 2) 1 0 1).op_particle SI.codata
        { x := 1, y := 2, t := 3, px := 4, py := 5, pt := 0 }
        (RefPart.ofPtMassCharge (-2) 1 0) :=
  ⟨one_ne_zero, by norm_num [RefPart.ofPtMassCharge, RefPart.gamma], by norm_num,
   (ChrQuad.op_particle_slice_additive SI.codata 1 one_ne_zero 0
     (RefPart.ofPtMassCharge (-2) 1 0) (by norm_num [RefPart.ofPtMassCharge, RefPart.gamma])
     { x := 1, y := 2, t := 3, px := 4, py := 5, pt := 0 } (by norm_num)).1 1 2⟩

/-! ## The chromatic quadrupole: denominators -/

/-- C34 (as stated, refuted): for strength `k = 0` (with `unit = 0`, `nslice = 1`, a reference
particle with `beta` in `(0,1)` and a particle with `1 - 2*pt/beta + pt^2 > 0`) the phase
advance `omega` is zero, so the denominators `omega*delta1` and `8*beta*delta1^3*omega` of the
map are zero. -/
theorem ChrQuad.denominators_zero_strength :
    (1 : ℤ) ≤ (ChrQuad.new 1 0 0 1).nslice ∧
    0 < (RefPart.ofPtMassCharge (-2) 1 1).beta ∧ (RefPart.ofPtMassCharge (-2) 1 1).beta < 1 ∧
    0 < 1 - 2 * (0 : ℝ) / (RefPart.ofPtMassCharge (-2) 1 1).beta + (0 : ℝ) ^ 2 ∧
    (0 : ℝ) ∈ (ChrQuad.new 1 0 0 1).denominators SI.codata
      { x := 1, y := 1, t := 0, px := 1, py := 1, pt := 0 }
      (RefPart.ofPtMassCharge (-2) 1 1) := by
  have hγ : (RefPart.ofPtMassCharge (-2) 1 1).gamma > 1 := by
    norm_num [RefPart.ofPtMassCharge, RefPart.gamma]
  obtain ⟨h0, h1⟩ := RefPart.beta_bounds _ hγ
  refine ⟨by simp [ChrQuad.new, ChrQuad.nslice], h0, h1, by norm_num, ?_⟩
  simp [ChrQuad.denominators, ChrQuad.new]

/-- C34 (amended): for every real strength `k ≠ 0` (and, when `unit = 1`, a reference particle
with `rigidity_Tm() ≠ 0`), `nslice ≥ 1`, reference particle with `beta` in `(0,1)` and particle
with `1 - 2*pt/beta + pt^2 > 0`, no division in the map has a zero denominator: `nslice`,
`rigidity_Tm()` when `unit = 1`, `beta`, `delta1`, `omega*delta1` and
`8*beta*delta1^3*omega` are all nonzero. -/
theorem ChrQuad.denominators_ne_zero (K : SI) (ds k : ℝ) (hk : k ≠ 0) (unit nslice : ℤ)
    (hn : 1 ≤ nslice) (refpart : RefPart) (hrig : unit = 1 → refpart.rigidity_Tm K ≠ 0)
    (hβ0 : 0 < refpart.beta) (_hβ1 : refpart.beta < 1) (p : Particle)
    (hp : 0 < 1 - 2 * p.pt / refpart.beta + p.pt ^ 2) :
    ∀ d ∈ (ChrQuad.new ds k unit nslice).denominators K p refpart, d ≠ 0 := by
  have hnR : (0 : ℝ) < (nslice : ℝ) := by exact_mod_cast (by omega : (0 : ℤ) < nslice)
  have hg : (if unit = 1 then k / refpart.rigidity_Tm K else k) ≠ 0 := by
    split_ifs with hu
    · exact div_ne_zero hk (hrig hu)
    · exact hk
  have hδ : 0 < Real.sqrt (1 - 2 * p.pt / refpart.beta + p.pt ^ 2) := Real.sqrt_pos.mpr hp
  have hω : 0 < Real.sqrt (|if unit = 1 then k / refpart.rigidity_Tm K else k|
      / Real.sqrt (1 - 2 * p.pt / refpart.beta + p.pt ^ 2)) :=
    Real.sqrt_pos.mpr (div_pos (abs_pos.mpr hg) hδ)
  intro d hd
  simp only [ChrQuad.denominators, ChrQuad.new, ChrQuad.nslice, List.mem_append,
    List.mem_cons, List.mem_singleton, List.not_mem_nil, or_false] at hd
  rcases hd with (hd | hd) | hd
  · rw [hd]
    exact hnR.ne'
  · split_ifs at hd with hu
    · rw [List.mem_singleton] at hd
      rw [hd]
      exact hrig hu
    · exact absurd hd (List.not_mem_nil d)
  · rcases hd with hd | hd | hd | hd | hd | hd | hd
    · rw [hd]
      exact hβ0.ne'
    · rw [hd]
      exact hδ.ne'
    · rw [hd]
      exact (mul_pos hω hδ).ne'
    · rw [hd]
      exact (mul_pos hω hδ).ne'
    · rw [hd]
      exact hβ0.ne'
    · rw [hd]
      exact hδ.ne'
    · rw [hd]
      exact (mul_pos (mul_pos (mul_pos (by norm_num) hβ0) (pow_pos hδ 3)) hω).ne'

theorem ChrQuad.denominators_ne_zero_witness :
    (1 : ℝ) ≠ 0 ∧ (1 : ℤ) ≤ 2 ∧ 0 < (RefPart.ofPtMassCharge (-2) 1 1).beta ∧
    (RefPart.ofPtMassCharge (-2) 1 1).beta < 1 ∧
    (0 : ℝ) < 1 - 2 * (0 : ℝ) / (RefPart.ofPtMassCharge (-2) 1 1).beta + (0 : ℝ) ^ 2 ∧
    ¬ (0 : ℝ) ∈ (ChrQuad.new 1 1 0 2).denominators SI.codata
      { x := 1, y := 1, t := 0, px := 1, py := 1, pt := 0 }
      (RefPart.ofPtMassCharge (-2) 1 1) :=
  ⟨one_ne_zero, by decide,
   (RefPart.beta_bounds _ (by norm_num [RefPart.ofPtMassCharge, RefPart.gamma])).1,
   (RefPart.beta_bounds _ (by norm_num [RefPart.ofPtMassCharge, RefPart.gamma])).2,
   by norm_num,
   fun h0 => ChrQuad.denominators_ne_zero SI.codata 1 1 one_ne_zero 0 2 (by decide)
     (RefPart.ofPtMassCharge (-2) 1 1) (by intro h; exact absurd h (by decide))
     (RefPart.beta_bounds _ (by norm_num [RefPart.ofPtMassCharge, RefPart.gamma])).1
     (RefPart.beta_bounds _ (by norm_num [RefPart.ofPtMassCharge, RefPart.gamma])).2
     { x := 1, y := 1, t := 0, px := 1, py := 1, pt := 0 } (by norm_num) 0 h0 rfl⟩

/-! ## The nonlinear lens on the horizontal axis -/

/-- The principal square root of a non-negative real number is its real square root. -/
theorem csqrt_ofReal (a : ℝ) (ha : 0 ≤ a) : csqrt (a : ℂ) = ((Real.sqrt a : ℝ) : ℂ) := by
  unfold csqrt
  have h2 : (2⁻¹ : ℂ) = (((1 : ℝ) / 2 : ℝ) : ℂ) := by
    push_cast
    norm_num
  rw [h2, ← Complex.ofReal_cpow ha, Real.sqrt_eq_rpow]

/-- The complex arcsine evaluated by the lens is the real arcsine on `[-1, 1]`. -/
theorem clog_arcsin (u : ℝ) (h1 : -1 ≤ u) (h2 : u ≤ 1) :
    Complex.log (Complex.I * (u : ℂ) + ((Real.sqrt (1 - u ^ 2) : ℝ) : ℂ))
      = ((Real.arcsin u : ℝ) : ℂ) * Complex.I := by
  have hexp : Complex.I * (u : ℂ) + ((Real.sqrt (1 - u ^ 2) : ℝ) : ℂ)
      = Complex.exp (((Real.arcsin u : ℝ) : ℂ) * Complex.I) := by
    rw [Complex.exp_mul_I, ← Complex.ofReal_cos, ← Complex.ofReal_sin, Real.cos_arcsin,
      Real.sin_arcsin h1 h2]
    ring
  rw [hexp, Complex.log_exp]
  · simp only [Complex.mul_im, Complex.ofReal_re, Complex.I_im, mul_one, Complex.ofReal_im,
      Complex.I_re, mul_zero, add_zero]
    linarith [Real.neg_pi_div_two_le_arcsin u, Real.pi_pos]
  · simp only [Complex.mul_im, Complex.ofReal_re, Complex.I_im, mul_one, Complex.ofReal_im,
      Complex.I_re, mul_zero, add_zero]
    linarith [Real.arcsin_le_pi_div_two u, Real.pi_pos]

/-- The cube of a real square root as a real power of exponent `3/2`. -/
theorem sqrt_cube_eq_rpow (a : ℝ) (ha : 0 ≤ a) : Real.sqrt a ^ 3 = a ^ ((3 : ℝ) / 2) := by
  rw [Real.sqrt_eq_rpow, ← Real.rpow_natCast, ← Real.rpow_mul ha]
  norm_num

/-- C35: for `y = 0` and `|x/cnll| < 1` (`cnll ≠ 0`), with `u = x/cnll`, the map leaves `py`
unchanged and gives `px' = px - (knll/cnll) * (u/(1 - u^2) + arcsin(u)/(1 - u^2)^(3/2))` with
the real arcsine; in particular at `x = y = 0` the kick is zero. -/
theorem NonlinearLens.op_particle_on_axis (knll cnll : ℝ) (_hc : cnll ≠ 0) (p : Particle)
    (refpart : RefPart) (hy : p.y = 0) (hu : |p.x / cnll| < 1) :
    ((NonlinearLens.new knll cnll).op_particle p refpart).py = p.py ∧
    ((NonlinearLens.new knll cnll).op_particle p refpart).px
      = p.px - (knll / cnll) * ((p.x / cnll) / (1 - (p.x / cnll) ^ 2)
          + Real.arcsin (p.x / cnll) / (1 - (p.x / cnll) ^ 2) ^ ((3 : ℝ) / 2)) ∧
    (p.x = 0 → (NonlinearLens.new knll cnll).op_particle p refpart = p) := by
  obtain ⟨x, y, t, px, py, pt⟩ := p
  simp only at hy hu
  subst hy
  obtain ⟨hu1, hu2⟩ := abs_lt.mp hu
  have hrad : 0 < 1 - (x / cnll) ^ 2 := by nlinarith
  have hre1 : (⟨1, 0⟩ : ℂ) = 1 := rfl
  have him1 : (⟨0, 1⟩ : ℂ) = Complex.I := rfl
  have hzeta : (⟨x, 0⟩ : ℂ) / (cnll : ℂ) = ((x / cnll : ℝ) : ℂ) := by
    rw [Complex.ofReal_div]
    rfl
  have hsq : (1 : ℂ) - ((x / cnll : ℝ) : ℂ) ^ 2 = ((1 - (x / cnll) ^ 2 : ℝ) : ℂ) := by
    push_cast
    ring
  have hdF : ((x / cnll : ℝ) : ℂ) / ((Real.sqrt (1 - (x / cnll) ^ 2) : ℝ) : ℂ) ^ 2
      + -Complex.I * (((Real.arcsin (x / cnll) : ℝ) : ℂ) * Complex.I)
        / ((Real.sqrt (1 - (x / cnll) ^ 2) : ℝ) : ℂ) ^ 3
      = (((x / cnll) / (1 - (x / cnll) ^ 2)
          + Real.arcsin (x / cnll) / (1 - (x / cnll) ^ 2) ^ ((3 : ℝ) / 2) : ℝ) : ℂ) := by
    have hI : -Complex.I * (((Real.arcsin (x / cnll) : ℝ) : ℂ) * Complex.I)
        = ((Real.arcsin (x / cnll) : ℝ) : ℂ) := by
      linear_combination (-((Real.arcsin (x / cnll) : ℝ) : ℂ)) * Complex.I_sq
    rw [hI, ← sqrt_cube_eq_rpow _ hrad.le]
    push_cast
    rw [← Complex.ofReal_pow (Real.sqrt (1 - (x / cnll) ^ 2)) 2, Real.sq_sqrt hrad.le]
    push_cast
    ring
  have hmap : (NonlinearLens.new knll cnll).op_particle
      { x := x, y := 0, t := t, px := px, py := py, pt := pt } refpart
      = { x := x, y := 0, t := t,
          px := px + -knll / cnll * ((x / cnll) / (1 - (x / cnll) ^ 2)
            + Real.arcsin (x / cnll) / (1 - (x / cnll) ^ 2) ^ ((3 : ℝ) / 2)),
          py := py, pt := pt } := by
    simp only [NonlinearLens.op_particle, NonlinearLens.new, hre1, him1, hzeta, hsq,
      csqrt_ofReal _ hrad.le, clog_arcsin _ hu1.le hu2.le, hdF, Complex.ofReal_re,
      Complex.ofReal_im, mul_zero, add_zero]
  refine ⟨?_, ?_, ?_⟩
  · rw [hmap]
  · rw [hmap]
    ring
  · intro hx
    simp only at hx
    subst hx
    rw [hmap]
    simp only [zero_div, Real.arcsin_zero, add_zero, mul_zero]

theorem NonlinearLens.op_particle_on_axis_witness :
    (2 : ℝ) ≠ 0 ∧ |(1 : ℝ) / 2| < 1 ∧
    ((NonlinearLens.new 3 2).op_particle
        { x := 1, y := 0, t := 0, px := 4, py := 5, pt := 0 }
        (RefPart.ofPtMassCharge (-2) 1 1)).py = 5 :=
  ⟨two_ne_zero, by norm_num [abs_lt],
   (NonlinearLens.op_particle_on_axis 3 2 two_ne_zero
     { x := 1, y := 0, t := 0, px := 4, py := 5, pt := 0 }
     (RefPart.ofPtMassCharge (-2) 1 1) rfl (by norm_num [abs_lt])).1⟩

/-! ## Integrators: running back and forth -/

/-- A loop whose body ignores the loop index is an iterate of the body. -/
theorem integrators.fold_range_eq_iterate {S : Type} (F : S → S) (n : ℕ) (init : S) :
    (List.range n).foldl (fun st _j => F st) init = F^[n] init := by
  induction n with
  | zero => rfl
  | succ n ih =>
    rw [List.range_succ, List.foldl_append, ih, Function.iterate_succ_apply']
    rfl

/-- Running a loop with body `F` and then a loop of the same length with a body `G` that
undoes `F` returns the initial state. -/
theorem integrators.fold_range_leftInverse {S : Type} (F G : S → S) (h : ∀ s, G (F s) = s)
    (n : ℕ) (init : S) :
    (List.range n).foldl (fun st _j => G st) ((List.range n).foldl (fun st _j => F st) init)
      = init := by
  rw [integrators.fold_range_eq_iterate, integrators.fold_range_eq_iterate]
  exact Function.LeftInverse.iterate h n init

/-- C37 (as stated, refuted): the maps of the element `frozen` are inverted by negating the
step length, yet running `symp2_integrate` from `0` to `1` in one step and then from `1` to `0`
in one step does not return the original reference particle: the second call starts with
`zeval = 1` while the first one ended with `zeval = 0`, and `s` ends at `-1` instead of `0`. -/
theorem integrators.symp2_integrate_not_reversible :
    (∀ (tau : ℝ) (st : RefPart × ℝ),
      integrators.frozen.map1 (-tau) (integrators.frozen.map1 tau st) = st) ∧
    (∀ (tau : ℝ) (st : RefPart × ℝ),
      integrators.frozen.map2 (-tau) (integrators.frozen.map2 tau st) = st) ∧
    (∀ (tau : ℝ) (st : RefPart × ℝ),
      integrators.frozen.map3 (-tau) (integrators.frozen.map3 tau st) = st) ∧
    (integrators.symp2_integrate
      (integrators.symp2_integrate (RefPart.ofPtMassCharge (-2) 1 1) 0 1 1 integrators.frozen)
      1 0 1 integrators.frozen).s = -1 ∧
    (RefPart.ofPtMassCharge (-2) 1 1).s = 0 ∧
    integrators.symp2_integrate
      (integrators.symp2_integrate (RefPart.ofPtMassCharge (-2) 1 1) 0 1 1 integrators.frozen)
      1 0 1 integrators.frozen ≠ RefPart.ofPtMassCharge (-2) 1 1 := by
  have hr : List.range 1 = [0] := rfl
  have hs : (integrators.symp2_integrate
      (integrators.symp2_integrate (RefPart.ofPtMassCharge (-2) 1 1) 0 1 1 integrators.frozen)
      1 0 1 integrators.frozen).s = -1 := by
    simp only [integrators.symp2_integrate, integrators.symp2_integrate_state,
      integrators.frozen, Int.toNat_one, hr, List.foldl_cons, List.foldl_nil,
      RefPart.ofPtMassCharge]
    norm_num
  refine ⟨?_, ?_, ?_, hs, rfl, ?_⟩
  · rintro tau ⟨r, z⟩
    simp only [integrators.frozen, neg_mul, add_neg_cancel_right]
  · rintro tau ⟨r, z⟩
    simp only [integrators.frozen, add_neg_cancel_right]
  · rintro tau ⟨r, z⟩
    simp only [integrators.frozen, add_neg_cancel_right]
  · intro h
    rw [h] at hs
    norm_num [RefPart.ofPtMassCharge] at hs

/-- C37 (amended): for any element whose sub-step maps are inverted by negating the step
length (`map_i(-tau)` after `map_i(tau)` is the identity on the (reference particle, `zeval`)
state), running `symp2_integrate`, `symp2_integrate_split3` or `symp4_integrate` from `zin` to
`zout` in `n` steps and then from `zout` to `zin` in `n` steps returns the original
reference-particle state, provided the first run ends with `zeval = zout` (the value with which
the second run starts). -/
theorem integrators.integrate_reversible (element : integrators.T_Element)
    (h1 : ∀ (tau : ℝ) (st : RefPart × ℝ), element.map1 (-tau) (element.map1 tau st) = st)
    (h2 : ∀ (tau : ℝ) (st : RefPart × ℝ), element.map2 (-tau) (element.map2 tau st) = st)
    (h3 : ∀ (tau : ℝ) (st : RefPart × ℝ), element.map3 (-tau) (element.map3 tau st) = st)
    (refpart : RefPart) (zin zout : ℝ) (n : ℤ) (_hn : 1 ≤ n) :
    ((integrators.symp2_integrate_state refpart zin zout n element).2 = zout →
      integrators.symp2_integrate
        (integrators.symp2_integrate refpart zin zout n element) zout zin n element
        = refpart) ∧
    ((integrators.symp2_integrate_split3_state refpart zin zout n element).2 = zout →
      integrators.symp2_integrate_split3
        (integrators.symp2_integrate_split3 refpart zin zout n element) zout zin n element
        = refpart) ∧
    ((integrators.symp4_integrate_state refpart zin zout n element).2 = zout →
      integrators.symp4_integrate
        (integrators.symp4_integrate refpart zin zout n element) zout zin n element
        = refpart) := by
  have hdz : (zin - zout) / (n : ℝ) = -((zout - zin) / (n : ℝ)) := by ring
  refine ⟨?_, ?_, ?_⟩
  · intro hz
    have hst : ((integrators.symp2_integrate refpart zin zout n element, zout) : RefPart × ℝ)
        = integrators.symp2_integrate_state refpart zin zout n element :=
      Prod.ext rfl hz.symm
    have hback : integrators.symp2_integrate_state
        (integrators.symp2_integrate refpart zin zout n element) zout zin n element
        = (refpart, zin) := by
      rw [integrators.symp2_integrate_state, hst, integrators.symp2_integrate_state]
      simp only [hdz, neg_div]
      exact integrators.fold_range_leftInverse _ _
        (fun s => by simp only [h1, h2]) n.toNat (refpart, zin)
    rw [integrators.symp2_integrate, hback]
  · intro hz
    have hst : ((integrators.symp2_integrate_split3 refpart zin zout n element, zout) :
          RefPart × ℝ)
        = integrators.symp2_integrate_split3_state refpart zin zout n element :=
      Prod.ext rfl hz.symm
    have hback : integrators.symp2_integrate_split3_state
        (integrators.symp2_integrate_split3 refpart zin zout n element) zout zin n element
        = (refpart, zin) := by
      rw [integrators.symp2_integrate_split3_state, hst,
        integrators.symp2_integrate_split3_state]
      simp only [hdz, neg_div]
      exact integrators.fold_range_leftInverse _ _
        (fun s => by simp only [h1, h2, h3]) n.toNat (refpart, zin)
    rw [integrators.symp2_integrate_split3, hback]
  · intro hz
    have hst : ((integrators.symp4_integrate refpart zin zout n element, zout) : RefPart × ℝ)
        = integrators.symp4_integrate_state refpart zin zout n element :=
      Prod.ext rfl hz.symm
    have hback : integrators.symp4_integrate_state
        (integrators.symp4_integrate refpart zin zout n element) zout zin n element
        = (refpart, zin) := by
      rw [integrators.symp4_integrate_state, hst, integrators.symp4_integrate_state]
      simp only [hdz, neg_div, mul_neg]
      exact integrators.fold_range_leftInverse _ _
        (fun s => by simp only [h1, h2]) n.toNat (refpart, zin)
    rw [integrators.symp4_integrate, hback]

theorem integrators.integrate_reversible_witness :
    (1 : ℤ) ≤ 1 ∧
    (integrators.symp2_integrate_state (RefPart.ofPtMassCharge (-2) 1 1) 0 1 1
      integrators.probe).2 = 1 ∧
    integrators.symp2_integrate
      (integrators.symp2_integrate (RefPart.ofPtMassCharge (-2) 1 1) 0 1 1 integrators.probe)
      1 0 1 integrators.probe = RefPart.ofPtMassCharge (-2) 1 1 :=
  have hz : (integrators.symp2_integrate_state (RefPart.ofPtMassCharge (-2) 1 1) 0 1 1
      integrators.probe).2 = 1 := by
    have hr : List.range 1 = [0] := rfl
    simp only [integrators.symp2_integrate_state, integrators.probe, Int.toNat_one, hr,
      List.foldl_cons, List.foldl_nil]
    norm_num
  ⟨le_refl 1, hz,
   (integrators.integrate_reversible integrators.probe
     (by rintro tau ⟨r, z⟩; simp only [integrators.probe, add_neg_cancel_right])
     (by rintro tau ⟨r, z⟩; simp only [integrators.probe, add_neg_cancel_right])
     (by rintro tau ⟨r, z⟩; simp only [integrators.probe])
     (RefPart.ofPtMassCharge (-2) 1 1) 0 1 1 (le_refl 1)).1 hz⟩

/-! ## Samplers: domains of the evaluations -/

/-- For a correlation of modulus below one the radicand `1 - mu*mu` is positive. -/
theorem distribution.one_sub_mu_sq_pos (mu : ℝ) (h : |mu| < 1) : 0 < 1 - mu * mu := by
  obtain ⟨h1, h2⟩ := abs_lt.mp h
  nlinarith

/-- For a draw in `(0, 1)` the radicand `-2*log(u)` of the Box-Muller transform is positive. -/
theorem distribution.neg_two_log_pos (u : ℝ) (h0 : 0 < u) (h1 : u < 1) :
    0 < -2 * Real.log u := by
  have := Real.log_neg h0 h1
  linarith

/-- C38 (as stated, refuted): the engine producing the draw `0` at every call stays in `[0,1)`,
yet in `Kurth4D` the denominator `r = sqrt(v)` is zero and the argument `u1` of `log` is zero,
and in `Triangle` the argument `u1` of `log` is zero. -/
theorem distribution.domain_sites_zero_draw :
    (∀ i : ℕ, 0 ≤ (RandomEngine.const 0).stream i ∧ (RandomEngine.const 0).stream i < 1) ∧
    |(0 : ℝ)| < 1 ∧
    (0 : ℝ) ∈ ((distribution.Kurth4D.new 1 1 1 1 1 1 0 0 0).domain_sites
      (RandomEngine.const 0)).1 ∧
    (0 : ℝ) ∈ ((distribution.Kurth4D.new 1 1 1 1 1 1 0 0 0).domain_sites
      (RandomEngine.const 0)).2.2 ∧
    (0 : ℝ) ∈ ((distribution.Triangle.new 1 1 1 1 1 1 0 0 0).domain_sites
      (RandomEngine.const 0)).2.2 := by
  refine ⟨?_, by norm_num, ?_, ?_, ?_⟩
  · intro i
    simp [RandomEngine.const]
  · simp [distribution.Kurth4D.domain_sites, Random, RandomEngine.const]
  · simp [distribution.Kurth4D.domain_sites, Random, RandomEngine.const]
  · simp [distribution.Triangle.domain_sites, Random, RandomEngine.const]

/-- C38 (amended): for every correlation `|mu| < 1` and every sequence of uniform draws in
`[0,1)` in which the draw `v` of `Kurth4D` and the draws passed to `log` (the sixth draw of
`Kurth4D`; the second, fourth and sixth draws of `Triangle`) are nonzero, each evaluation in
`Kurth4D` and `Triangle` is within its domain: every division has a nonzero denominator, every
`sqrt` argument is non-negative and every `log` argument is strictly positive. -/
theorem distribution.domain_sites_in_domain (dk : distribution.Kurth4D)
    (dt : distribution.Triangle)
    (hk : |dk.m_muxpx| < 1 ∧ |dk.m_muypy| < 1 ∧ |dk.m_mutpt| < 1)
    (ht : |dt.m_muxpx| < 1 ∧ |dt.m_muypy| < 1 ∧ |dt.m_mutpt| < 1)
    (ek et : RandomEngine)
    (hek : ∀ i : ℕ, 0 ≤ ek.stream i ∧ ek.stream i < 1)
    (het : ∀ i : ℕ, 0 ≤ et.stream i ∧ et.stream i < 1)
    (hk0 : ek.stream ek.pos ≠ 0) (hk5 : ek.stream (ek.pos + 5) ≠ 0)
    (ht1 : et.stream (et.pos + 1) ≠ 0) (ht3 : et.stream (et.pos + 3) ≠ 0)
    (ht5 : et.stream (et.pos + 5) ≠ 0) :
    ((∀ x ∈ (dk.domain_sites ek).1, x ≠ 0) ∧ (∀ x ∈ (dk.domain_sites ek).2.1, 0 ≤ x) ∧
      (∀ x ∈ (dk.domain_sites ek).2.2, 0 < x)) ∧
    ((∀ x ∈ (dt.domain_sites et).1, x ≠ 0) ∧ (∀ x ∈ (dt.domain_sites et).2.1, 0 ≤ x) ∧
      (∀ x ∈ (dt.domain_sites et).2.2, 0 < x)) := by
  obtain ⟨hkx, hky, hkt⟩ := hk
  obtain ⟨htx, hty, htt⟩ := ht
  have hRk : ∀ mu : ℝ, |mu| < 1 → 0 < Real.sqrt (1 - mu * mu) := fun mu h =>
    Real.sqrt_pos.mpr (distribution.one_sub_mu_sq_pos mu h)
  constructor
  · -- Kurth4D
    have hv : 0 < ek.stream ek.pos := lt_of_le_of_ne (hek _).1 (Ne.symm hk0)
    have hu1 : 0 < ek.stream (ek.pos + 5) := lt_of_le_of_ne (hek _).1 (Ne.symm hk5)
    have hr : 0 < Real.sqrt (ek.stream ek.pos) := Real.sqrt_pos.mpr hv
    have hrr : Real.sqrt (ek.stream ek.pos) ^ 2 = ek.stream ek.pos := Real.sq_sqrt hv.le
    simp only [distribution.Kurth4D.domain_sites, Random, add_assoc, Nat.reduceAdd,
      List.mem_cons, List.mem_singleton, List.not_mem_nil, or_false, forall_eq_or_imp,
      forall_eq]
    refine ⟨⟨hr.ne', hr.ne', (hRk _ hkx).ne', (hRk _ hkx).ne', (hRk _ hky).ne',
      (hRk _ hky).ne', (hRk _ hkt).ne', (hRk _ hkt).ne'⟩,
      ⟨hv.le, ?_, (distribution.neg_two_log_pos _ hu1 (hek _).2).le, by norm_num,
        (distribution.one_sub_mu_sq_pos _ hkx).le, (distribution.one_sub_mu_sq_pos _ hky).le,
        (distribution.one_sub_mu_sq_pos _ hkt).le⟩, hu1⟩
    have hq : Real.sqrt (ek.stream ek.pos) * (2 * ek.stream (ek.pos + 2) - 1)
        / Real.sqrt (ek.stream ek.pos) = 2 * ek.stream (ek.pos + 2) - 1 := by
      field_simp
    rw [hq]
    have hfac : 1 - (2 * ek.stream (ek.pos + 2) - 1) ^ 2 - Real.sqrt (ek.stream ek.pos) ^ 2
        + (Real.sqrt (ek.stream ek.pos) * (2 * ek.stream (ek.pos + 2) - 1)) ^ 2
        = (1 - ek.stream ek.pos) * (4 * ek.stream (ek.pos + 2) * (1 - ek.stream (ek.pos + 2)))
        := by
      rw [mul_pow, hrr]
      ring
    rw [hfac]
    have h1 := (hek ek.pos).2
    have h2 := hek (ek.pos + 2)
    exact mul_nonneg (by linarith) (mul_nonneg (by linarith) (by linarith))
  · -- Triangle
    have h1 : 0 < et.stream (et.pos + 1) := lt_of_le_of_ne (het _).1 (Ne.symm ht1)
    have h3 : 0 < et.stream (et.pos + 3) := lt_of_le_of_ne (het _).1 (Ne.symm ht3)
    have h5 : 0 < et.stream (et.pos + 5) := lt_of_le_of_ne (het _).1 (Ne.symm ht5)
    have hl1 := distribution.neg_two_log_pos _ h1 (het _).2
    have hl3 := distribution.neg_two_log_pos _ h3 (het _).2
    have hl5 := distribution.neg_two_log_pos _ h5 (het _).2
    have hnorm : 0 < Real.sqrt (-2 * Real.log (et.stream (et.pos + 1)))
          * Real.cos (2 * Real.pi * et.stream (et.pos + 2))
          * (Real.sqrt (-2 * Real.log (et.stream (et.pos + 1)))
            * Real.cos (2 * Real.pi * et.stream (et.pos + 2)))
        + (Real.sqrt (-2 * Real.log (et.stream (et.pos + 1)))
          * Real.sin (2 * Real.pi * et.stream (et.pos + 2))
          * (Real.sqrt (-2 * Real.log (et.stream (et.pos + 1)))
            * Real.sin (2 * Real.pi * et.stream (et.pos + 2)))
        + (Real.sqrt (-2 * Real.log (et.stream (et.pos + 3)))
          * Real.cos (2 * Real.pi * et.stream (et.pos + 4))
          * (Real.sqrt (-2 * Real.log (et.stream (et.pos + 3)))
            * Real.cos (2 * Real.pi * et.stream (et.pos + 4)))
        + Real.sqrt (-2 * Real.log (et.stream (et.pos + 3)))
          * Real.sin (2 * Real.pi * et.stream (et.pos + 4))
          * (Real.sqrt (-2 * Real.log (et.stream (et.pos + 3)))
            * Real.sin (2 * Real.pi * et.stream (et.pos + 4))))) := by
      have hs := Real.sq_sqrt hl1.le
      have hcs := Real.cos_sq_add_sin_sq (2 * Real.pi * et.stream (et.pos + 2))
      generalize Real.sqrt (-2 * Real.log (et.stream (et.pos + 1))) = L at hs ⊢
      generalize Real.cos (2 * Real.pi * et.stream (et.pos + 2)) = c at hcs ⊢
      generalize Real.sin (2 * Real.pi * et.stream (et.pos + 2)) = s at hcs ⊢
      have e12 : L * c * (L * c) + L * s * (L * s) = -2 * Real.log (et.stream (et.pos + 1)) := by
        rw [← hs]
        linear_combination L ^ 2 * hcs
      nlinarith [mul_self_nonneg (Real.sqrt (-2 * Real.log (et.stream (et.pos + 3)))
          * Real.cos (2 * Real.pi * et.stream (et.pos + 4))),
        mul_self_nonneg (Real.sqrt (-2 * Real.log (et.stream (et.pos + 3)))
          * Real.sin (2 * Real.pi * et.stream (et.pos + 4)))]
    have hN := Real.sqrt_pos.mpr hnorm
    simp only [distribution.Triangle.domain_sites, Random, add_assoc, Nat.reduceAdd,
      List.mem_cons, List.mem_singleton, List.not_mem_nil, or_false, forall_eq_or_imp,
      forall_eq]
    exact ⟨⟨hN.ne', hN.ne', hN.ne', hN.ne', by norm_num, (hRk _ htx).ne', (hRk _ htx).ne',
      (hRk _ hty).ne', (hRk _ hty).ne', (hRk _ htt).ne', (hRk _ htt).ne'⟩,
      ⟨by norm_num, (het _).1, hl1.le, hl3.le, hl5.le, hnorm.le, by norm_num,
        (distribution.one_sub_mu_sq_pos _ htx).le, (distribution.one_sub_mu_sq_pos _ hty).le,
        (distribution.one_sub_mu_sq_pos _ htt).le⟩, h1, h3, h5⟩

theorem distribution.domain_sites_in_domain_witness :
    |(0 : ℝ)| < 1 ∧ (RandomEngine.const (1 / 2)).stream 0 ≠ 0 ∧
    ¬ (0 : ℝ) ∈ ((distribution.Kurth4D.new 1 1 1 1 1 1 0 0 0).domain_sites
      (RandomEngine.const (1 / 2))).1 :=
  have hmu : |(0 : ℝ)| < 1 := by norm_num
  have hdraw : ∀ i : ℕ, 0 ≤ (RandomEngine.const (1 / 2)).stream i
      ∧ (RandomEngine.const (1 / 2)).stream i < 1 := by
    intro i
    norm_num [RandomEngine.const]
  have hne : ∀ i : ℕ, (RandomEngine.const (1 / 2)).stream i ≠ 0 := by
    intro i
    norm_num [RandomEngine.const]
  ⟨hmu, hne 0,
   fun h0 => (distribution.domain_sites_in_domain
     (distribution.Kurth4D.new 1 1 1 1 1 1 0 0 0)
     (distribution.Triangle.new 1 1 1 1 1 1 0 0 0)
     ⟨hmu, hmu, hmu⟩ ⟨hmu, hmu, hmu⟩
     (RandomEngine.const (1 / 2)) (RandomEngine.const (1 / 2)) hdraw hdraw
     (hne _) (hne _) (hne _) (hne _) (hne _)).1.1 0 h0 rfl⟩

end impactx
